import Mathlib

/-!
Verification of the markdown-input editing model (`markdown-input.component.ts`):
an in-memory rich-text document (paragraphs of plain text runs and links),
character-level edit operations, selection handling and a markdown codec.

The TypeScript code mutates an object graph with shared references
(a `Point` holds a reference to a `Text` object that survives structural
edits), so the embedding uses an arena: every `Text`, `Link` and `Paragraph`
object is an arena entry addressed by a numeric id, the document is the
ordered list of paragraph ids currently attached to the root, and each
method of the source becomes a computation in a state monad over the arena
that keeps the state reached at the point of a thrown error.
-/

namespace MarkdownInput

/-- Character strings, as lists of characters (JS strings). -/
abbrev Str := List Char

/-- JS whitespace (the characters relevant to `String.prototype.trim`). -/
def isWsChar (c : Char) : Bool :=
  c = ' ' || c = '\t' || c = '\n' || c = '\r' || c = '\x0b' || c = '\x0c'

/-- JS `String.prototype.trim`. -/
def jsTrim (s : Str) : Str :=
  (((s.dropWhile isWsChar).reverse).dropWhile isWsChar).reverse

/-- Clamp a JS index argument into `[0, n]` (as `String.prototype.substring` does). -/
def clampIdx (n : Nat) (i : Int) : Nat :=
  if i ≤ 0 then 0 else min i.toNat n

/-- JS `s.substring(a, b)`: clamps both arguments into `[0, length]` and swaps
them when given in reverse order. -/
def jsSubstring (s : Str) (a b : Int) : Str :=
  let a' := clampIdx s.length a
  let b' := clampIdx s.length b
  (s.take (max a' b')).drop (min a' b')

/-- JS `s.substring(a)` (to the end of the string). -/
def jsSubstringFrom (s : Str) (a : Int) : Str :=
  jsSubstring s a s.length

/-- The `Text` content setter applies `value || ' '`: the empty string is
replaced by a single space. -/
def orSpace (s : Str) : Str :=
  if s = [] then [' '] else s

/-! ## The object arena -/

/-- Owner of a `Text` object: a paragraph or a link (the source's
`Text.parent : Paragraph|Link` back-reference). -/
inductive Parent where
  | para (pid : Nat)
  | link (lid : Nat)
deriving DecidableEq, Repr

/-- A `Text` object: its character content and its owner back-reference. -/
structure TextObj where
  content : Str
  parent : Parent
deriving DecidableEq, Repr

/-- A `Link` object: its single `Text` (by id), target string, and owning
paragraph back-reference. -/
structure LinkObj where
  textId : Nat
  target : Str
  parent : Nat
deriving DecidableEq, Repr

/-- An inline content node of a paragraph: a text run or a link (by id). -/
inductive Item where
  | text (tid : Nat)
  | link (lid : Nat)
deriving DecidableEq, Repr

/-- A `Paragraph` object: its ordered inline content. -/
structure ParaObj where
  content : List Item
deriving DecidableEq, Repr

/-- A `Point`: a text-run id plus a character offset. -/
structure Point where
  tid : Nat
  offset : Int
deriving DecidableEq, Repr

/-- A `LinkableSelection`: candidate substring bounds inside a text run plus
the cursor offset to restore after linking. -/
structure LinkableSel where
  tid : Nat
  start : Int
  end' : Int
  cursor : Int
deriving DecidableEq, Repr

/-- A `LinkedSelection`: the link the cursor is in plus the cursor offset. -/
structure LinkedSel where
  link : Nat
  cursor : Int
deriving DecidableEq, Repr

/-- The whole model state: arenas for the three object kinds, the document
(ordered list of attached paragraph ids), the two cached selection-derived
values, the last cursor placement directive, and the fresh-id counter. -/
structure St where
  texts : List (Nat × TextObj)
  links : List (Nat × LinkObj)
  paras : List (Nat × ParaObj)
  doc : List Nat
  linkableSelection : Option LinkableSel
  linkedSelection : Option LinkedSel
  cursor : Option Point
  fresh : Nat
deriving DecidableEq, Repr

/-- Association-list lookup by id. -/
def alookup (k : Nat) : List (Nat × α) → Option α
  | [] => none
  | (k', v) :: rest => if k = k' then some v else alookup k rest

/-- Association-list update of the first entry with the given id. -/
def aupdate (k : Nat) (v : α) : List (Nat × α) → List (Nat × α)
  | [] => []
  | (k', v') :: rest => if k = k' then (k', v) :: rest else (k', v') :: aupdate k v rest

/-- Dereference a text id (object references in the source always resolve;
a junk default stands in on unreachable states). -/
def findText (st : St) (tid : Nat) : TextObj :=
  (alookup tid st.texts).getD ⟨[], .para 0⟩

/-- Dereference a link id. -/
def findLink (st : St) (lid : Nat) : LinkObj :=
  (alookup lid st.links).getD ⟨0, [], 0⟩

/-- Dereference a paragraph id. -/
def findPara (st : St) (pid : Nat) : ParaObj :=
  (alookup pid st.paras).getD ⟨[]⟩

/-! ## The computation monad

Methods of the source become computations `St → Res α`; a thrown `Error`
keeps the state reached at the throw (mutations before the throw persist,
as they do in the source). -/

/-- The faults the source can signal. -/
inductive Err where
  | notDocument
  | notParagraph
  | notLink
  | notAText
  | notSingleChild
  | illegalState
  | illegalArgument
  | noContent
  | invalidAddress
  | rangeOutOfBounds
deriving DecidableEq, Repr

/-- Result of a computation: a value or an error, with the state either way. -/
inductive Res (α : Type) where
  | ok (a : α) (s : St)
  | err (e : Err) (s : St)

/-- The state carried by a result. -/
def Res.st : Res α → St
  | .ok _ s => s
  | .err _ s => s

def M (α : Type) : Type := St → Res α

def M.pure (a : α) : M α := fun s => .ok a s

def M.bind (x : M α) (f : α → M β) : M β := fun s =>
  match x s with
  | .ok a s' => f a s'
  | .err e s' => .err e s'

instance : Monad M where
  pure := M.pure
  bind := M.bind

def M.get : M St := fun s => .ok s s

def M.modify (f : St → St) : M Unit := fun s => .ok () (f s)

def M.throw (e : Err) : M α := fun s => .err e s

/-- Lift a pure, state-independent computation (a read that may throw). -/
def liftE (e : Except Err α) : M α := fun s =>
  match e with
  | .ok a => .ok a s
  | .error er => .err er s

/-! ## Array utilities

Modelled from the spec: the repository's `utils/array` helpers
(`insertBefore`, `remove`, `previousOf`, `nextOf`, `previousOfMapped`,
`nextOfMapped`) are not among the provided sources; they are modelled here
with their evident index-based semantics (find the element, then
insert/remove/step relative to its index; `splice` on the `-1` of a failed
`indexOf` inserts before the last element). -/

/-- Index of the first occurrence of an element. -/
def idxOf [DecidableEq α] (x : α) : List α → Option Nat
  | [] => none
  | a :: rest => if a = x then some 0 else (idxOf x rest).map (· + 1)

/-- Modelled from the spec: `utils/array` `insertBefore` — insert `x` before
the reference element (before the last position when the reference is
absent, as `splice` does with index `-1`). -/
def insertBeforeArr [DecidableEq α] (x ref : α) : List α → List α
  | [] => [x]
  | a :: rest =>
    if a = ref then x :: a :: rest
    else match rest with
      | [] => [x, a]
      | _ => a :: insertBeforeArr x ref rest

/-- Modelled from the spec: `utils/array` `remove` — remove the first
occurrence of an element (no-op when absent). -/
def removeFirstArr [DecidableEq α] (x : α) : List α → List α
  | [] => []
  | a :: rest => if a = x then rest else a :: removeFirstArr x rest

/-- Modelled from the spec: `utils/array` `previousOf` — the element just
before the given one. -/
def previousOfArr [DecidableEq α] (l : List α) (x : α) : Option α :=
  match idxOf x l with
  | some (i + 1) => l.get? i
  | _ => none

/-- Modelled from the spec: `utils/array` `nextOf` — the element just after
the given one. -/
def nextOfArr [DecidableEq α] (l : List α) (x : α) : Option α :=
  match idxOf x l with
  | some i => l.get? (i + 1)
  | none => none

/-! ## Pure readers (getters of the source; they never mutate) -/

/-- The `.text` getter of an inline node: a `Text` is its own text, a `Link`
yields its single `Text`. -/
def itemTextP (st : St) : Item → Nat
  | .text tid => tid
  | .link lid => (findLink st lid).textId

/-- The `.content` getter of an inline node (a `Link` delegates to its text). -/
def itemContentP (st : St) (it : Item) : Str :=
  (findText st (itemTextP st it)).content

/-- `Text.containingParagraph`: the paragraph this run lives in (through the
link when inside one). -/
def containingParagraphP (st : St) (tid : Nat) : Nat :=
  match (findText st tid).parent with
  | .para pid => pid
  | .link lid => (findLink st lid).parent

/-- `Text.isInLink`. -/
def isInLinkP (st : St) (tid : Nat) : Bool :=
  match (findText st tid).parent with
  | .para _ => false
  | .link _ => true

/-- `Paragraph.lastContent` (throws on a paragraph with no content). -/
def lastContentP (st : St) (pid : Nat) : Except Err Item :=
  match (findPara st pid).content.getLast? with
  | some it => .ok it
  | none => .error .noContent

/-- `Paragraph.firstContent` (throws on a paragraph with no content). -/
def firstContentP (st : St) (pid : Nat) : Except Err Item :=
  match (findPara st pid).content.head? with
  | some it => .ok it
  | none => .error .noContent

/-- `Paragraph.lastText`. -/
def lastTextP (st : St) (pid : Nat) : Except Err Nat := do
  let it ← lastContentP st pid
  .ok (itemTextP st it)

/-- `Paragraph.firstText`. -/
def firstTextP (st : St) (pid : Nat) : Except Err Nat := do
  let it ← firstContentP st pid
  .ok (itemTextP st it)

/-- `Model.getPrecedingText`: last text of the previous paragraph. -/
def modelGetPrecedingTextP (st : St) (pid : Nat) : Except Err (Option Nat) :=
  match previousOfArr st.doc pid with
  | some prev => do
      let t ← lastTextP st prev
      .ok (some t)
  | none => .ok none

/-- `Model.getFollowingText`: first text of the next paragraph. -/
def modelGetFollowingTextP (st : St) (pid : Nat) : Except Err (Option Nat) :=
  match nextOfArr st.doc pid with
  | some next => do
      let t ← firstTextP st next
      .ok (some t)
  | none => .ok none

/-- `Paragraph.getPrecedingText`: previous inline node's text (by the mapped
index of the given text among the paragraph's content), falling back to the
document when the text heads the paragraph. -/
def paraGetPrecedingTextP (st : St) (pid tid : Nat) : Except Err (Option Nat) :=
  let mapped := (findPara st pid).content.map (itemTextP st)
  match idxOf tid mapped with
  | some (i + 1) =>
      match (findPara st pid).content.get? i with
      | some it => .ok (some (itemTextP st it))
      | none => modelGetPrecedingTextP st pid
  | _ => modelGetPrecedingTextP st pid

/-- `Paragraph.getFollowingText`. -/
def paraGetFollowingTextP (st : St) (pid tid : Nat) : Except Err (Option Nat) :=
  let mapped := (findPara st pid).content.map (itemTextP st)
  match idxOf tid mapped with
  | some i =>
      match (findPara st pid).content.get? (i + 1) with
      | some it => .ok (some (itemTextP st it))
      | none => modelGetFollowingTextP st pid
  | none => modelGetFollowingTextP st pid

/-- `Text.getPrecedingText` (through the owning link if any). -/
def textGetPrecedingTextP (st : St) (tid : Nat) : Except Err (Option Nat) :=
  match (findText st tid).parent with
  | .para pid => paraGetPrecedingTextP st pid tid
  | .link lid => paraGetPrecedingTextP st (findLink st lid).parent (findLink st lid).textId

/-- `Text.getFollowingText` (through the owning link if any). -/
def textGetFollowingTextP (st : St) (tid : Nat) : Except Err (Option Nat) :=
  match (findText st tid).parent with
  | .para pid => paraGetFollowingTextP st pid tid
  | .link lid => paraGetFollowingTextP st (findLink st lid).parent (findLink st lid).textId

/-- The `Selection` constructor's walk collecting the texts strictly between
the end and the start (in reverse document order).  A `null` from
`getPrecedingText` means the next dereference crashes in the source; fuel is
bounded by the number of text objects, so exhaustion only happens on states
with inconsistent back-references, where the source would not terminate. -/
def walkBetween (st : St) (startTid : Nat) : Nat → Option Nat → Except Err (List Nat)
  | _, none => .error .invalidAddress
  | 0, some _ => .error .invalidAddress
  | fuel + 1, some t =>
    if t = startTid then .ok []
    else do
      let next ← textGetPrecedingTextP st t
      let rest ← walkBetween st startTid fuel next
      .ok (t :: rest)

/-! ## Arena primitives (constructors and the mutating setters) -/

/-- `new Paragraph(model)`: allocate an empty paragraph object (not yet in
the document). -/
def Paragraph.new : M Nat := fun s =>
  .ok s.fresh { s with paras := (s.fresh, ⟨[]⟩) :: s.paras, fresh := s.fresh + 1 }

/-- `new Text(parent, content)`: allocate a text object; the constructor
assigns through the content setter (`value || ' '`). -/
def Text.new (content : Str) (parent : Parent) : M Nat := fun s =>
  .ok s.fresh
    { s with
      texts := (s.fresh, ⟨orSpace content, parent⟩) :: s.texts
      fresh := s.fresh + 1 }

/-- `new Link(parent, text, target)`: allocate a link and its single text
(whose parent is the link). -/
def Link.new (parentPid : Nat) (content target : Str) : M Nat := fun s =>
  .ok s.fresh
    { s with
      links := (s.fresh, ⟨s.fresh + 1, target, parentPid⟩) :: s.links
      texts := (s.fresh + 1, ⟨orSpace content, .link s.fresh⟩) :: s.texts
      fresh := s.fresh + 2 }

/-- The `Text.content` setter: an empty assignment stores a single space. -/
def Text.setContent (tid : Nat) (v : Str) : M Unit := fun s =>
  .ok () { s with texts := aupdate tid ⟨orSpace v, (findText s tid).parent⟩ s.texts }

/-- The `content` setter of an inline node (a `Link` delegates to its text). -/
def Item.setContent (it : Item) (v : Str) : M Unit := fun s =>
  match it with
  | .text tid => Text.setContent tid v s
  | .link lid => Text.setContent (findLink s lid).textId v s

/-- `Text.append`. -/
def Text.append (tid : Nat) (v : Str) : M Unit := fun s =>
  Text.setContent tid ((findText s tid).content ++ v) s

/-- `Model.removeContent`: detach a paragraph from the document. -/
def Model.removeContent (pid : Nat) : M Unit := fun s =>
  .ok () { s with doc := removeFirstArr pid s.doc }

/-- `Model.addParagraph` (DOM bookkeeping dropped; the rendered surface is
an external collaborator). -/
def Model.addParagraph (pid : Nat) : M Unit := fun s =>
  .ok () { s with doc := s.doc ++ [pid] }

/-- `Model.insertParagraphBefore`. -/
def Model.insertParagraphBefore (newPid refPid : Nat) : M Unit := fun s =>
  .ok () { s with doc := insertBeforeArr newPid refPid s.doc }

/-- `Paragraph.addContent`. -/
def Paragraph.addContent (pid : Nat) (it : Item) : M Unit := fun s =>
  .ok () { s with paras := aupdate pid ⟨(findPara s pid).content ++ [it]⟩ s.paras }

/-- `Paragraph.addContentBefore`. -/
def Paragraph.addContentBefore (pid : Nat) (it ref : Item) : M Unit := fun s =>
  .ok () { s with paras := aupdate pid ⟨insertBeforeArr it ref (findPara s pid).content⟩ s.paras }

/-- The cursor-placement sink (`utils/dom` `moveCursor`): record the
directive. -/
def moveCursorDirect (p : Point) : M Unit := fun s =>
  .ok () { s with cursor := some p }

/-- `Model.moveCursor`: place the cursor when a point is available. -/
def Model.moveCursor (p : Option Point) : M Unit :=
  match p with
  | some pt => moveCursorDirect pt
  | none => M.pure ()

/-! ## Structural removal (the cascading `removeContent` family) -/

/-- `Paragraph.removeContent`: removing the only content removes the whole
paragraph from the document (the content stays on the detached object);
otherwise just the node is removed. -/
def Paragraph.removeContent (pid : Nat) (it : Item) : M Unit := fun s =>
  if (findPara s pid).content.length = 1 then
    Model.removeContent pid s
  else
    .ok () { s with paras := aupdate pid ⟨removeFirstArr it (findPara s pid).content⟩ s.paras }

/-- `Link.remove`: remove the link from its paragraph. -/
def Link.remove (lid : Nat) : M Unit := fun s =>
  Paragraph.removeContent (findLink s lid).parent (.link lid) s

/-- `Link.removeContent`: only the link's own text may be removed, and doing
so removes the link itself. -/
def Link.removeContent (lid tid : Nat) : M Unit := fun s =>
  if tid ≠ (findLink s lid).textId then M.throw .illegalArgument s
  else Link.remove lid s

/-- `Text.remove`: capture the preceding text, remove this run from its
parent (cascading), and return the point at the preceding run's end. -/
def Text.remove (tid : Nat) : M (Option Point) := do
  let st ← M.get
  let previous ← liftE (textGetPrecedingTextP st tid)
  match (findText st tid).parent with
  | .para pid => Paragraph.removeContent pid (.text tid)
  | .link lid => Link.removeContent lid tid
  match previous with
  | some p => do
      let st' ← M.get
      pure (some ⟨p, ((findText st' p).content.length : Int)⟩)
  | none => pure none

/-! ## Character-level edits on a text run -/

/-- `Text.removeRange`: bounds check (`start < 0 || end > length`), full-range
deletion removes the run, otherwise the substring is cut out in place. -/
def Text.removeRange (tid : Nat) (a b : Int) : M (Option Point) := do
  let st ← M.get
  let content := (findText st tid).content
  if a < 0 ∨ b > (content.length : Int) then M.throw .rangeOutOfBounds
  else if a = 0 ∧ b = (content.length : Int) then Text.remove tid
  else do
    Text.setContent tid (jsSubstring content 0 a ++ jsSubstringFrom content b)
    pure (some ⟨tid, a⟩)

/-- `Text.removeAfter`. -/
def Text.removeAfter (tid : Nat) (offset : Int) : M (Option Point) := do
  let st ← M.get
  Text.removeRange tid offset ((findText st tid).content.length : Int)

/-- `Text.removeBefore`. -/
def Text.removeBefore (tid : Nat) (offset : Int) : M (Option Point) :=
  Text.removeRange tid 0 offset

/-- `Text.removeLastCharacter`: a run of length ≤ 1 is removed entirely. -/
def Text.removeLastCharacter (tid : Nat) : M (Option Point) := do
  let st ← M.get
  let len := (findText st tid).content.length
  if len ≤ 1 then Text.remove tid
  else Text.removeRange tid ((len : Int) - 1) (len : Int)

/-- `Text.removeFirstCharacter`: a run of length ≤ 1 is removed entirely. -/
def Text.removeFirstCharacter (tid : Nat) : M (Option Point) := do
  let st ← M.get
  if (findText st tid).content.length ≤ 1 then Text.remove tid
  else Text.removeRange tid 0 1

/-- `Text.insertChar`: splice the character(s) in at the offset (via the JS
`substring` clamping) and return the point one past the given offset. -/
def Text.insertChar (tid : Nat) (c : Str) (offset : Int) : M Point := do
  let st ← M.get
  let content := (findText st tid).content
  Text.setContent tid
    (jsSubstring content 0 offset ++ c ++ jsSubstring content offset (content.length : Int))
  pure ⟨tid, offset + 1⟩

/-! ## Copies, paragraph append, combine, split, merge -/

/-- `copyToParent`: a deep copy re-parented into the given paragraph. -/
def Item.copyToParent (it : Item) (parentPid : Nat) : M Item := do
  let st ← M.get
  match it with
  | .text tid => do
      let t ← Text.new (findText st tid).content (.para parentPid)
      pure (.text t)
  | .link lid => do
      let l ← Link.new parentPid (findText st (findLink st lid).textId).content
        (findLink st lid).target
      pure (.link l)

/-- `Paragraph.appendText`: append to the trailing plain run when there is
one, otherwise add a fresh text node. -/
def Paragraph.appendText (pid : Nat) (v : Str) : M Unit := do
  let st ← M.get
  match (findPara st pid).content.getLast? with
  | some (.text tid) => Text.append tid v
  | _ => do
      let t ← Text.new v (.para pid)
      Paragraph.addContent pid (.text t)

/-- The content loop of `Paragraph.combineWith`: the first child merges into
the trailing run when both are plain text (replacing it when the trailing
text is whitespace-only), everything else is deep-copied and appended. -/
def combineLoop (pid : Nat) (lastOfThis : Item) : Bool → List Item → M Unit
  | _, [] => M.pure ()
  | firstChild, c :: rest => do
    (match firstChild, lastOfThis, c with
     | true, .text ltid, .text ctid => do
        let st ← M.get
        if jsTrim (findText st ltid).content ≠ [] then
          Text.append ltid (findText st ctid).content
        else
          Text.setContent ltid (findText st ctid).content
     | _, _, _ => do
        let copy ← Item.copyToParent c pid
        Paragraph.addContent pid copy)
    combineLoop pid lastOfThis false rest

/-- `Paragraph.combineWith`: append the other paragraph's content, remove the
other paragraph, and return the point at the old boundary (offset 0 when the
trailing run was whitespace-only, else its original length).  Self-merge is a
no-op returning no point. -/
def Paragraph.combineWith (pid other : Nat) : M (Option Point) := do
  if other = pid then pure none
  else do
    let st ← M.get
    match (findPara st pid).content.getLast? with
    | none => M.throw .noContent
    | some lastOfThis => do
      let lastContentBeforeChanges := (findText st (itemTextP st lastOfThis)).content
      combineLoop pid lastOfThis true (findPara st other).content
      Model.removeContent other
      let st' ← M.get
      pure (some ⟨itemTextP st' lastOfThis,
        if jsTrim lastContentBeforeChanges = [] then 0
        else (lastContentBeforeChanges.length : Int)⟩)

/-- `Text.removeNextChar`: in-run deletion, or at the end of the run either a
cross-paragraph merge or deletion of the neighbor's first character. -/
def Text.removeNextChar (tid : Nat) (offset : Int) : M (Option Point) := do
  let st ← M.get
  if offset ≥ ((findText st tid).content.length : Int) then do
    let next ← liftE (textGetFollowingTextP st tid)
    match next with
    | some n =>
        if containingParagraphP st n ≠ containingParagraphP st tid then
          Paragraph.combineWith (containingParagraphP st tid) (containingParagraphP st n)
        else Text.removeFirstCharacter n
    | none => pure none
  else Text.removeRange tid offset (offset + 1)

/-- `Text.removePreviousChar`: in-run deletion, or at offset 0 either a
cross-paragraph merge or deletion of the neighbor's last character. -/
def Text.removePreviousChar (tid : Nat) (offset : Int) : M (Option Point) := do
  let st ← M.get
  if offset ≤ 0 then do
    let previous ← liftE (textGetPrecedingTextP st tid)
    match previous with
    | some p =>
        if containingParagraphP st p ≠ containingParagraphP st tid then
          Paragraph.combineWith (containingParagraphP st p) (containingParagraphP st tid)
        else Text.removeLastCharacter p
    | none => pure none
  else Text.removeRange tid (offset - 1) offset

/-- `content.remove()` on an inline node (result point discarded). -/
def Item.removeSelf : Item → M Unit
  | .text tid => do
      let _ ← Text.remove tid
      pure ()
  | .link lid => Link.remove lid

/-- The removal loop at the end of `Paragraph.splitTo`. -/
def removeItems : List Item → M Unit
  | [] => M.pure ()
  | it :: rest => do
      Item.removeSelf it
      removeItems rest

/-- The walk of `Paragraph.splitTo`: deep-copy everything before the split
run into the new paragraph (collecting it for removal); at the split run,
move the left part into the new paragraph and keep the right part in place,
then stop. -/
def splitLoop (prependingPid fromTid : Nat) (fromOffset : Int) :
    List Item → M (List Item)
  | [] => M.pure []
  | c :: rest => do
    let st ← M.get
    if itemTextP st c = fromTid then do
      let contentText := itemContentP st c
      Paragraph.appendText prependingPid (jsSubstring contentText 0 fromOffset)
      let st2 ← M.get
      Item.setContent c
        (jsSubstring contentText fromOffset ((findText st2 fromTid).content.length : Int))
      M.pure []
    else do
      let copy ← Item.copyToParent c prependingPid
      Paragraph.addContent prependingPid copy
      let rest' ← splitLoop prependingPid fromTid fromOffset rest
      M.pure (c :: rest')

/-- `Paragraph.splitTo`: split this paragraph at (run, offset) into the given
(prepended) paragraph; an empty result gets one empty text run; returns the
point at the start of this paragraph's first remaining text. -/
def Paragraph.splitTo (pid prependingPid fromTid : Nat) (fromOffset : Int) : M Point := do
  let st ← M.get
  let contentToRemove ← splitLoop prependingPid fromTid fromOffset (findPara st pid).content
  removeItems contentToRemove
  let st2 ← M.get
  if (findPara st2 prependingPid).content = [] then do
    let t ← Text.new [] (.para prependingPid)
    Paragraph.addContent prependingPid (.text t)
  else pure ()
  let st3 ← M.get
  let ft ← liftE (firstTextP st3 pid)
  pure ⟨ft, 0⟩

/-- The scan of `Paragraph.mergeConsecutiveTexts`: adjacent plain runs are
collapsed into the first, rewriting the cursor when its run is discarded. -/
def mergeLoop (cursor : Point) : Item → List Item → Point → M Point
  | _, [], acc => M.pure acc
  | prev, cur :: rest, acc =>
    match prev, cur with
    | .text ptid, .text ctid => do
        let st ← M.get
        let previousLengthBeforeAppending := (findText st ptid).content.length
        Text.append ptid (findText st ctid).content
        let acc' := if cursor.tid = ctid then
            Point.mk ptid ((previousLengthBeforeAppending : Int) + acc.offset)
          else acc
        let _ ← Text.remove ctid
        mergeLoop cursor (.text ptid) rest acc'
    | _, _ => mergeLoop cursor cur rest acc

/-- `Paragraph.mergeConsecutiveTexts`, ending with the cursor placement. -/
def Paragraph.mergeConsecutiveTexts (pid : Nat) (cursor : Point) : M Unit := do
  let st ← M.get
  let cursorAfterMerging ←
    match (findPara st pid).content with
    | first :: second :: rest => mergeLoop cursor first (second :: rest) cursor
    | _ => M.pure cursor
  moveCursorDirect cursorAfterMerging

/-! ## Address resolution and selections -/

/-- `findTextForPath` on an inline node: a text accepts only an exhausted
path; a link requires exactly one more index and it must be 0. -/
def Item.findTextForPath (it : Item) (rest : List Nat) : M Nat :=
  match it with
  | .text tid => if rest = [] then pure tid else M.throw .illegalState
  | .link lid =>
    match rest with
    | [] => M.throw .illegalState
    | k :: rest2 =>
      if k = 0 ∧ rest2 = [] then do
        let st ← M.get
        pure (findLink st lid).textId
      else M.throw .illegalState

/-- `Paragraph.findTextForPath`: index into the content, then recurse. -/
def Paragraph.findTextForPath (pid : Nat) (path : List Nat) : M Nat :=
  match path with
  | [] => M.throw .invalidAddress
  | j :: rest => do
    let st ← M.get
    match (findPara st pid).content.get? j with
    | some it => Item.findTextForPath it rest
    | none => M.throw .invalidAddress

/-- `Model.findTextForPath`: index into the document, then recurse. -/
def Model.findTextForPath (path : List Nat) : M Nat :=
  match path with
  | [] => M.throw .invalidAddress
  | i :: rest => do
    let st ← M.get
    match st.doc.get? i with
    | some pid => Paragraph.findTextForPath pid rest
    | none => M.throw .invalidAddress

/-- The host's selection: two leaf addresses plus character offsets. -/
structure HostSel where
  startPath : List Nat
  startOffset : Int
  endPath : List Nat
  endOffset : Int
deriving DecidableEq, Repr

/-- A resolved `Selection`: two points plus the text runs strictly between
them (populated only when the end points lie in different runs). -/
structure Selection where
  start : Point
  end' : Point
  textBetween : List Nat
deriving DecidableEq, Repr

/-- `Selection.isRange`. -/
def Selection.isRange (sel : Selection) : Bool :=
  sel.start.tid ≠ sel.end'.tid || sel.start.offset ≠ sel.end'.offset

/-- `Model.getSelection`: seed an empty document with one paragraph holding
one empty text run (cursor at its start), then resolve both host addresses
and build the `Selection` (including its between-texts walk). -/
def Model.getSelection (hs : HostSel) : M Selection := do
  let st0 ← M.get
  if st0.doc = [] then do
    let pid ← Paragraph.new
    let tid ← Text.new [] (.para pid)
    Paragraph.addContent pid (.text tid)
    Model.addParagraph pid
    Model.moveCursor (some ⟨tid, 0⟩)
  else pure ()
  let startTid ← Model.findTextForPath hs.startPath
  let endTid ← Model.findTextForPath hs.endPath
  if startTid ≠ endTid then do
    let st ← M.get
    let first ← liftE (textGetPrecedingTextP st endTid)
    let tb ← liftE (walkBetween st startTid (st.texts.length + 1) first)
    pure ⟨⟨startTid, hs.startOffset⟩, ⟨endTid, hs.endOffset⟩, tb⟩
  else
    pure ⟨⟨startTid, hs.startOffset⟩, ⟨endTid, hs.endOffset⟩, []⟩

/-- `Selection.remove`: across runs, drop the runs strictly between, the
start run's tail and the end run's head, then merge the containing
paragraphs; within one run, delete the substring. -/
def Selection.remove (sel : Selection) : M (Option Point) := do
  if sel.start.tid ≠ sel.end'.tid then do
    removeItems (sel.textBetween.map Item.text)
    let _ ← Text.removeAfter sel.start.tid sel.start.offset
    let _ ← Text.removeBefore sel.end'.tid sel.end'.offset
    let st ← M.get
    let _ ← Paragraph.combineWith (containingParagraphP st sel.start.tid)
      (containingParagraphP st sel.end'.tid)
    pure (some ⟨sel.start.tid, sel.start.offset⟩)
  else Text.removeRange sel.start.tid sel.start.offset sel.end'.offset

/-- Modelled from the spec: utils/string `wordAtOffset` — the bounds of the
maximal run of non-whitespace characters containing the cursor offset, or
none when the cursor touches no word. -/
def wordAtOffset (s : Str) (off : Int) : Option (Nat × Nat) :=
  if off < 0 ∨ off > (s.length : Int) then none
  else
    let i := off.toNat
    let left := ((s.take i).reverse.takeWhile (fun c => ¬ isWsChar c)).reverse
    let right := (s.drop i).takeWhile (fun c => ¬ isWsChar c)
    if left = [] ∧ right = [] then none
    else some (i - left.length, i + right.length)

/-- `Selection.linkable`: defined when both points share a run outside any
link; a range carries its own bounds, a collapsed cursor the surrounding
word's. -/
def Selection.linkableP (st : St) (sel : Selection) : Option LinkableSel :=
  if sel.start.tid = sel.end'.tid ∧ ¬ isInLinkP st sel.start.tid then
    if sel.isRange then
      some ⟨sel.start.tid, sel.start.offset, sel.end'.offset, sel.end'.offset⟩
    else
      match wordAtOffset (findText st sel.start.tid).content sel.start.offset with
      | some (ws, we) => some ⟨sel.start.tid, (ws : Int), (we : Int), sel.end'.offset⟩
      | none => none
  else none

/-- `Selection.link`: defined when both points share a run inside a link. -/
def Selection.linkP (st : St) (sel : Selection) : Option LinkedSel :=
  if sel.start.tid = sel.end'.tid ∧ isInLinkP st sel.start.tid then
    match (findText st sel.end'.tid).parent with
    | .link lid => some ⟨lid, sel.end'.offset⟩
    | .para _ => none
  else none

/-- `Model.updateSelection`: recompute and store both selection-derived
values. -/
def Model.updateSelection (hs : HostSel) : M Unit := do
  let sel ← Model.getSelection hs
  let st ← M.get
  M.modify fun s =>
    { s with
      linkableSelection := Selection.linkableP st sel
      linkedSelection := Selection.linkP st sel }

/-! ## Document-level edit operations -/

/-- `Model.insertNewParagraph`: delete a range selection first, then split
the paragraph of the (original) start point into a fresh paragraph inserted
before it. -/
def Model.insertNewParagraph (hs : HostSel) : M Unit := do
  let sel ← Model.getSelection hs
  if sel.isRange then do
    let _ ← Selection.remove sel
    pure ()
  else pure ()
  let newPid ← Paragraph.new
  let st ← M.get
  Model.insertParagraphBefore newPid (containingParagraphP st sel.start.tid)
  let pt ← Paragraph.splitTo (containingParagraphP st sel.start.tid) newPid
    sel.start.tid sel.start.offset
  Model.moveCursor (some pt)

/-- `Model.insertChar`: delete a range selection first, then insert at the
start point. -/
def Model.insertChar (c : Str) (hs : HostSel) : M Unit := do
  let sel ← Model.getSelection hs
  if sel.isRange then do
    let _ ← Selection.remove sel
    pure ()
  else pure ()
  let pt ← Text.insertChar sel.start.tid c sel.start.offset
  Model.moveCursor (some pt)

/-- `Model.removeNextChar`. -/
def Model.removeNextChar (hs : HostSel) : M Unit := do
  let sel ← Model.getSelection hs
  if sel.isRange then do
    let p ← Selection.remove sel
    Model.moveCursor p
  else do
    let p ← Text.removeNextChar sel.start.tid sel.start.offset
    Model.moveCursor p

/-- `Model.removePreviousChar`. -/
def Model.removePreviousChar (hs : HostSel) : M Unit := do
  let sel ← Model.getSelection hs
  if sel.isRange then do
    let p ← Selection.remove sel
    Model.moveCursor p
  else do
    let p ← Text.removePreviousChar sel.start.tid sel.start.offset
    Model.moveCursor p

/-- `Model.link`: requires a current `LinkableSelection` (illegal-state fault
otherwise); splits the run into up to three pieces with the selected
substring promoted into a new link. -/
def Model.link (target : Str) (hs : HostSel) : M Unit := do
  let st0 ← M.get
  match st0.linkableSelection with
  | none => M.throw .illegalState
  | some ls => do
    let st ← M.get
    let paragraph := containingParagraphP st ls.tid
    let selectionAsLink ← Link.new paragraph
      (jsSubstring (findText st ls.tid).content ls.start ls.end') target
    let st2 ← M.get
    if ls.start > 0 then do
      let t ← Text.new (jsSubstring (findText st2 ls.tid).content 0 ls.start) (.para paragraph)
      Paragraph.addContentBefore paragraph (.text t) (.text ls.tid)
    else pure ()
    Paragraph.addContentBefore paragraph (.link selectionAsLink) (.text ls.tid)
    let st3 ← M.get
    if ls.end' < ((findText st3 ls.tid).content.length : Int) then do
      let t ← Text.new
        (jsSubstring (findText st3 ls.tid).content ls.end'
          ((findText st3 ls.tid).content.length : Int)) (.para paragraph)
      Paragraph.addContentBefore paragraph (.text t) (.text ls.tid)
    else pure ()
    let _ ← Text.remove ls.tid
    let st4 ← M.get
    Model.moveCursor (some ⟨(findLink st4 selectionAsLink).textId, ls.cursor - ls.start⟩)
    Model.updateSelection hs

/-- `Model.unlink`: requires a current `LinkedSelection` (illegal-state fault
otherwise); replaces the link by a plain run and fuses adjacent runs. -/
def Model.unlink (hs : HostSel) : M Unit := do
  let st0 ← M.get
  match st0.linkedSelection with
  | none => M.throw .illegalState
  | some ld => do
    let st ← M.get
    let paragraph := (findLink st ld.link).parent
    let linkAsText ← Text.new (findText st (findLink st ld.link).textId).content
      (.para paragraph)
    Paragraph.addContentBefore paragraph (.text linkAsText) (.link ld.link)
    Link.remove ld.link
    Paragraph.mergeConsecutiveTexts paragraph ⟨linkAsText, ld.cursor⟩
    Model.updateSelection hs

/-! ## The operation alphabet of section 4 -/

/-- One edit operation, with the host selection it reads. -/
inductive Op where
  | insertChar (c : Str) (sel : HostSel)
  | insertNewParagraph (sel : HostSel)
  | removeNextChar (sel : HostSel)
  | removePreviousChar (sel : HostSel)
  | selectionRemove (sel : HostSel)
  | link (target : Str) (sel : HostSel)
  | unlink (sel : HostSel)

/-- Apply one operation (the selection-remove entry reads the selection and
removes it, as the range branches of the char operations do). -/
def applyOp : Op → M Unit
  | .insertChar c hs => Model.insertChar c hs
  | .insertNewParagraph hs => Model.insertNewParagraph hs
  | .removeNextChar hs => Model.removeNextChar hs
  | .removePreviousChar hs => Model.removePreviousChar hs
  | .selectionRemove hs => do
      let sel ← Model.getSelection hs
      let p ← Selection.remove sel
      Model.moveCursor p
  | .link target hs => Model.link target hs
  | .unlink hs => Model.unlink hs

/-- Run a sequence of operations, keeping the state an operation reached
even when it faulted (a fault aborts the operation, not the session). -/
def runOps (ops : List Op) (st : St) : St :=
  match ops with
  | [] => st
  | op :: rest => runOps rest (Res.st (applyOp op st))

/-! ## Markdown serialization -/

/-- `Text.toMarkdown`: the literal text. -/
def Text.toMarkdownP (st : St) (tid : Nat) : Str :=
  (findText st tid).content

/-- `Link.toMarkdown`: `[text](target)`. -/
def Link.toMarkdownP (st : St) (lid : Nat) : Str :=
  '[' :: (findText st (findLink st lid).textId).content
    ++ ']' :: '(' :: (findLink st lid).target ++ [')']

/-- Serialization of one inline node. -/
def Item.toMarkdownP (st : St) : Item → Str
  | .text tid => Text.toMarkdownP st tid
  | .link lid => Link.toMarkdownP st lid

/-- `Paragraph.toMarkdown`: a blank-line separator followed by the content. -/
def Paragraph.toMarkdownP (st : St) (pid : Nat) : Str :=
  '\n' :: '\n' :: ((findPara st pid).content.map (Item.toMarkdownP st)).flatten

/-- `Model.toMarkdown`: concatenation of the paragraphs, trimmed. -/
def Model.toMarkdownP (st : St) : Str :=
  jsTrim (st.doc.map (Paragraph.toMarkdownP st)).flatten

/-! ## Markdown parsing (`ofMarkdown`) -/

/-- A parsed CommonMark node as the source consumes it: a `type` tag, an
optional literal (text inlines), a destination (links) and children.
Modelled on the `commonmark` library's `Node` interface; the `children`
field stands for the `utils/markdown` `children` helper's walk of the
first-child/next-sibling chain. -/
inductive MdNode where
  | mk (type : String) (literal : Option Str) (destination : Str) (children : List MdNode)

/-- The node's type tag. -/
def MdNode.type : MdNode → String
  | .mk t _ _ _ => t

/-- The node's literal text (text inlines). -/
def MdNode.literal : MdNode → Option Str
  | .mk _ l _ _ => l

/-- The node's link destination. -/
def MdNode.destination : MdNode → Str
  | .mk _ _ d _ => d

/-- The node's children. -/
def MdNode.children : MdNode → List MdNode
  | .mk _ _ _ c => c

/-- `Text.ofMarkdown`: only a `text` inline is accepted; its literal is
copied (a missing literal becomes the placeholder space through the content
setter). -/
def Text.ofMarkdown (parent : Parent) (node : MdNode) : M Nat :=
  if node.type ≠ "text" then M.throw .notAText
  else Text.new (node.literal.getD []) parent

/-- `Link.ofMarkdown`: only a `link` inline with exactly one child is
accepted; the child's literal (whatever the child's kind) becomes the link's
text. -/
def Link.ofMarkdown (parentPid : Nat) (node : MdNode) : M Nat :=
  if node.type ≠ "link" then M.throw .notLink
  else
    match node.children with
    | [c] => Link.new parentPid (c.literal.getD []) node.destination
    | _ => M.throw .notSingleChild

/-- The child loop of `Paragraph.ofMarkdown`. -/
def paraOfMdLoop (pid : Nat) : List MdNode → M Unit
  | [] => M.pure ()
  | c :: rest => do
      let it ←
        if c.type = "link" then do
          let l ← Link.ofMarkdown pid c
          pure (Item.link l)
        else do
          let t ← Text.ofMarkdown (.para pid) c
          pure (Item.text t)
      Paragraph.addContent pid it
      paraOfMdLoop pid rest

/-- `Paragraph.ofMarkdown`: only a `paragraph` block is accepted; each child
becomes a link (when typed `link`) or must be a text inline. -/
def Paragraph.ofMarkdown (node : MdNode) : M Nat :=
  if node.type ≠ "paragraph" then M.throw .notParagraph
  else do
    let pid ← Paragraph.new
    paraOfMdLoop pid node.children
    pure pid

/-- The paragraph loop of `Model.ofMarkdown`. -/
def modelOfMdLoop : List MdNode → M Unit
  | [] => M.pure ()
  | c :: rest => do
      let pid ← Paragraph.ofMarkdown c
      Model.addParagraph pid
      modelOfMdLoop rest

/-- `Model.ofMarkdown`: only a `document` node is accepted; every top-level
child is parsed as a paragraph. -/
def Model.ofMarkdown (node : MdNode) : M Unit :=
  if node.type ≠ "document" then M.throw .notDocument
  else modelOfMdLoop node.children

/-- The state of a freshly constructed `Model` (empty document). -/
def emptySt : St :=
  ⟨[], [], [], [], none, none, none, 0⟩

/-! ## The external markdown parser, on the accepted grammar

The `commonmark` `Parser` is an external collaborator; the spec restricts
the accepted input grammar to "sequences of paragraphs separated by blank
lines, each paragraph containing freely mixed plain text and
`[text](target)` links". -/

/-- Modelled from the spec: paragraph splitting of the external parser —
blocks are separated by blank lines (the serializer emits exactly one blank
line, i.e. two newlines, between paragraphs). -/
def splitParasGo (s acc : Str) : List Str :=
  match s with
  | [] => [acc.reverse]
  | '\n' :: '\n' :: rest => acc.reverse :: splitParasGo rest []
  | c :: rest => splitParasGo rest (c :: acc)

/-- Split a markdown body into paragraph strings. -/
def splitParas (s : Str) : List Str :=
  splitParasGo s []

/-- A text inline node. -/
def mkTextNode (s : Str) : MdNode :=
  .mk "text" (some s) [] []

/-- A link inline node with its single text child. -/
def mkLinkNode (txt dest : Str) : MdNode :=
  .mk "link" none dest [mkTextNode txt]

/-- Flush the (reversed) pending text buffer in front of the given nodes. -/
def flushBuf (buf : Str) (nodes : List MdNode) : List MdNode :=
  if buf = [] then nodes else mkTextNode buf.reverse :: nodes

/-- Modelled from the spec: the inline scan of the external parser on the
accepted grammar — plain text up to a `[text](target)` pattern becomes a
text inline, the pattern becomes a link inline with one text child.  Fuel is
the remaining input length (each step consumes at least one character). -/
def parseInlineGo : Nat → Str → Str → List MdNode
  | 0, _, buf => flushBuf buf []
  | _ + 1, [], buf => flushBuf buf []
  | fuel + 1, c :: rest, buf =>
    if c = '[' then
      let txt := rest.takeWhile (· ≠ ']')
      let rest1 := rest.dropWhile (· ≠ ']')
      match rest1 with
      | ']' :: '(' :: rest2 =>
        let dest := rest2.takeWhile (· ≠ ')')
        let rest3 := rest2.dropWhile (· ≠ ')')
        (match rest3 with
         | ')' :: rest4 => flushBuf buf (mkLinkNode txt dest :: parseInlineGo fuel rest4 [])
         | _ => flushBuf buf (flushBuf ('[' :: rest).reverse []))
      | _ => flushBuf buf (flushBuf ('[' :: rest).reverse [])
    else parseInlineGo fuel rest (c :: buf)

/-- Parse a paragraph string's inline content. -/
def parseInline (s : Str) : List MdNode :=
  parseInlineGo s.length s []

/-- Modelled from the spec: the external parser on the accepted grammar —
the document node whose children are the paragraphs. -/
def parseMarkdown (s : Str) : MdNode :=
  .mk "document" none [] ((splitParas s).map (fun p => .mk "paragraph" none [] (parseInline p)))

/-! ## The invariant of section 8's non-emptiness property -/

/-- Every text object in existence has at least one character (the content
setter guarantees it). -/
def TextsOK (st : St) : Prop :=
  ∀ p ∈ st.texts, (p.2 : TextObj).content ≠ []

/-- An inline node's ids resolve in the arenas. -/
def ItemResolved (st : St) : Item → Prop
  | .text tid => (alookup tid st.texts).isSome
  | .link lid => (alookup lid st.links).isSome ∧
      (alookup (findLink st lid).textId st.texts).isSome

/-- Every paragraph object's content references resolving ids. -/
def ParasClosed (st : St) : Prop :=
  ∀ q ∈ st.paras, ∀ it ∈ (q.2 : ParaObj).content, ItemResolved st it

/-- All arena keys are below the fresh counter. -/
def KeysBounded (st : St) : Prop :=
  (∀ p ∈ st.texts, (p.1 : Nat) < st.fresh) ∧
  (∀ p ∈ st.links, (p.1 : Nat) < st.fresh) ∧
  (∀ p ∈ st.paras, (p.1 : Nat) < st.fresh)

/-- The state invariant, with an optional paragraph id temporarily excused
from the document non-emptiness requirement (the paragraph freshly inserted
by `insertNewParagraph` before `splitTo` fills it). -/
def InvE (ex : Option Nat) (st : St) : Prop :=
  TextsOK st ∧
  (∀ pid ∈ st.doc, some pid ≠ ex → (findPara st pid).content ≠ []) ∧
  ParasClosed st ∧ KeysBounded st

/-- The state invariant of section 8's non-emptiness property. -/
def Inv (st : St) : Prop := InvE none st

/-! ## Preservation of the invariant by every method -/

/-- A computation preserves the invariant in both its success and its fault
state. -/
def Pres (m : M α) : Prop :=
  ∀ ex st, InvE ex st → InvE ex (Res.st (m st))

/-! ## Non-emptiness of the split-target paragraph

`insertNewParagraph` inserts an empty fresh paragraph into the document and
relies on `splitTo` to fill it; these lemmas track that the fresh paragraph
has an arena entry (`QS`) and ends up with non-empty content (`QNE`). -/

/-- The paragraph has an arena entry. -/
def QS (q : Nat) (st : St) : Prop := (alookup q st.paras).isSome = true

/-- The paragraph has an arena entry with non-empty content. -/
def QNE (q : Nat) (st : St) : Prop :=
  ∃ po, alookup q st.paras = some po ∧ (po : ParaObj).content ≠ []

/-- The tail of `splitTo` after the removals: the empty-check (adding one
empty text run when needed) and the returned first-text point. -/
def splitTail (pid q : Nat) : M Point := do
  let st2 ← M.get
  if (findPara st2 q).content = [] then do
    let t ← Text.new [] (.para q)
    Paragraph.addContent q (.text t)
  else M.pure ()
  let st3 ← M.get
  let ft ← liftE (firstTextP st3 pid)
  M.pure (⟨ft, 0⟩ : Point)

/-- The state after `new Paragraph(model)` allocated an empty paragraph. -/
def seedPara (st : St) : St :=
  { st with paras := (st.fresh, ⟨[]⟩) :: st.paras, fresh := st.fresh + 1 }

/-- The state after the fresh paragraph was inserted into the document
before the split point's paragraph. -/
def seedParaInserted (st : St) (tid : Nat) : St :=
  { seedPara st with
    doc := insertBeforeArr st.fresh (containingParagraphP (seedPara st) tid) (seedPara st).doc }

/-- The state `new Link(...)` leaves behind. -/
def linkNewSt (st : St) (pid : Nat) (c tgt : Str) : St :=
  { st with
    links := (st.fresh, ⟨st.fresh + 1, tgt, pid⟩) :: st.links
    texts := (st.fresh + 1, ⟨orSpace c, .link st.fresh⟩) :: st.texts
    fresh := st.fresh + 2 }

/-- The state `new Text(...)` leaves behind. -/
def textNewSt (st : St) (c : Str) (par : Parent) : St :=
  { st with texts := (st.fresh, ⟨orSpace c, par⟩) :: st.texts, fresh := st.fresh + 1 }

/-- The state `addContentBefore` leaves behind. -/
def addBeforeSt (st : St) (pid : Nat) (it ref : Item) : St :=
  { st with paras := aupdate pid ⟨insertBeforeArr it ref (findPara st pid).content⟩ st.paras }

instance instDecidableItemResolved (st : St) (it : Item) : Decidable (ItemResolved st it) := by
  cases it with
  | text tid => exact inferInstanceAs (Decidable ((alookup tid st.texts).isSome = true))
  | link lid => exact inferInstanceAs (Decidable (_ ∧ _))

instance instDecidableInvE (ex : Option Nat) (st : St) : Decidable (InvE ex st) := by
  unfold InvE TextsOK ParasClosed KeysBounded
  infer_instance

instance instDecidableInv (st : St) : Decidable (Inv st) := by
  unfold Inv
  infer_instance

instance instDecidableKeysBounded (st : St) : Decidable (KeysBounded st) := by
  unfold KeysBounded
  infer_instance

/-- The text arena only ever grows: no operation deletes a text entry. -/
def TLen (m : M α) : Prop :=
  ∀ st, st.texts.length ≤ (Res.st (m st)).texts.length

def stScenarioD : St :=
  ⟨[(0, ⟨['a', 'b', 'c'], .para 10⟩), (1, ⟨['d', 'e', 'f'], .para 11⟩)],
   [], [(10, ⟨[.text 0]⟩), (11, ⟨[.text 1]⟩)], [10, 11], none, none, none, 12⟩

/-- The host selection collapsed at offset 0 of the second paragraph's run. -/
def hsScenarioD : HostSel := ⟨[1, 0], 0, [1, 0], 0⟩

/-- A one-paragraph document holding the single run "ab". -/
def stC6 : St :=
  ⟨[(0, ⟨['a', 'b'], .para 10⟩)], [], [(10, ⟨[.text 0]⟩)], [10], none, none, none, 11⟩

/-- The computation never signals the out-of-bounds fault. -/
def NoRange (m : M α) : Prop :=
  ∀ s s', m s ≠ .err Err.rangeOutOfBounds s'

/-- The computation succeeds, never lowers the allocation counter, and keeps
every already-allocated link entry. -/
def OkLinks (m : M α) : Prop :=
  ∀ s, ∃ a s', m s = .ok a s' ∧ s.fresh ≤ s'.fresh ∧
    ∀ lid lo, lid < s.fresh → alookup lid s.links = some lo → alookup lid s'.links = some lo

/-- The computation succeeds from every state. -/
def OkM (m : M α) : Prop :=
  ∀ s, ∃ a s', m s = .ok a s'

/-- The computation faults from every state. -/
def ErrM (m : M α) : Prop :=
  ∀ s, ∃ e s', m s = .err e s'

/-- The inline-child shapes `paraOfMdLoop` accepts without fault: a `link`
node is checked only for having exactly one child (of any kind); any other
node must be a `text` inline. -/
def okInline (c : MdNode) : Bool :=
  if c.type = "link" then c.children.length == 1 else c.type == "text"

/-- The paragraph shapes `Paragraph.ofMarkdown` accepts without fault. -/
def okPara (p : MdNode) : Bool :=
  (p.type == "paragraph") && p.children.all okInline

/-- The document shapes `Model.ofMarkdown` accepts without fault. -/
def okDoc (d : MdNode) : Bool :=
  (d.type == "document") && d.children.all okPara

/-- A document whose single paragraph holds a link with one non-text child
(an `emph` inline). -/
def mdC8 : MdNode :=
  .mk "document" none []
    [.mk "paragraph" none []
      [.mk "link" none ['t'] [.mk "emph" (some ['x']) [] []]]]

/-- A document of one single-run paragraph (id 10, run 0 holding `L`), with a
fresh empty paragraph (id 11) already inserted before it, as
`insertNewParagraph` does right before calling `splitTo`. -/
def stC3 (L : Str) : St :=
  ⟨[(0, ⟨L, .para 10⟩)], [], [(10, ⟨[.text 0]⟩), (11, ⟨[]⟩)], [11, 10], none, none, none, 12⟩

/-- The state right after `splitTo` copied the prefix into paragraph 11 and
cut run 0 down to the suffix (contents still wrapped in the setter's
`value || space`). -/
def stC3mid (L : Str) (off : Int) : St :=
  ⟨[(12, ⟨orSpace (jsSubstring L 0 off), .para 11⟩),
    (0, ⟨orSpace (jsSubstring L off (L.length : Int)), .para 10⟩)],
   [], [(10, ⟨[Item.text 0]⟩), (11, ⟨[Item.text 12]⟩)], [11, 10], none, none, none, 13⟩

/-- `stC3mid` with the setter wrappers resolved (both pieces nonempty). -/
def stC3midR (L : Str) (off : Int) : St :=
  ⟨[(12, ⟨jsSubstring L 0 off, .para 11⟩),
    (0, ⟨jsSubstring L off (L.length : Int), .para 10⟩)],
   [], [(10, ⟨[Item.text 0]⟩), (11, ⟨[Item.text 12]⟩)], [11, 10], none, none, none, 13⟩

/-- The state after `combineWith` merged the suffix back into paragraph 11. -/
def stC3done (L : Str) (off : Int) : St :=
  ⟨[(12, ⟨jsSubstring L 0 off ++ jsSubstring L off (L.length : Int), .para 11⟩),
    (0, ⟨jsSubstring L off (L.length : Int), .para 10⟩)],
   [], [(10, ⟨[Item.text 0]⟩), (11, ⟨[Item.text 12]⟩)], [11], none, none, none, 13⟩

/-! ## The accepted-grammar codec surface (claim C2) -/

/-- One inline segment of a serialized paragraph body: a plain run or a
`[text](target)` link. -/
inductive Seg where
  | txt (s : Str)
  | lnk (t d : Str)

/-- The serialization of one segment (as `Item.toMarkdown` emits it). -/
def segRender : Seg → Str
  | .txt s => s
  | .lnk t d => '[' :: t ++ ']' :: '(' :: d ++ [')']

/-- The serialization of a segment list. -/
def segsRender (l : List Seg) : Str :=
  (l.map segRender).flatten

/-- The accepted-grammar restrictions on one segment: plain runs are
nonempty without newlines or opening brackets; link texts are nonempty
without newlines or closing brackets; targets carry no newline or closing
parenthesis. -/
def GoodSeg : Seg → Prop
  | .txt s => s ≠ [] ∧ ∀ c ∈ s, c ≠ '\n' ∧ c ≠ '['
  | .lnk t d => t ≠ [] ∧ (∀ c ∈ t, c ≠ '\n' ∧ c ≠ ']') ∧ (∀ c ∈ d, c ≠ '\n' ∧ c ≠ ')')

/-- The segment an inline node of the document denotes. -/
def itemSeg (st : St) : Item → Seg
  | .text tid => .txt (findText st tid).content
  | .link lid => .lnk (findText st (findLink st lid).textId).content (findLink st lid).target

/-- A paragraph's serialized body (its `toMarkdown` without the blank-line
prefix). -/
def bodyP (st : St) (pid : Nat) : Str :=
  ((findPara st pid).content.map (Item.toMarkdownP st)).flatten

/-- Paragraph bodies joined by blank lines (the serialized document after the
leading separator is trimmed away). -/
def joinB : List Str → Str
  | [] => []
  | [b] => b
  | b :: rest => b ++ '\n' :: '\n' :: joinB rest

/-- Paragraph serializations concatenated (before trimming). -/
def concatB (bs : List Str) : Str :=
  (bs.map (fun b => '\n' :: '\n' :: b)).flatten

/-- The node list produced by scanning the render of a segment list with a
pending (reversed) text buffer. -/
def parseSpec : Str → List Seg → List MdNode
  | buf, [] => flushBuf buf []
  | buf, .txt s :: rest => parseSpec (s.reverse ++ buf) rest
  | buf, .lnk t d :: rest => flushBuf buf (mkLinkNode t d :: parseSpec [] rest)

/-- The serialized text an accepted inline node rebuilds to. -/
def nodeStr : MdNode → Str
  | .mk "text" (some l) _ _ => l
  | .mk "link" _ d (ch :: _) => '[' :: ch.literal.getD [] ++ ']' :: '(' :: d ++ [')']
  | _ => []

/-- An inline node the builder accepts and rebuilds faithfully: a text
inline with a nonempty literal, or a link inline with one nonempty
text-child literal. -/
def nodeOK (c : MdNode) : Prop :=
  (∃ l, l ≠ [] ∧ c = mkTextNode l) ∨ (∃ t d, t ≠ [] ∧ c = mkLinkNode t d)

/-- An inline node resolvable in the arenas with ids below the counter. -/
def ItemRB (s : St) : Item → Prop
  | .text tid => tid < s.fresh ∧ (alookup tid s.texts).isSome
  | .link lid => lid < s.fresh ∧ ∃ lo, alookup lid s.links = some lo ∧
      lo.textId < s.fresh ∧ (alookup lo.textId s.texts).isSome

/-- A paragraph resolvable in the arenas with resolvable content. -/
def ParaRB (s : St) (pid : Nat) : Prop :=
  pid < s.fresh ∧ (alookup pid s.paras).isSome ∧
    ∀ it ∈ (findPara s pid).content, ItemRB s it

/-- The later state extends the earlier one: the counter never drops and
already-allocated text and link entries survive. -/
def Ext (s s' : St) : Prop :=
  s.fresh ≤ s'.fresh ∧
  (∀ k v, k < s.fresh → alookup k s.texts = some v → alookup k s'.texts = some v) ∧
  (∀ k v, k < s.fresh → alookup k s.links = some v → alookup k s'.links = some v)

/-- The accepted-grammar restrictions on one inline node of the document. -/
def GoodItem (st : St) (it : Item) : Prop :=
  GoodSeg (itemSeg st it)

/-- The serialized document opens with a non-whitespace character. -/
def headOK (st : St) : Prop :=
  match st.doc.head? with
  | some p1 =>
    match (bodyP st p1).head? with
    | some c => ¬ isWsChar c
    | none => False
  | none => False

/-- The serialized document closes with a non-whitespace character. -/
def lastOK (st : St) : Prop :=
  match st.doc.getLast? with
  | some pn =>
    match (bodyP st pn).getLast? with
    | some c => ¬ isWsChar c
    | none => False
  | none => False

/-- A document built purely from the accepted grammar: a nonempty sequence
of nonempty paragraphs of accepted runs and links, serialized with
non-whitespace first and last characters (so trimming is exact). -/
def GoodDoc (st : St) : Prop :=
  st.doc ≠ [] ∧ headOK st ∧ lastOK st ∧
  ∀ pid ∈ st.doc, (findPara st pid).content ≠ [] ∧
    ∀ it ∈ (findPara st pid).content, GoodItem st it

/-- The state after the builder allocated a text run for a text inline. -/
def bTxtSt (s : St) (pid : Nat) (l : Str) : St :=
  { s with
    texts := (s.fresh, ⟨l, .para pid⟩) :: s.texts
    fresh := s.fresh + 1 }

/-- `bTxtSt` with the run appended to the paragraph's content. -/
def bTxtSt2 (s : St) (pid : Nat) (l : Str) (pv : ParaObj) : St :=
  { bTxtSt s pid l with
    paras := aupdate pid ⟨pv.content ++ [Item.text s.fresh]⟩ s.paras }

/-- The state after the builder allocated a link and its text for a link
inline. -/
def bLnkSt (s : St) (pid : Nat) (t d : Str) : St :=
  { s with
    links := (s.fresh, ⟨s.fresh + 1, d, pid⟩) :: s.links
    texts := (s.fresh + 1, ⟨t, .link s.fresh⟩) :: s.texts
    fresh := s.fresh + 2 }

/-- `bLnkSt` with the link appended to the paragraph's content. -/
def bLnkSt2 (s : St) (pid : Nat) (t d : Str) (pv : ParaObj) : St :=
  { bLnkSt s pid t d with
    paras := aupdate pid ⟨pv.content ++ [Item.link s.fresh]⟩ s.paras }

/-- A one-paragraph document holding the single length-1 run [c]. -/
def stC7 (c : Char) : St :=
  ⟨[(0, ⟨[c], .para 10⟩)], [], [(10, ⟨[.text 0]⟩)], [10], none, none, none, 11⟩

/-- The host selection collapsed at offset 0 of the single run. -/
def hsC7next : HostSel := ⟨[0, 0], 0, [0, 0], 0⟩

/-- The host selection collapsed at offset 1 of the single run. -/
def hsC7prev : HostSel := ⟨[0, 0], 1, [0, 0], 1⟩

/-- The document observed after `removeNextChar` at offset 0 and the next
selection query (which re-seeds an empty document). -/
def stC7afterNext (c : Char) : St :=
  Res.st (Model.getSelection hsC7next (Res.st (Model.removeNextChar hsC7next (stC7 c))))

/-- The document observed after `removePreviousChar` at offset 1 and the next
selection query (which re-seeds an empty document). -/
def stC7afterPrev (c : Char) : St :=
  Res.st (Model.getSelection hsC7prev (Res.st (Model.removePreviousChar hsC7prev (stC7 c))))

instance instDecidableGoodSeg (sg : Seg) : Decidable (GoodSeg sg) := by
  cases sg with
  | txt s =>
      unfold GoodSeg
      infer_instance
  | lnk t d =>
      unfold GoodSeg
      infer_instance

instance instDecidableGoodItem (st : St) (it : Item) : Decidable (GoodItem st it) := by
  unfold GoodItem
  infer_instance

instance instDecidableHeadOK (st : St) : Decidable (headOK st) := by
  unfold headOK
  cases st.doc.head? with
  | none =>
      dsimp only
      infer_instance
  | some p1 =>
      dsimp only
      cases (bodyP st p1).head? with
      | none =>
          dsimp only
          infer_instance
      | some c =>
          dsimp only
          infer_instance

instance instDecidableLastOK (st : St) : Decidable (lastOK st) := by
  unfold lastOK
  cases st.doc.getLast? with
  | none =>
      dsimp only
      infer_instance
  | some pn =>
      dsimp only
      cases (bodyP st pn).getLast? with
      | none =>
          dsimp only
          infer_instance
      | some c =>
          dsimp only
          infer_instance

instance instDecidableGoodDoc (st : St) : Decidable (GoodDoc st) := by
  unfold GoodDoc
  infer_instance

/-! ## Theorems -/

@[simp] theorem M.bind_def (x : M α) (f : α → M β) : x >>= f = M.bind x f := rfl

@[simp] theorem M.pure_def (a : α) : (Pure.pure a : M α) = M.pure a := rfl

@[simp] theorem M.bind_ok (f : α → M β) (a : α) (s s' : St) (x : M α)
    (h : x s = .ok a s') : M.bind x f s = f a s' := by
  simp [M.bind, h]

@[simp] theorem M.bind_err (f : α → M β) (e : Err) (s s' : St) (x : M α)
    (h : x s = .err e s') : M.bind x f s = .err e s' := by
  simp [M.bind, h]

/-! ## Association-list and array-utility lemmas -/
theorem mem_aupdate {l : List (Nat × α)} {p : Nat × α} {k : Nat} {v : α}
    (h : p ∈ aupdate k v l) : p ∈ l ∨ p = (k, v) := by
  induction l with
  | nil => simp [aupdate] at h
  | cons q rest ih =>
    obtain ⟨k', v'⟩ := q
    by_cases hk : k = k'
    · simp [aupdate, hk] at h
      rcases h with h | h
      · right; simp [h, hk]
      · left; simp [h]
    · simp [aupdate, hk] at h
      rcases h with h | h
      · left; simp [h]
      · rcases ih h with h' | h'
        · left; simp [h']
        · right; exact h'

theorem aupdate_fst {l : List (Nat × α)} {p : Nat × α} {k : Nat} {v : α}
    (h : p ∈ aupdate k v l) : p.1 ∈ l.map Prod.fst := by
  induction l with
  | nil => simp [aupdate] at h
  | cons q rest ih =>
    obtain ⟨k', v'⟩ := q
    by_cases hk : k = k'
    · simp [aupdate, hk] at h
      rcases h with h | h
      · simp [h]
      · right
        exact List.mem_map.mpr ⟨p, h, rfl⟩
    · simp [aupdate, hk] at h
      rcases h with h | h
      · simp [h]
      · simp [ih h]

theorem alookup_aupdate_isSome {l : List (Nat × α)} (k' k : Nat) (v : α) :
    (alookup k' (aupdate k v l)).isSome = (alookup k' l).isSome := by
  induction l with
  | nil => simp [aupdate]
  | cons q rest ih =>
    obtain ⟨k₀, v₀⟩ := q
    by_cases hk : k = k₀
    · by_cases hk' : k' = k₀ <;> simp [aupdate, alookup, hk, hk']
    · by_cases hk' : k' = k₀ <;> simp [aupdate, alookup, hk, hk', ih]

theorem alookup_aupdate_ne {l : List (Nat × α)} {k' k : Nat} (v : α) (h : k' ≠ k) :
    alookup k' (aupdate k v l) = alookup k' l := by
  induction l with
  | nil => simp [aupdate]
  | cons q rest ih =>
    obtain ⟨k₀, v₀⟩ := q
    by_cases hk : k = k₀
    · subst hk
      simp [aupdate, alookup, h]
    · by_cases hk' : k' = k₀ <;> simp [aupdate, alookup, hk, hk', ih]

theorem alookup_mem {l : List (Nat × α)} {k : Nat} {v : α}
    (h : alookup k l = some v) : (k, v) ∈ l := by
  induction l with
  | nil => simp [alookup] at h
  | cons q rest ih =>
    obtain ⟨k₀, v₀⟩ := q
    by_cases hk : k = k₀
    · simp [alookup, hk] at h
      simp [h, hk]
    · simp [alookup, hk] at h
      simp [ih h]

theorem alookup_cons_ne {l : List (Nat × α)} {k k₀ : Nat} {v₀ : α} (h : k ≠ k₀) :
    alookup k ((k₀, v₀) :: l) = alookup k l := by
  simp [alookup, h]

theorem mem_removeFirstArr [DecidableEq α] {l : List α} {x y : α}
    (h : x ∈ removeFirstArr y l) : x ∈ l := by
  induction l with
  | nil => simp [removeFirstArr] at h
  | cons a rest ih =>
    by_cases ha : a = y
    · simp [removeFirstArr, ha] at h
      simp [h]
    · simp [removeFirstArr, ha] at h
      rcases h with h | h
      · simp [h]
      · simp [ih h]

theorem insertBeforeArr_found [DecidableEq α] (a : α) {ref b : α} (rest : List α)
    (hb : b = ref) : insertBeforeArr a ref (b :: rest) = a :: b :: rest := by
  cases rest <;> simp [insertBeforeArr, hb]

theorem insertBeforeArr_single [DecidableEq α] (a : α) {ref b : α}
    (hb : b ≠ ref) : insertBeforeArr a ref [b] = [a, b] := by
  simp [insertBeforeArr, hb]

theorem insertBeforeArr_skip [DecidableEq α] (a : α) {ref b : α} (c : α) (rest : List α)
    (hb : b ≠ ref) :
    insertBeforeArr a ref (b :: c :: rest) = b :: insertBeforeArr a ref (c :: rest) := by
  simp [insertBeforeArr, hb]

theorem mem_insertBeforeArr [DecidableEq α] {l : List α} {x a ref : α}
    (h : x ∈ insertBeforeArr a ref l) : x = a ∨ x ∈ l := by
  induction l with
  | nil => simpa [insertBeforeArr] using h
  | cons b rest ih =>
    by_cases hb : b = ref
    · rw [insertBeforeArr_found a rest hb] at h
      rcases List.mem_cons.mp h with h | h
      · exact Or.inl h
      · exact Or.inr h
    · cases rest with
      | nil =>
        rw [insertBeforeArr_single a hb] at h
        rcases List.mem_cons.mp h with h | h
        · exact Or.inl h
        · exact Or.inr (by simpa using h)
      | cons c rest' =>
        rw [insertBeforeArr_skip a c rest' hb] at h
        rcases List.mem_cons.mp h with h | h
        · exact Or.inr (by simp [h])
        · rcases ih h with h' | h'
          · exact Or.inl h'
          · exact Or.inr (List.mem_cons_of_mem _ h')

@[simp] theorem Res.st_ok (a : α) (s : St) : Res.st (.ok a s) = s := rfl

@[simp] theorem Res.st_err (e : Err) (s : St) : Res.st (.err e s : Res α) = s := rfl

theorem alookup_none_of_bound {l : List (Nat × α)} {n : Nat} (h : ∀ p ∈ l, (p.1 : Nat) < n) :
    alookup n l = none := by
  cases hl : alookup n l with
  | none => rfl
  | some v => exact absurd (h (n, v) (alookup_mem hl)) (lt_irrefl n)

theorem alookup_cons_isSome {l : List (Nat × α)} {k k₀ : Nat} {v₀ : α}
    (h : (alookup k l).isSome = true) :
    (alookup k ((k₀, v₀) :: l)).isSome = true := by
  by_cases hk : k = k₀ <;> simp [alookup, hk, h]

theorem alookup_aupdate_map {l : List (Nat × α)} (k : Nat) (v : α) :
    alookup k (aupdate k v l) = (alookup k l).map (fun _ => v) := by
  induction l with
  | nil => simp [aupdate, alookup]
  | cons q rest ih =>
    obtain ⟨k₀, v₀⟩ := q
    by_cases hk : k = k₀ <;> simp [aupdate, alookup, hk, ih]

theorem keys_bound_of_mem_map {l : List (Nat × α)} {n k : Nat}
    (hb : ∀ p ∈ l, (p.1 : Nat) < n) (h : k ∈ l.map Prod.fst) : k < n := by
  obtain ⟨p, hp, rfl⟩ := List.mem_map.mp h
  exact hb p hp

/-! Preservation of the invariant by the elementary state transformations. -/
theorem InvE_cursor {ex : Option Nat} {st : St} (c : Option Point) (h : InvE ex st) :
    InvE ex { st with cursor := c } := h

theorem InvE_selfields {ex : Option Nat} {st : St} (a : Option LinkableSel)
    (b : Option LinkedSel) (h : InvE ex st) :
    InvE ex { st with linkableSelection := a, linkedSelection := b } := h

theorem InvE_textsCons {ex : Option Nat} {st : St} {v : Str} (par : Parent)
    (h : InvE ex st) (hv : v ≠ []) :
    InvE ex { st with texts := (st.fresh, ⟨v, par⟩) :: st.texts, fresh := st.fresh + 1 } := by
  obtain ⟨h1, h2, h3, hbt, hbl, hbp⟩ := h
  refine ⟨?_, ?_, ?_, ?_, ?_, ?_⟩
  · intro p hp
    rcases List.mem_cons.mp hp with rfl | hp
    · exact hv
    · exact h1 p hp
  · exact h2
  · intro q hq it hit
    have := h3 q hq it hit
    cases it with
    | text tid => exact alookup_cons_isSome this
    | link lid => exact ⟨this.1, alookup_cons_isSome this.2⟩
  · intro p hp
    rcases List.mem_cons.mp hp with rfl | hp
    · simp
    · exact Nat.lt_succ_of_lt (hbt p hp)
  · intro p hp
    exact Nat.lt_succ_of_lt (hbl p hp)
  · intro p hp
    exact Nat.lt_succ_of_lt (hbp p hp)

theorem InvE_parasConsEmpty {ex : Option Nat} {st : St} (h : InvE ex st) :
    InvE ex { st with paras := (st.fresh, ⟨[]⟩) :: st.paras, fresh := st.fresh + 1 } := by
  obtain ⟨h1, h2, h3, hbt, hbl, hbp⟩ := h
  refine ⟨h1, ?_, ?_, ?_, ?_, ?_⟩
  · intro pid hpid hex
    have hne := h2 pid hpid hex
    have hpf : pid ≠ st.fresh := by
      intro hh
      subst hh
      simp [findPara, alookup_none_of_bound hbp] at hne
    simpa [findPara, alookup, hpf] using hne
  · intro q hq it hit
    rcases List.mem_cons.mp hq with rfl | hq
    · simp at hit
    · exact h3 q hq it hit
  · intro p hp
    exact Nat.lt_succ_of_lt (hbt p hp)
  · intro p hp
    exact Nat.lt_succ_of_lt (hbl p hp)
  · intro p hp
    rcases List.mem_cons.mp hp with rfl | hp
    · simp
    · exact Nat.lt_succ_of_lt (hbp p hp)

theorem InvE_linkCons {ex : Option Nat} {st : St} {v : Str} (tgt : Str) (par : Nat)
    (h : InvE ex st) (hv : v ≠ []) :
    InvE ex { st with
      links := (st.fresh, ⟨st.fresh + 1, tgt, par⟩) :: st.links
      texts := (st.fresh + 1, ⟨v, .link st.fresh⟩) :: st.texts
      fresh := st.fresh + 2 } := by
  obtain ⟨h1, h2, h3, hbt, hbl, hbp⟩ := h
  refine ⟨?_, h2, ?_, ?_, ?_, ?_⟩
  · intro p hp
    rcases List.mem_cons.mp hp with rfl | hp
    · exact hv
    · exact h1 p hp
  · intro q hq it hit
    have := h3 q hq it hit
    cases it with
    | text tid => exact alookup_cons_isSome this
    | link lid =>
      obtain ⟨hl1, hl2⟩ := this
      have hlid : lid ≠ st.fresh := by
        intro hh
        subst hh
        rw [alookup_none_of_bound hbl] at hl1
        simp at hl1
      refine ⟨alookup_cons_isSome hl1, ?_⟩
      have : findLink { st with
          links := (st.fresh, (⟨st.fresh + 1, tgt, par⟩ : LinkObj)) :: st.links
          texts := (st.fresh + 1, (⟨v, .link st.fresh⟩ : TextObj)) :: st.texts
          fresh := st.fresh + 2 } lid = findLink st lid := by
        simp [findLink, alookup_cons_ne hlid]
      rw [this]
      exact alookup_cons_isSome hl2
  · intro p hp
    rcases List.mem_cons.mp hp with rfl | hp
    · simp
    · exact Nat.lt_add_right _ (hbt p hp)
  · intro p hp
    rcases List.mem_cons.mp hp with rfl | hp
    · simp
    · exact Nat.lt_add_right _ (hbl p hp)
  · intro p hp
    exact Nat.lt_add_right _ (hbp p hp)

theorem InvE_setText {ex : Option Nat} {st : St} {v : Str} (tid : Nat) (par : Parent)
    (h : InvE ex st) (hv : v ≠ []) :
    InvE ex { st with texts := aupdate tid ⟨v, par⟩ st.texts } := by
  obtain ⟨h1, h2, h3, hbt, hbl, hbp⟩ := h
  refine ⟨?_, h2, ?_, ?_, ?_, ?_⟩
  · intro p hp
    rcases mem_aupdate hp with hp | rfl
    · exact h1 p hp
    · exact hv
  · intro q hq it hit
    have := h3 q hq it hit
    cases it with
    | text t => simpa [ItemResolved, alookup_aupdate_isSome] using this
    | link lid =>
      obtain ⟨hl1, hl2⟩ := this
      exact ⟨hl1, by simpa [findLink, alookup_aupdate_isSome] using hl2⟩
  · intro p hp
    exact keys_bound_of_mem_map hbt (aupdate_fst hp)
  · intro p hp
    exact hbl p hp
  · intro p hp
    exact hbp p hp

theorem InvE_paraUpdate {ex : Option Nat} {st : St} {c' : List Item} (pid : Nat)
    (h : InvE ex st)
    (hne : pid ∈ st.doc → some pid ≠ ex → c' ≠ [])
    (hres : ∀ it ∈ c', ItemResolved st it) :
    InvE ex { st with paras := aupdate pid ⟨c'⟩ st.paras } := by
  obtain ⟨h1, h2, h3, hbt, hbl, hbp⟩ := h
  refine ⟨h1, ?_, ?_, ?_, ?_, ?_⟩
  · intro qid hqid hex
    by_cases hq : qid = pid
    · subst hq
      simp only [findPara, alookup_aupdate_map]
      cases hl : alookup qid st.paras with
      | none =>
        have := h2 qid hqid hex
        simp [findPara, hl] at this
      | some po => simpa using hne hqid hex
    · have := h2 qid hqid hex
      simpa [findPara, alookup_aupdate_ne _ hq] using this
  · intro q hq it hit
    rcases mem_aupdate hq with hq | rfl
    · exact h3 q hq it hit
    · exact hres it hit
  · intro p hp
    exact hbt p hp
  · intro p hp
    exact hbl p hp
  · intro p hp
    exact keys_bound_of_mem_map hbp (aupdate_fst hp)

theorem InvE_docRemove {ex : Option Nat} {st : St} (pid : Nat) (h : InvE ex st) :
    InvE ex { st with doc := removeFirstArr pid st.doc } := by
  obtain ⟨h1, h2, h3, hb⟩ := h
  exact ⟨h1, fun qid hqid hex => h2 qid (mem_removeFirstArr hqid) hex, h3, hb⟩

theorem InvE_docAppend {ex : Option Nat} {st : St} (pid : Nat) (h : InvE ex st)
    (hne : some pid ≠ ex → (findPara st pid).content ≠ []) :
    InvE ex { st with doc := st.doc ++ [pid] } := by
  obtain ⟨h1, h2, h3, hb⟩ := h
  refine ⟨h1, ?_, h3, hb⟩
  intro qid hqid hex
  rcases List.mem_append.mp hqid with hq | hq
  · exact h2 qid hq hex
  · simp at hq
    subst hq
    exact hne hex

theorem InvE_docInsert {ex : Option Nat} {st : St} (newPid ref : Nat) (h : InvE ex st)
    (hne : some newPid ≠ ex → (findPara st newPid).content ≠ []) :
    InvE ex { st with doc := insertBeforeArr newPid ref st.doc } := by
  obtain ⟨h1, h2, h3, hb⟩ := h
  refine ⟨h1, ?_, h3, hb⟩
  intro qid hqid hex
  rcases mem_insertBeforeArr hqid with rfl | hq
  · exact hne hex
  · exact h2 qid hq hex

theorem Pres_bind {x : M α} {f : α → M β} (hx : Pres x) (hf : ∀ a, Pres (f a)) :
    Pres (M.bind x f) := by
  intro ex st h
  cases hr : x st with
  | ok a s' =>
    have h' := hx ex st h
    rw [hr] at h'
    simp only [Res.st_ok] at h'
    simp only [M.bind, hr]
    exact hf a ex s' h'
  | err e s' =>
    have h' := hx ex st h
    rw [hr] at h'
    simp only [M.bind, hr, Res.st_err]
    exact h'

theorem Pres_pure (a : α) : Pres (M.pure a) := fun _ _ h => h

theorem Pres_throw (e : Err) : Pres (M.throw e : M α) := fun _ _ h => h

theorem Pres_get : Pres M.get := fun _ _ h => h

theorem Pres_liftE (e : Except Err α) : Pres (liftE e) := by
  intro ex st h
  cases e <;> exact h

theorem orSpace_ne_nil (s : Str) : orSpace s ≠ [] := by
  unfold orSpace
  split <;> simp_all

theorem removeFirstArr_ne_nil [DecidableEq α] {l : List α} (x : α) (h : 2 ≤ l.length) :
    removeFirstArr x l ≠ [] := by
  cases l with
  | nil => simp at h
  | cons a rest =>
    by_cases ha : a = x
    · simp only [removeFirstArr, if_pos ha]
      cases rest with
      | nil => simp at h
      | cons b r => simp
    · simp [removeFirstArr, ha]

theorem insertBeforeArr_ne_nil [DecidableEq α] (a ref : α) (l : List α) :
    insertBeforeArr a ref l ≠ [] := by
  cases l with
  | nil => simp [insertBeforeArr]
  | cons b rest =>
    by_cases hb : b = ref
    · rw [insertBeforeArr_found a rest hb]
      simp
    · cases rest with
      | nil => rw [insertBeforeArr_single a hb]; simp
      | cons c r => rw [insertBeforeArr_skip a c r hb]; simp

theorem findPara_items_resolved {st : St} (h3 : ParasClosed st) (pid : Nat) :
    ∀ it ∈ (findPara st pid).content, ItemResolved st it := by
  intro it hit
  cases hl : alookup pid st.paras with
  | none => simp [findPara, hl] at hit
  | some po =>
    simp only [findPara, hl, Option.getD_some] at hit
    exact h3 (pid, po) (alookup_mem hl) it hit

theorem InvE_mono {st : St} (x : Nat) (h : InvE none st) : InvE (some x) st := by
  obtain ⟨h1, h2, h3, hb⟩ := h
  exact ⟨h1, fun pid hpid _ => h2 pid hpid (by simp), h3, hb⟩

theorem InvE_unExcuse {st : St} {q : Nat} (h : InvE (some q) st)
    (hq : (findPara st q).content ≠ []) : InvE none st := by
  obtain ⟨h1, h2, h3, hb⟩ := h
  refine ⟨h1, ?_, h3, hb⟩
  intro pid hpid _
  by_cases hp : pid = q
  · subst hp
    exact hq
  · exact h2 pid hpid (by simp [hp])

theorem pres_setContent (tid : Nat) (v : Str) : Pres (Text.setContent tid v) := by
  intro ex st h
  exact InvE_setText tid _ h (orSpace_ne_nil v)

theorem pres_append (tid : Nat) (v : Str) : Pres (Text.append tid v) := by
  intro ex st h
  exact pres_setContent tid _ ex st h

theorem pres_itemSetContent (it : Item) (v : Str) : Pres (Item.setContent it v) := by
  intro ex st h
  cases it with
  | text tid => exact pres_setContent tid v ex st h
  | link lid => exact pres_setContent (findLink st lid).textId v ex st h

theorem pres_paragraphNew : Pres Paragraph.new := by
  intro ex st h
  exact InvE_parasConsEmpty h

theorem pres_textNew (v : Str) (par : Parent) : Pres (Text.new v par) := by
  intro ex st h
  exact InvE_textsCons par h (orSpace_ne_nil v)

theorem pres_linkNew (p : Nat) (v tgt : Str) : Pres (Link.new p v tgt) := by
  intro ex st h
  exact InvE_linkCons tgt p h (orSpace_ne_nil v)

theorem pres_modelRemoveContent (pid : Nat) : Pres (Model.removeContent pid) := by
  intro ex st h
  exact InvE_docRemove pid h

theorem pres_moveCursorDirect (p : Point) : Pres (moveCursorDirect p) := by
  intro ex st h
  exact InvE_cursor _ h

theorem pres_modelMoveCursor (p : Option Point) : Pres (Model.moveCursor p) := by
  cases p with
  | some pt => exact pres_moveCursorDirect pt
  | none => exact Pres_pure ()

theorem pres_paragraphRemoveContent (pid : Nat) (it : Item) :
    Pres (Paragraph.removeContent pid it) := by
  intro ex st h
  unfold Paragraph.removeContent
  split
  · exact pres_modelRemoveContent pid ex st h
  · next hlen =>
    simp only [Res.st_ok]
    refine InvE_paraUpdate pid h ?_ ?_
    · intro hdoc hex
      have hne := h.2.1 pid hdoc hex
      have h0 : (findPara st pid).content.length ≠ 0 := by
        simpa [List.length_eq_zero] using hne
      have h2 : 2 ≤ (findPara st pid).content.length := by omega
      exact removeFirstArr_ne_nil it h2
    · intro x hx
      exact findPara_items_resolved h.2.2.1 pid x (mem_removeFirstArr hx)

theorem pres_linkRemove (lid : Nat) : Pres (Link.remove lid) := by
  intro ex st h
  exact pres_paragraphRemoveContent (findLink st lid).parent (.link lid) ex st h

theorem pres_linkRemoveContent (lid tid : Nat) : Pres (Link.removeContent lid tid) := by
  intro ex st h
  unfold Link.removeContent
  split
  · exact h
  · exact pres_linkRemove lid ex st h

theorem pres_textRemove (tid : Nat) : Pres (Text.remove tid) := by
  unfold Text.remove
  simp only [M.bind_def, M.pure_def]
  apply Pres_bind Pres_get
  intro st₁
  apply Pres_bind (Pres_liftE _)
  intro previous
  cases (findText st₁ tid).parent with
  | para pid =>
    apply Pres_bind (pres_paragraphRemoveContent pid _)
    intro _
    cases previous with
    | some p => exact Pres_bind Pres_get fun _ => Pres_pure _
    | none => exact Pres_pure _
  | link lid =>
    apply Pres_bind (pres_linkRemoveContent lid tid)
    intro _
    cases previous with
    | some p => exact Pres_bind Pres_get fun _ => Pres_pure _
    | none => exact Pres_pure _

theorem pres_removeRange (tid : Nat) (a b : Int) : Pres (Text.removeRange tid a b) := by
  unfold Text.removeRange
  simp only [M.bind_def, M.pure_def]
  apply Pres_bind Pres_get
  intro st₁
  split
  · exact Pres_throw _
  · split
    · exact pres_textRemove tid
    · exact Pres_bind (pres_setContent _ _) fun _ => Pres_pure _

theorem pres_removeAfter (tid : Nat) (offset : Int) : Pres (Text.removeAfter tid offset) := by
  unfold Text.removeAfter
  simp only [M.bind_def]
  exact Pres_bind Pres_get fun st₁ => pres_removeRange tid offset _

theorem pres_removeBefore (tid : Nat) (offset : Int) : Pres (Text.removeBefore tid offset) :=
  pres_removeRange tid 0 offset

theorem pres_removeLastCharacter (tid : Nat) : Pres (Text.removeLastCharacter tid) := by
  unfold Text.removeLastCharacter
  simp only [M.bind_def]
  apply Pres_bind Pres_get
  intro st₁
  split
  · exact pres_textRemove tid
  · exact pres_removeRange tid _ _

theorem pres_removeFirstCharacter (tid : Nat) : Pres (Text.removeFirstCharacter tid) := by
  unfold Text.removeFirstCharacter
  simp only [M.bind_def]
  apply Pres_bind Pres_get
  intro st₁
  split
  · exact pres_textRemove tid
  · exact pres_removeRange tid 0 1

theorem pres_insertChar (tid : Nat) (c : Str) (offset : Int) :
    Pres (Text.insertChar tid c offset) := by
  unfold Text.insertChar
  simp only [M.bind_def, M.pure_def]
  apply Pres_bind Pres_get
  intro st₁
  exact Pres_bind (pres_setContent _ _) fun _ => Pres_pure _

theorem copyToParent_spec (it : Item) (pid : Nat) (st : St) :
    ∃ a st', Item.copyToParent it pid st = .ok a st' ∧
      (∀ ex, InvE ex st → InvE ex st') ∧ ItemResolved st' a ∧
      st'.paras = st.paras ∧ st'.doc = st.doc := by
  cases it with
  | text tid =>
    refine ⟨.text st.fresh, _, rfl, ?_, ?_, rfl, rfl⟩
    · intro ex h
      exact InvE_textsCons _ h (orSpace_ne_nil _)
    · simp [ItemResolved, alookup]
  | link lid =>
    refine ⟨.link st.fresh, _, rfl, ?_, ?_, rfl, rfl⟩
    · intro ex h
      exact InvE_linkCons _ _ h (orSpace_ne_nil _)
    · refine ⟨by simp [alookup], ?_⟩
      have hne : (st.fresh : Nat) + 1 ≠ st.fresh := by omega
      simp [findLink, alookup, hne]

theorem pres_addContent_cond (pid : Nat) (it : Item) :
    ∀ ex st, InvE ex st → ItemResolved st it →
      InvE ex (Res.st (Paragraph.addContent pid it st)) := by
  intro ex st h hres
  refine InvE_paraUpdate pid h (fun _ _ => by simp) ?_
  intro x hx
  rcases List.mem_append.mp hx with hx | hx
  · exact findPara_items_resolved h.2.2.1 pid x hx
  · simp at hx
    subst hx
    exact hres

theorem pres_addContentBefore_cond (pid : Nat) (it ref : Item) :
    ∀ ex st, InvE ex st → ItemResolved st it →
      InvE ex (Res.st (Paragraph.addContentBefore pid it ref st)) := by
  intro ex st h hres
  refine InvE_paraUpdate pid h (fun _ _ => insertBeforeArr_ne_nil it ref _) ?_
  intro x hx
  rcases mem_insertBeforeArr hx with rfl | hx
  · exact hres
  · exact findPara_items_resolved h.2.2.1 pid x hx

theorem pres_appendText (pid : Nat) (v : Str) : Pres (Paragraph.appendText pid v) := by
  unfold Paragraph.appendText
  simp only [M.bind_def]
  apply Pres_bind Pres_get
  intro st₁
  split
  · exact pres_append _ _
  · intro ex st h
    simp only [M.bind, Text.new]
    exact pres_addContent_cond pid _ ex _ (InvE_textsCons _ h (orSpace_ne_nil _))
      (by simp [ItemResolved, alookup])

theorem pres_combineLoop (pid : Nat) (lastOfThis : Item) (l : List Item) :
    ∀ firstChild, Pres (combineLoop pid lastOfThis firstChild l) := by
  induction l with
  | nil =>
    intro fc
    exact Pres_pure ()
  | cons c rest ih =>
    intro fc
    unfold combineLoop
    simp only [M.bind_def]
    apply Pres_bind
    · show Pres _
      rcases fc with _ | _
      · intro ex st h
        obtain ⟨a, st', heq, hpres, hres, -, -⟩ := copyToParent_spec c pid st
        simp only [M.bind, heq]
        exact pres_addContent_cond pid a ex st' (hpres ex h) hres
      · rcases lastOfThis with ltid | llid
        · rcases c with ctid | clid
          · apply Pres_bind Pres_get
            intro st₂
            split
            · exact pres_append _ _
            · exact pres_setContent _ _
          · intro ex st h
            obtain ⟨a, st', heq, hpres, hres, -, -⟩ := copyToParent_spec (.link clid) pid st
            simp only [M.bind, heq]
            exact pres_addContent_cond pid a ex st' (hpres ex h) hres
        · intro ex st h
          obtain ⟨a, st', heq, hpres, hres, -, -⟩ := copyToParent_spec c pid st
          simp only [M.bind, heq]
          exact pres_addContent_cond pid a ex st' (hpres ex h) hres
    · intro _
      exact ih false

theorem pres_combineWith (pid other : Nat) : Pres (Paragraph.combineWith pid other) := by
  unfold Paragraph.combineWith
  simp only [M.bind_def, M.pure_def]
  split
  · exact Pres_pure _
  · apply Pres_bind Pres_get
    intro st₁
    split
    · exact Pres_throw _
    · apply Pres_bind (pres_combineLoop pid _ _ true)
      intro _
      apply Pres_bind (pres_modelRemoveContent other)
      intro _
      exact Pres_bind Pres_get fun _ => Pres_pure _

theorem pres_textRemoveNextChar (tid : Nat) (offset : Int) :
    Pres (Text.removeNextChar tid offset) := by
  unfold Text.removeNextChar
  simp only [M.bind_def, M.pure_def]
  apply Pres_bind Pres_get
  intro st₁
  split
  · apply Pres_bind (Pres_liftE _)
    intro next
    cases next with
    | some n =>
      dsimp only
      by_cases hc : containingParagraphP st₁ n ≠ containingParagraphP st₁ tid
      · rw [if_pos hc]
        exact pres_combineWith _ _
      · rw [if_neg hc]
        exact pres_removeFirstCharacter n
    | none => exact Pres_pure _
  · exact pres_removeRange tid offset (offset + 1)

theorem pres_textRemovePreviousChar (tid : Nat) (offset : Int) :
    Pres (Text.removePreviousChar tid offset) := by
  unfold Text.removePreviousChar
  simp only [M.bind_def, M.pure_def]
  apply Pres_bind Pres_get
  intro st₁
  split
  · apply Pres_bind (Pres_liftE _)
    intro previous
    cases previous with
    | some p =>
      dsimp only
      by_cases hc : containingParagraphP st₁ p ≠ containingParagraphP st₁ tid
      · rw [if_pos hc]
        exact pres_combineWith _ _
      · rw [if_neg hc]
        exact pres_removeLastCharacter p
    | none => exact Pres_pure _
  · exact pres_removeRange tid (offset - 1) offset

theorem pres_itemRemoveSelf (it : Item) : Pres (Item.removeSelf it) := by
  cases it with
  | text tid =>
    unfold Item.removeSelf
    simp only [M.bind_def, M.pure_def]
    exact Pres_bind (pres_textRemove tid) fun _ => Pres_pure ()
  | link lid => exact pres_linkRemove lid

theorem pres_removeItems (l : List Item) : Pres (removeItems l) := by
  induction l with
  | nil => exact Pres_pure ()
  | cons it rest ih =>
    unfold removeItems
    simp only [M.bind_def]
    exact Pres_bind (pres_itemRemoveSelf it) fun _ => ih

theorem QNE.qs {q : Nat} {st : St} (h : QNE q st) : QS q st := by
  obtain ⟨po, hpo, _⟩ := h
  simp [QS, hpo]

theorem QNE.findPara_ne {q : Nat} {st : St} (h : QNE q st) :
    (findPara st q).content ≠ [] := by
  obtain ⟨po, hpo, hne⟩ := h
  simpa [findPara, hpo] using hne

theorem qs_aupdate {q pid : Nat} {v : ParaObj} {st : St} (h : QS q st) :
    QS q { st with paras := aupdate pid v st.paras } := by
  simpa [QS, alookup_aupdate_isSome] using h

theorem qne_aupdate_ne {q pid : Nat} {v : ParaObj} {st : St} (h : QNE q st)
    (hq : q ≠ pid) : QNE q { st with paras := aupdate pid v st.paras } := by
  obtain ⟨po, hpo, hne⟩ := h
  exact ⟨po, by rwa [alookup_aupdate_ne _ hq], hne⟩

theorem addContent_qne (pid : Nat) (it : Item) (st : St) (h : QS pid st) :
    QNE pid (Res.st (Paragraph.addContent pid it st)) := by
  obtain ⟨po, hpo⟩ := Option.isSome_iff_exists.mp h
  refine ⟨⟨(findPara st pid).content ++ [it]⟩, ?_, by simp⟩
  show alookup pid (aupdate pid _ st.paras) = _
  rw [alookup_aupdate_map, hpo]
  rfl

theorem addContent_qne_other {q : Nat} (pid : Nat) (it : Item) (st : St) (h : QNE q st) :
    QNE q (Res.st (Paragraph.addContent pid it st)) := by
  by_cases hq : q = pid
  · subst hq
    exact addContent_qne q it st h.qs
  · exact qne_aupdate_ne h hq

theorem qne_paragraphRemoveContent {q : Nat} (pid : Nat) (it : Item) (st : St)
    (h : QNE q st) : QNE q (Res.st (Paragraph.removeContent pid it st)) := by
  obtain ⟨po, hpo, hne⟩ := h
  unfold Paragraph.removeContent
  split
  · exact ⟨po, hpo, hne⟩
  · next hlen =>
    by_cases hq : q = pid
    · subst hq
      refine ⟨⟨removeFirstArr it (findPara st q).content⟩, ?_, ?_⟩
      · show alookup q (aupdate q _ st.paras) = _
        rw [alookup_aupdate_map, hpo]
        rfl
      · have hfp : findPara st q = po := by simp [findPara, hpo]
        rw [hfp]
        have h0 : po.content.length ≠ 0 := by simpa [List.length_eq_zero] using hne
        have hlen' : po.content.length ≠ 1 := by
          intro hh
          exact hlen (by simp [hfp, hh])
        exact removeFirstArr_ne_nil it (by omega)
    · exact qne_aupdate_ne ⟨po, hpo, hne⟩ hq

theorem qne_linkRemove {q : Nat} (lid : Nat) (st : St) (h : QNE q st) :
    QNE q (Res.st (Link.remove lid st)) :=
  qne_paragraphRemoveContent _ _ st h

theorem qne_linkRemoveContent {q : Nat} (lid tid : Nat) (st : St) (h : QNE q st) :
    QNE q (Res.st (Link.removeContent lid tid st)) := by
  unfold Link.removeContent
  split
  · exact h
  · exact qne_linkRemove lid st h

theorem qne_textRemove {q : Nat} (tid : Nat) (st : St) (h : QNE q st) :
    QNE q (Res.st (Text.remove tid st)) := by
  unfold Text.remove
  simp only [M.bind_def, M.bind, M.get]
  cases he : textGetPrecedingTextP st tid with
  | error e => simpa [liftE, he] using h
  | ok previous =>
    simp only [liftE, he]
    cases hp : (findText st tid).parent with
    | para pid =>
      cases hr : Paragraph.removeContent pid (.text tid) st with
      | ok a s' =>
        have := qne_paragraphRemoveContent pid (.text tid) st h
        rw [hr] at this
        simp only [M.bind, hr]
        cases previous <;> simpa [M.bind, M.get, M.pure] using this
      | err e s' =>
        have := qne_paragraphRemoveContent pid (.text tid) st h
        rw [hr] at this
        simp only [M.bind, hr]
        simpa using this
    | link lid =>
      cases hr : Link.removeContent lid tid st with
      | ok a s' =>
        have := qne_linkRemoveContent lid tid st h
        rw [hr] at this
        simp only [M.bind, hr]
        cases previous <;> simpa [M.bind, M.get, M.pure] using this
      | err e s' =>
        have := qne_linkRemoveContent lid tid st h
        rw [hr] at this
        simp only [M.bind, hr]
        simpa using this

theorem qne_itemRemoveSelf {q : Nat} (it : Item) (st : St) (h : QNE q st) :
    QNE q (Res.st (Item.removeSelf it st)) := by
  cases it with
  | text tid =>
    unfold Item.removeSelf
    simp only [M.bind_def, M.bind]
    cases hr : Text.remove tid st with
    | ok a s' =>
      have := qne_textRemove tid st h
      rw [hr] at this
      simp only [hr]
      simpa using this
    | err e s' =>
      have := qne_textRemove tid st h
      rw [hr] at this
      simp only [hr]
      simpa using this
  | link lid => exact qne_linkRemove lid st h

theorem qne_removeItems {q : Nat} (l : List Item) (st : St) (h : QNE q st) :
    QNE q (Res.st (removeItems l st)) := by
  induction l generalizing st with
  | nil => exact h
  | cons it rest ih =>
    unfold removeItems
    simp only [M.bind_def, M.bind]
    cases hr : Item.removeSelf it st with
    | ok a s' =>
      have := qne_itemRemoveSelf it st h
      rw [hr] at this
      simp only [hr]
      exact ih s' (by simpa using this)
    | err e s' =>
      have := qne_itemRemoveSelf it st h
      rw [hr] at this
      simp only [hr]
      simpa using this

theorem itemSetContent_spec (it : Item) (v : Str) (st : St) :
    ∃ st', Item.setContent it v st = .ok () st' ∧
      (∀ ex, InvE ex st → InvE ex st') ∧ st'.paras = st.paras := by
  cases it with
  | text tid =>
    exact ⟨_, rfl, fun ex h => pres_setContent tid v ex st h, rfl⟩
  | link lid =>
    exact ⟨_, rfl, fun ex h => pres_setContent (findLink st lid).textId v ex st h, rfl⟩

theorem appendText_spec (pid : Nat) (v : Str) (st : St) :
    ∃ st', Paragraph.appendText pid v st = .ok () st' ∧
      (∀ ex, InvE ex st → InvE ex st') ∧
      (QS pid st → QNE pid st') ∧
      (∀ q, QS q st → QS q st') ∧
      (∀ q, QNE q st → q ≠ pid → QNE q st') := by
  unfold Paragraph.appendText
  simp only [M.bind_def, M.bind, M.get]
  cases hg : (findPara st pid).content.getLast? with
  | some it =>
    cases it with
    | text tid =>
      refine ⟨_, rfl, fun ex h => pres_append tid _ ex st h, ?_, fun q hq => hq, fun q hq _ => hq⟩
      intro hqs
      obtain ⟨po, hpo⟩ := Option.isSome_iff_exists.mp hqs
      refine ⟨po, hpo, ?_⟩
      intro hc
      rw [show findPara st pid = po from by simp [findPara, hpo], hc] at hg
      simp at hg
    | link lid =>
      refine ⟨_, rfl, ?_, ?_, ?_, ?_⟩
      · intro ex h
        exact pres_addContent_cond pid _ ex _ (InvE_textsCons _ h (orSpace_ne_nil _))
          (by simp [ItemResolved, alookup])
      · intro hqs
        exact addContent_qne pid _ _ (by simpa [QS] using hqs)
      · intro q hq
        exact qs_aupdate (by simpa [QS] using hq)
      · intro q hq hne
        exact qne_aupdate_ne (by
          obtain ⟨po, hpo, hc⟩ := hq
          exact ⟨po, hpo, hc⟩) hne
  | none =>
    refine ⟨_, rfl, ?_, ?_, ?_, ?_⟩
    · intro ex h
      exact pres_addContent_cond pid _ ex _ (InvE_textsCons _ h (orSpace_ne_nil _))
        (by simp [ItemResolved, alookup])
    · intro hqs
      exact addContent_qne pid _ _ (by simpa [QS] using hqs)
    · intro q hq
      exact qs_aupdate (by simpa [QS] using hq)
    · intro q hq hne
      exact qne_aupdate_ne (by
        obtain ⟨po, hpo, hc⟩ := hq
        exact ⟨po, hpo, hc⟩) hne

theorem splitLoop_spec (q ftid : Nat) (off : Int) (l : List Item) :
    ∀ st, ∃ r st', splitLoop q ftid off l st = .ok r st' ∧
      (∀ ex, InvE ex st → InvE ex st') ∧
      (QS q st → QS q st') ∧
      (QNE q st → QNE q st') ∧
      (r ≠ [] → QS q st → QNE q st') := by
  induction l with
  | nil =>
    intro st
    exact ⟨[], st, rfl, fun _ h => h, fun h => h, fun h => h, fun hr _ => absurd rfl hr⟩
  | cons c rest ih =>
    intro st
    by_cases hf : itemTextP st c = ftid
    · obtain ⟨st₁, heq₁, hpres₁, hqne₁, hqs₁, _⟩ :=
        appendText_spec q (jsSubstring (itemContentP st c) 0 off) st
      obtain ⟨st₂, heq₂, hpres₂, hpar₂⟩ := itemSetContent_spec c
        (jsSubstring (itemContentP st c) off ((findText st₁ ftid).content.length : Int)) st₁
      refine ⟨[], st₂, ?_, ?_, ?_, ?_, fun hr _ => absurd rfl hr⟩
      · show splitLoop q ftid off (c :: rest) st = _
        simp only [splitLoop, M.bind_def, M.bind, M.get, if_pos hf, heq₁, heq₂, M.pure]
      · intro ex h
        exact hpres₂ ex (hpres₁ ex h)
      · intro h
        have := hqs₁ q h
        simpa [QS, hpar₂] using this
      · intro h
        have h₁ := hqne₁ h.qs
        obtain ⟨po, hpo, hc⟩ := h₁
        exact ⟨po, by rwa [hpar₂], hc⟩
    · obtain ⟨a, st₁, heq₁, hpres₁, hres₁, hpar₁, _⟩ := copyToParent_spec c q st
      have heq₂ : Paragraph.addContent q a st₁ =
          .ok () { st₁ with paras := aupdate q ⟨(findPara st₁ q).content ++ [a]⟩ st₁.paras } := rfl
      obtain ⟨r', st₃, heq₃, hpres₃, hqs₃, hqne₃, _⟩ :=
        ih { st₁ with paras := aupdate q ⟨(findPara st₁ q).content ++ [a]⟩ st₁.paras }
      refine ⟨c :: r', st₃, ?_, ?_, ?_, ?_, ?_⟩
      · show splitLoop q ftid off (c :: rest) st = _
        simp only [splitLoop, M.bind_def, M.bind, M.get, if_neg hf, heq₁, heq₂, heq₃, M.pure]
      · intro ex h
        refine hpres₃ ex ?_
        have h₂ := pres_addContent_cond q a ex st₁ (hpres₁ ex h) hres₁
        simpa using h₂
      · intro h
        refine hqs₃ ?_
        have hq₁ : QS q st₁ := by simpa [QS, hpar₁] using h
        exact qs_aupdate hq₁
      · intro h
        refine hqne₃ ?_
        have hq₁ : QNE q st₁ := by
          obtain ⟨po, hpo, hc⟩ := h
          exact ⟨po, by rwa [hpar₁], hc⟩
        have := addContent_qne_other q a st₁ hq₁
        simpa using this
      · intro _ h
        refine hqne₃ ?_
        have hq₁ : QS q st₁ := by simpa [QS, hpar₁] using h
        have := addContent_qne q a st₁ hq₁
        simpa using this

theorem splitTail2_spec (pid : Nat) : ∀ st, Inv st →
    Inv (Res.st ((M.bind M.get fun st3 =>
      M.bind (liftE (firstTextP st3 pid)) fun ft => M.pure (⟨ft, 0⟩ : Point)) st)) := by
  intro st h
  simp only [M.bind, M.get]
  cases hft : firstTextP st pid with
  | ok ft => simpa [liftE, hft, M.pure] using h
  | error e => simpa [liftE, hft] using h

theorem splitTail_spec (pid q : Nat) :
    ∀ st, InvE (some q) st → QS q st → Inv (Res.st (splitTail pid q st)) := by
  intro st h hqs
  unfold splitTail
  simp only [M.bind_def, M.bind, M.get]
  by_cases he : (findPara st q).content = []
  · rw [if_pos he]
    have hA : InvE (some q)
        { st with texts := (st.fresh, ⟨orSpace [], .para q⟩) :: st.texts, fresh := st.fresh + 1 } :=
      InvE_textsCons _ h (orSpace_ne_nil _)
    have hqsA : QS q
        { st with texts := (st.fresh, ⟨orSpace [], .para q⟩) :: st.texts, fresh := st.fresh + 1 } :=
      hqs
    have hB := pres_addContent_cond q (.text st.fresh) (some q) _ hA
      (by simp [ItemResolved, alookup])
    have hqneB := addContent_qne q (.text st.fresh) _ hqsA
    simp only [Paragraph.addContent, Res.st_ok] at hB hqneB
    have hInvB := InvE_unExcuse hB hqneB.findPara_ne
    simp only [Text.new, Paragraph.addContent, M.bind]
    exact splitTail2_spec pid _ hInvB
  · rw [if_neg he]
    have hInv := InvE_unExcuse h he
    simp only [M.pure, M.bind]
    exact splitTail2_spec pid st hInv

theorem splitTo_spec (pid q ftid : Nat) (off : Int) :
    ∀ st, InvE (some q) st → QS q st →
      Inv (Res.st (Paragraph.splitTo pid q ftid off st)) := by
  intro st hinv hqs
  unfold Paragraph.splitTo
  simp only [M.bind_def, M.bind, M.get]
  obtain ⟨r, st₁, heq₁, hpres₁, hqs₁, hqne₁, hqnep₁⟩ :=
    splitLoop_spec q ftid off (findPara st pid).content st
  simp only [heq₁]
  have hinv₁ : InvE (some q) st₁ := hpres₁ _ hinv
  have hqs₁' : QS q st₁ := hqs₁ hqs
  cases hri : removeItems r st₁ with
  | ok a st₂ =>
    simp only [hri]
    have hinv₂ : InvE (some q) st₂ := by
      have := pres_removeItems r (some q) st₁ hinv₁
      rw [hri] at this
      simpa using this
    have hqs₂ : QS q st₂ := by
      by_cases hr : r = []
      · subst hr
        cases hri
        exact hqs₁'
      · have hq := hqnep₁ hr hqs
        have := qne_removeItems r st₁ hq
        rw [hri] at this
        exact (by simpa using this : QNE q st₂).qs
    exact splitTail_spec pid q st₂ hinv₂ hqs₂
  | err e st₂ =>
    simp only [hri]
    have hinv₂ : InvE (some q) st₂ := by
      have := pres_removeItems r (some q) st₁ hinv₁
      rw [hri] at this
      simpa using this
    have hr : r ≠ [] := by
      intro hr
      subst hr
      exact absurd hri (by simp [removeItems, M.pure])
    have hqne₂ : QNE q st₂ := by
      have := qne_removeItems r st₁ (hqnep₁ hr hqs)
      rw [hri] at this
      simpa using this
    exact InvE_unExcuse hinv₂ hqne₂.findPara_ne

theorem pres_mergeLoop (cursor : Point) (l : List Item) :
    ∀ prev acc, Pres (mergeLoop cursor prev l acc) := by
  induction l with
  | nil =>
    intro prev acc
    cases prev <;> exact Pres_pure _
  | cons cur rest ih =>
    intro prev acc
    cases prev with
    | text ptid =>
      cases cur with
      | text ctid =>
        unfold mergeLoop
        simp only [M.bind_def]
        apply Pres_bind Pres_get
        intro st₁
        apply Pres_bind (pres_append _ _)
        intro _
        apply Pres_bind (pres_textRemove ctid)
        intro _
        exact ih _ _
      | link clid => exact ih _ _
    | link plid => exact ih _ _

theorem pres_mergeConsecutiveTexts (pid : Nat) (cursor : Point) :
    Pres (Paragraph.mergeConsecutiveTexts pid cursor) := by
  unfold Paragraph.mergeConsecutiveTexts
  simp only [M.bind_def]
  apply Pres_bind Pres_get
  intro st₁
  cases hc : (findPara st₁ pid).content with
  | nil => exact Pres_bind (Pres_pure _) fun c => pres_moveCursorDirect c
  | cons first rest =>
    cases rest with
    | nil => exact Pres_bind (Pres_pure _) fun c => pres_moveCursorDirect c
    | cons second rest' =>
      exact Pres_bind (pres_mergeLoop cursor _ first cursor) fun c => pres_moveCursorDirect c

theorem itemFindTextForPath_st (it : Item) (rest : List Nat) (st : St) :
    Res.st (Item.findTextForPath it rest st) = st := by
  cases it with
  | text tid =>
    unfold Item.findTextForPath
    split <;> rfl
  | link lid =>
    unfold Item.findTextForPath
    cases rest with
    | nil => rfl
    | cons k rest2 =>
      dsimp only
      split <;> rfl

theorem paraFindTextForPath_st (pid : Nat) (path : List Nat) (st : St) :
    Res.st (Paragraph.findTextForPath pid path st) = st := by
  cases path with
  | nil => rfl
  | cons j rest =>
    unfold Paragraph.findTextForPath
    simp only [M.bind_def, M.bind, M.get]
    cases (findPara st pid).content.get? j with
    | some it => exact itemFindTextForPath_st it rest st
    | none => rfl

theorem modelFindTextForPath_st (path : List Nat) (st : St) :
    Res.st (Model.findTextForPath path st) = st := by
  cases path with
  | nil => rfl
  | cons i rest =>
    unfold Model.findTextForPath
    simp only [M.bind_def, M.bind, M.get]
    cases st.doc.get? i with
    | some pid => exact paraFindTextForPath_st pid rest st
    | none => rfl

theorem Pres_of_st_id {m : M α} (h : ∀ st, Res.st (m st) = st) : Pres m := by
  intro _ st hi
  rw [h st]
  exact hi

theorem pres_getSelection_rest (hs : HostSel) :
    Pres (M.bind (Model.findTextForPath hs.startPath) fun startTid =>
          M.bind (Model.findTextForPath hs.endPath) fun endTid =>
          if startTid ≠ endTid then
            M.bind M.get fun st₁ =>
            M.bind (liftE (textGetPrecedingTextP st₁ endTid)) fun first =>
            M.bind (liftE (walkBetween st₁ startTid (st₁.texts.length + 1) first)) fun tb =>
            M.pure (⟨⟨startTid, hs.startOffset⟩, ⟨endTid, hs.endOffset⟩, tb⟩ : Selection)
          else M.pure ⟨⟨startTid, hs.startOffset⟩, ⟨endTid, hs.endOffset⟩, []⟩) := by
  apply Pres_bind (Pres_of_st_id (modelFindTextForPath_st hs.startPath))
  intro startTid
  apply Pres_bind (Pres_of_st_id (modelFindTextForPath_st hs.endPath))
  intro endTid
  split
  · apply Pres_bind Pres_get
    intro st₁
    apply Pres_bind (Pres_liftE _)
    intro first
    apply Pres_bind (Pres_liftE _)
    intro tb
    exact Pres_pure _
  · exact Pres_pure _

theorem pres_getSelection (hs : HostSel) : Pres (Model.getSelection hs) := by
  unfold Model.getSelection
  simp only [M.bind_def]
  apply Pres_bind Pres_get
  intro st₀
  by_cases hd : st₀.doc = []
  · rw [if_pos hd]
    intro ex st h
    simp only [M.bind, M.pure_def, Paragraph.new, Text.new, Paragraph.addContent,
      Model.addParagraph, Model.moveCursor, moveCursorDirect]
    have h₁ : InvE ex _ := InvE_parasConsEmpty h
    have h₂ := InvE_textsCons (.para st.fresh) h₁ (orSpace_ne_nil [])
    have h₃ := pres_addContent_cond st.fresh (.text (st.fresh + 1)) ex _ h₂
      (by simp [ItemResolved, alookup])
    simp only [Paragraph.addContent, Res.st_ok] at h₃
    have h₄ := InvE_docAppend st.fresh h₃ (fun _ => by
      simp [findPara, aupdate, alookup])
    have h₅ := InvE_cursor (some ⟨st.fresh + 1, 0⟩) h₄
    exact pres_getSelection_rest hs ex _ h₅
  · rw [if_neg hd]
    intro ex st h
    simp only [M.bind, M.pure_def, M.pure]
    exact pres_getSelection_rest hs ex st h

theorem pres_selectionRemove (sel : Selection) : Pres (Selection.remove sel) := by
  unfold Selection.remove
  simp only [M.bind_def]
  split
  · apply Pres_bind (pres_removeItems _)
    intro _
    apply Pres_bind (pres_removeAfter _ _)
    intro _
    apply Pres_bind (pres_removeBefore _ _)
    intro _
    apply Pres_bind Pres_get
    intro st₁
    apply Pres_bind (pres_combineWith _ _)
    intro _
    exact Pres_pure _
  · exact pres_removeRange _ _ _

theorem pres_updateSelection (hs : HostSel) : Pres (Model.updateSelection hs) := by
  unfold Model.updateSelection
  simp only [M.bind_def]
  apply Pres_bind (pres_getSelection hs)
  intro sel
  apply Pres_bind Pres_get
  intro st₁
  intro ex st h
  exact InvE_selfields _ _ h

theorem pres_modelInsertChar (c : Str) (hs : HostSel) : Pres (Model.insertChar c hs) := by
  unfold Model.insertChar
  simp only [M.bind_def]
  apply Pres_bind (pres_getSelection hs)
  intro sel
  split
  · apply Pres_bind (pres_selectionRemove sel)
    intro _
    apply Pres_bind (Pres_pure ())
    intro _
    apply Pres_bind (pres_insertChar _ c _)
    intro pt
    exact pres_modelMoveCursor _
  · apply Pres_bind (Pres_pure ())
    intro _
    apply Pres_bind (pres_insertChar _ c _)
    intro pt
    exact pres_modelMoveCursor _

theorem pres_modelRemoveNextChar (hs : HostSel) : Pres (Model.removeNextChar hs) := by
  unfold Model.removeNextChar
  simp only [M.bind_def]
  apply Pres_bind (pres_getSelection hs)
  intro sel
  split
  · apply Pres_bind (pres_selectionRemove sel)
    intro p
    exact pres_modelMoveCursor p
  · apply Pres_bind (pres_textRemoveNextChar _ _)
    intro p
    exact pres_modelMoveCursor p

theorem pres_modelRemovePreviousChar (hs : HostSel) : Pres (Model.removePreviousChar hs) := by
  unfold Model.removePreviousChar
  simp only [M.bind_def]
  apply Pres_bind (pres_getSelection hs)
  intro sel
  split
  · apply Pres_bind (pres_selectionRemove sel)
    intro p
    exact pres_modelMoveCursor p
  · apply Pres_bind (pres_textRemovePreviousChar _ _)
    intro p
    exact pres_modelMoveCursor p

theorem paragraphNew_eq (st : St) : Paragraph.new st = .ok st.fresh (seedPara st) := rfl

theorem get_seedPara_eq (st : St) :
    M.get (seedPara st) = .ok (seedPara st) (seedPara st) := rfl

theorem insertParaBefore_seed_eq (st : St) (tid : Nat) :
    Model.insertParagraphBefore st.fresh (containingParagraphP (seedPara st) tid) (seedPara st) =
      .ok () (seedParaInserted st tid) := rfl

theorem insertNewParagraph_tail_spec (tid : Nat) (off : Int) :
    ∀ st, Inv st → Inv (Res.st ((M.bind Paragraph.new fun newPid =>
      M.bind M.get fun st₂ =>
      M.bind (Model.insertParagraphBefore newPid (containingParagraphP st₂ tid)) fun _ =>
      M.bind (Paragraph.splitTo (containingParagraphP st₂ tid) newPid tid off) fun pt =>
      Model.moveCursor (some pt)) st)) := by
  intro st h
  rw [M.bind_ok _ _ _ _ _ (paragraphNew_eq st)]
  rw [M.bind_ok _ _ _ _ _ (get_seedPara_eq st)]
  rw [M.bind_ok _ _ _ _ _ (insertParaBefore_seed_eq st tid)]
  have h₁ : InvE (some st.fresh) (seedPara st) := InvE_mono _ (InvE_parasConsEmpty h)
  have h₂ : InvE (some st.fresh) (seedParaInserted st tid) :=
    InvE_docInsert st.fresh (containingParagraphP (seedPara st) tid) h₁
      (fun hne => absurd rfl hne)
  have hqs : QS st.fresh (seedParaInserted st tid) := by
    simp [QS, seedParaInserted, seedPara, alookup]
  have h₃ := splitTo_spec (containingParagraphP (seedPara st) tid) st.fresh tid off
    (seedParaInserted st tid) h₂ hqs
  cases hsp : Paragraph.splitTo (containingParagraphP (seedPara st) tid) st.fresh tid off
      (seedParaInserted st tid) with
  | ok pt st₄ =>
    rw [hsp] at h₃
    simp only [Res.st_ok] at h₃
    simp only [M.bind, hsp]
    exact pres_modelMoveCursor (some pt) none st₄ h₃
  | err e st₄ =>
    rw [hsp] at h₃
    simp only [Res.st_err] at h₃
    simp only [M.bind, hsp]
    exact h₃

theorem pres_modelInsertNewParagraph (hs : HostSel) :
    ∀ st, Inv st → Inv (Res.st (Model.insertNewParagraph hs st)) := by
  intro st h
  unfold Model.insertNewParagraph
  simp only [M.bind_def, M.bind]
  cases hsel : Model.getSelection hs st with
  | err e st₁ =>
    simp only [hsel]
    have := pres_getSelection hs none st h
    rw [hsel] at this
    simpa using this
  | ok sel st₁ =>
    simp only [hsel]
    have h₁ : Inv st₁ := by
      have := pres_getSelection hs none st h
      rw [hsel] at this
      simpa using this
    by_cases hr : sel.isRange = true
    · rw [if_pos hr]
      simp only [M.bind]
      cases hrem : Selection.remove sel st₁ with
      | err e st₂ =>
        have := pres_selectionRemove sel none st₁ h₁
        rw [hrem] at this
        simpa using this
      | ok p st₂ =>
        have h₂ : Inv st₂ := by
          have := pres_selectionRemove sel none st₁ h₁
          rw [hrem] at this
          simpa using this
        simp only [hrem, M.pure_def, M.pure, M.bind]
        exact insertNewParagraph_tail_spec sel.start.tid sel.start.offset st₂ h₂
    · rw [if_neg hr]
      simp only [M.pure_def, M.pure, M.bind]
      exact insertNewParagraph_tail_spec sel.start.tid sel.start.offset st₁ h₁

theorem ItemResolved_textsCons {st : St} {it : Item} {k : Nat} {t : TextObj} {f : Nat}
    (h : ItemResolved st it) :
    ItemResolved { st with texts := (k, t) :: st.texts, fresh := f } it := by
  cases it with
  | text tid => exact alookup_cons_isSome h
  | link lid => exact ⟨h.1, alookup_cons_isSome h.2⟩

theorem pres_linkTail (tid lid : Nat) (co : Int) (hs : HostSel) :
    Pres (M.bind (Text.remove tid) fun _ =>
      M.bind M.get fun st4 =>
      M.bind (Model.moveCursor (some ⟨(findLink st4 lid).textId, co⟩)) fun _ =>
      Model.updateSelection hs) := by
  apply Pres_bind (pres_textRemove tid)
  intro _
  apply Pres_bind Pres_get
  intro st4
  apply Pres_bind (pres_modelMoveCursor _)
  intro _
  exact pres_updateSelection hs

theorem get_eq (st : St) : M.get st = .ok st st := rfl

theorem linkNew_eq (pid : Nat) (c tgt : Str) (st : St) :
    Link.new pid c tgt st = .ok st.fresh (linkNewSt st pid c tgt) := rfl

theorem textNew_eq (c : Str) (par : Parent) (st : St) :
    Text.new c par st = .ok st.fresh (textNewSt st c par) := rfl

theorem addContentBefore_eq (pid : Nat) (it ref : Item) (st : St) :
    Paragraph.addContentBefore pid it ref st = .ok () (addBeforeSt st pid it ref) := rfl

theorem InvE_addBefore {ex : Option Nat} {st : St} (pid : Nat) (it ref : Item)
    (h : InvE ex st) (hres : ItemResolved st it) :
    InvE ex (addBeforeSt st pid it ref) :=
  pres_addContentBefore_cond pid it ref ex st h hres

theorem InvE_textNewSt {ex : Option Nat} {st : St} (c : Str) (par : Parent)
    (h : InvE ex st) : InvE ex (textNewSt st c par) :=
  InvE_textsCons par h (orSpace_ne_nil c)

theorem InvE_linkNewSt {ex : Option Nat} {st : St} (pid : Nat) (c tgt : Str)
    (h : InvE ex st) : InvE ex (linkNewSt st pid c tgt) :=
  InvE_linkCons tgt pid h (orSpace_ne_nil c)

theorem linkNewSt_resolved (st : St) (pid : Nat) (c tgt : Str) :
    ItemResolved (linkNewSt st pid c tgt) (.link st.fresh) := by
  refine ⟨by simp [linkNewSt, alookup], ?_⟩
  have hne : (st.fresh : Nat) + 1 ≠ st.fresh := by omega
  simp [linkNewSt, findLink, alookup, hne]

theorem textNewSt_resolved (st : St) (c : Str) (par : Parent) :
    ItemResolved (textNewSt st c par) (.text st.fresh) := by
  simp [textNewSt, ItemResolved, alookup]

theorem ItemResolved_addBefore {st : St} {it : Item} (pid : Nat) (x ref : Item)
    (h : ItemResolved st it) : ItemResolved (addBeforeSt st pid x ref) it := by
  cases it with
  | text tid => exact h
  | link lid => exact h

theorem ItemResolved_textNewSt {st : St} {it : Item} (c : Str) (par : Parent)
    (h : ItemResolved st it) : ItemResolved (textNewSt st c par) it :=
  ItemResolved_textsCons h

theorem pure_unit_eq (st : St) : M.pure () st = .ok () st := rfl

theorem pres_modelLink (target : Str) (hs : HostSel) : Pres (Model.link target hs) := by
  intro ex st h
  unfold Model.link
  simp only [M.bind_def, M.pure_def]
  simp only [M.bind_ok _ _ _ _ _ (get_eq st)]
  cases hls : st.linkableSelection with
  | none => simpa [M.bind, M.throw, hls] using h
  | some ls =>
    simp only [hls]
    simp only [M.bind_ok _ _ _ _ _ (get_eq st)]
    simp only [M.bind_ok _ _ _ _ _ (linkNew_eq (containingParagraphP st ls.tid)
      (jsSubstring (findText st ls.tid).content ls.start ls.end') target st)]
    set stL := linkNewSt st (containingParagraphP st ls.tid)
      (jsSubstring (findText st ls.tid).content ls.start ls.end') target with hstL
    simp only [M.bind_ok _ _ _ _ _ (get_eq stL)]
    have hL : InvE ex stL := InvE_linkNewSt _ _ _ h
    have hresL : ItemResolved stL (.link st.fresh) := linkNewSt_resolved st _ _ _
    by_cases h1 : ls.start > 0
    · rw [if_pos h1]
      simp only [M.bind_ok _ _ _ _ _ (textNew_eq
        (jsSubstring (findText stL ls.tid).content 0 ls.start)
        (.para (containingParagraphP st ls.tid)) stL)]
      set stT1 := textNewSt stL (jsSubstring (findText stL ls.tid).content 0 ls.start)
        (.para (containingParagraphP st ls.tid)) with hstT1
      simp only [M.bind_ok _ _ _ _ _ (addContentBefore_eq (containingParagraphP st ls.tid)
        (.text stL.fresh) (.text ls.tid) stT1)]
      set stB1 := addBeforeSt stT1 (containingParagraphP st ls.tid)
        (.text stL.fresh) (.text ls.tid) with hstB1
      have hB1 : InvE ex stB1 := InvE_addBefore _ _ _ (InvE_textNewSt _ _ hL)
        (textNewSt_resolved stL _ _)
      have hresB1 : ItemResolved stB1 (.link st.fresh) :=
        ItemResolved_addBefore _ _ _ (ItemResolved_textNewSt _ _ hresL)
      simp only [M.bind_ok _ _ _ _ _ (addContentBefore_eq (containingParagraphP st ls.tid)
        (.link st.fresh) (.text ls.tid) stB1)]
      set stM := addBeforeSt stB1 (containingParagraphP st ls.tid)
        (.link st.fresh) (.text ls.tid) with hstM
      have hM : InvE ex stM := InvE_addBefore _ _ _ hB1 hresB1
      simp only [M.bind_ok _ _ _ _ _ (get_eq stM)]
      by_cases h2 : ls.end' < ((findText stM ls.tid).content.length : Int)
      · rw [if_pos h2]
        simp only [M.bind_ok _ _ _ _ _ (textNew_eq
          (jsSubstring (findText stM ls.tid).content ls.end'
            ((findText stM ls.tid).content.length : Int))
          (.para (containingParagraphP st ls.tid)) stM)]
        set stT2 := textNewSt stM (jsSubstring (findText stM ls.tid).content ls.end'
          ((findText stM ls.tid).content.length : Int))
          (.para (containingParagraphP st ls.tid)) with hstT2
        simp only [M.bind_ok _ _ _ _ _ (addContentBefore_eq (containingParagraphP st ls.tid)
          (.text stM.fresh) (.text ls.tid) stT2)]
        have hB2 : InvE ex (addBeforeSt stT2 (containingParagraphP st ls.tid)
            (.text stM.fresh) (.text ls.tid)) :=
          InvE_addBefore _ _ _ (InvE_textNewSt _ _ hM) (textNewSt_resolved stM _ _)
        exact pres_linkTail ls.tid st.fresh (ls.cursor - ls.start) hs ex _ hB2
      · rw [if_neg h2]
        simp only [M.bind_ok _ _ _ _ _ (pure_unit_eq stM)]
        exact pres_linkTail ls.tid st.fresh (ls.cursor - ls.start) hs ex stM hM
    · rw [if_neg h1]
      simp only [M.bind_ok _ _ _ _ _ (pure_unit_eq stL)]
      simp only [M.bind_ok _ _ _ _ _ (addContentBefore_eq (containingParagraphP st ls.tid)
        (.link st.fresh) (.text ls.tid) stL)]
      set stM := addBeforeSt stL (containingParagraphP st ls.tid)
        (.link st.fresh) (.text ls.tid) with hstM
      have hM : InvE ex stM := InvE_addBefore _ _ _ hL hresL
      simp only [M.bind_ok _ _ _ _ _ (get_eq stM)]
      by_cases h2 : ls.end' < ((findText stM ls.tid).content.length : Int)
      · rw [if_pos h2]
        simp only [M.bind_ok _ _ _ _ _ (textNew_eq
          (jsSubstring (findText stM ls.tid).content ls.end'
            ((findText stM ls.tid).content.length : Int))
          (.para (containingParagraphP st ls.tid)) stM)]
        set stT2 := textNewSt stM (jsSubstring (findText stM ls.tid).content ls.end'
          ((findText stM ls.tid).content.length : Int))
          (.para (containingParagraphP st ls.tid)) with hstT2
        simp only [M.bind_ok _ _ _ _ _ (addContentBefore_eq (containingParagraphP st ls.tid)
          (.text stM.fresh) (.text ls.tid) stT2)]
        have hB2 : InvE ex (addBeforeSt stT2 (containingParagraphP st ls.tid)
            (.text stM.fresh) (.text ls.tid)) :=
          InvE_addBefore _ _ _ (InvE_textNewSt _ _ hM) (textNewSt_resolved stM _ _)
        exact pres_linkTail ls.tid st.fresh (ls.cursor - ls.start) hs ex _ hB2
      · rw [if_neg h2]
        simp only [M.bind_ok _ _ _ _ _ (pure_unit_eq stM)]
        exact pres_linkTail ls.tid st.fresh (ls.cursor - ls.start) hs ex stM hM

theorem pres_modelUnlink (hs : HostSel) : Pres (Model.unlink hs) := by
  intro ex st h
  unfold Model.unlink
  simp only [M.bind_def, M.pure_def]
  simp only [M.bind_ok _ _ _ _ _ (get_eq st)]
  cases hld : st.linkedSelection with
  | none => simpa [M.bind, M.throw, hld] using h
  | some ld =>
    simp only [hld]
    simp only [M.bind_ok _ _ _ _ _ (get_eq st)]
    simp only [M.bind_ok _ _ _ _ _ (textNew_eq
      (findText st (findLink st ld.link).textId).content
      (.para (findLink st ld.link).parent) st)]
    set stT := textNewSt st (findText st (findLink st ld.link).textId).content
      (.para (findLink st ld.link).parent) with hstT
    simp only [M.bind_ok _ _ _ _ _ (addContentBefore_eq (findLink st ld.link).parent
      (.text st.fresh) (.link ld.link) stT)]
    set stB := addBeforeSt stT (findLink st ld.link).parent
      (.text st.fresh) (.link ld.link) with hstB
    have hB : InvE ex stB := InvE_addBefore _ _ _ (InvE_textNewSt _ _ h)
      (textNewSt_resolved st _ _)
    exact (Pres_bind (pres_linkRemove ld.link) fun _ =>
      Pres_bind (pres_mergeConsecutiveTexts (findLink st ld.link).parent ⟨st.fresh, ld.cursor⟩)
        fun _ => pres_updateSelection hs) ex stB hB

theorem pres_applyOp (op : Op) : ∀ st, Inv st → Inv (Res.st (applyOp op st)) := by
  cases op with
  | insertChar c hs => exact fun st h => pres_modelInsertChar c hs none st h
  | insertNewParagraph hs => exact pres_modelInsertNewParagraph hs
  | removeNextChar hs => exact fun st h => pres_modelRemoveNextChar hs none st h
  | removePreviousChar hs => exact fun st h => pres_modelRemovePreviousChar hs none st h
  | selectionRemove hs =>
    intro st h
    refine (Pres_bind (pres_getSelection hs) fun sel =>
      Pres_bind (pres_selectionRemove sel) fun p => pres_modelMoveCursor p) none st h
  | link target hs => exact fun st h => pres_modelLink target hs none st h
  | unlink hs => exact fun st h => pres_modelUnlink hs none st h

theorem inv_runOps (ops : List Op) (st : St) (h : Inv st) : Inv (runOps ops st) := by
  induction ops generalizing st with
  | nil => exact h
  | cons op rest ih => exact ih _ (pres_applyOp op st h)

theorem TLen_bind {x : M α} {f : α → M β} (hx : TLen x) (hf : ∀ a, TLen (f a)) :
    TLen (M.bind x f) := by
  intro st
  cases hr : x st with
  | ok a s' =>
    have h₁ := hx st
    rw [hr] at h₁
    simp only [Res.st_ok] at h₁
    simp only [M.bind, hr]
    exact Nat.le_trans h₁ (hf a s')
  | err e s' =>
    have h₁ := hx st
    rw [hr] at h₁
    simp only [M.bind, hr]
    exact h₁

theorem TLen_pure (a : α) : TLen (M.pure a) := fun _ => Nat.le_refl _

theorem TLen_throw (e : Err) : TLen (M.throw e : M α) := fun _ => Nat.le_refl _

theorem TLen_get : TLen M.get := fun _ => Nat.le_refl _

theorem TLen_liftE (e : Except Err α) : TLen (liftE e) := by
  intro st
  cases e <;> exact Nat.le_refl _

theorem aupdate_length (k : Nat) (v : α) (l : List (Nat × α)) :
    (aupdate k v l).length = l.length := by
  induction l with
  | nil => rfl
  | cons q rest ih =>
    obtain ⟨k₀, v₀⟩ := q
    by_cases hk : k = k₀ <;> simp [aupdate, hk, ih]

theorem tlen_setContent (tid : Nat) (v : Str) : TLen (Text.setContent tid v) := by
  intro st
  simp [Text.setContent, aupdate_length]

theorem tlen_append (tid : Nat) (v : Str) : TLen (Text.append tid v) := by
  intro st
  exact tlen_setContent tid _ st

theorem tlen_itemSetContent (it : Item) (v : Str) : TLen (Item.setContent it v) := by
  intro st
  cases it with
  | text tid => exact tlen_setContent tid v st
  | link lid => exact tlen_setContent (findLink st lid).textId v st

theorem tlen_textNew (v : Str) (par : Parent) : TLen (Text.new v par) := by
  intro st
  simp [Text.new]

theorem tlen_parasOnly (pid : Nat) (it : Item) : TLen (Paragraph.addContent pid it) :=
  fun _ => Nat.le_refl _

theorem tlen_paragraphNew : TLen Paragraph.new := fun _ => Nat.le_refl _

theorem tlen_addParagraph (pid : Nat) : TLen (Model.addParagraph pid) :=
  fun _ => Nat.le_refl _

theorem tlen_addContentBefore (pid : Nat) (it ref : Item) :
    TLen (Paragraph.addContentBefore pid it ref) :=
  fun _ => Nat.le_refl _

theorem tlen_modelRemoveContent (pid : Nat) : TLen (Model.removeContent pid) :=
  fun _ => Nat.le_refl _

theorem tlen_paragraphRemoveContent (pid : Nat) (it : Item) :
    TLen (Paragraph.removeContent pid it) := by
  intro st
  unfold Paragraph.removeContent
  split
  · exact Nat.le_refl _
  · simp

theorem tlen_linkRemove (lid : Nat) : TLen (Link.remove lid) := by
  intro st
  exact tlen_paragraphRemoveContent (findLink st lid).parent (.link lid) st

theorem tlen_linkRemoveContent (lid tid : Nat) : TLen (Link.removeContent lid tid) := by
  intro st
  unfold Link.removeContent
  split
  · exact Nat.le_refl _
  · exact tlen_linkRemove lid st

theorem tlen_textRemove (tid : Nat) : TLen (Text.remove tid) := by
  unfold Text.remove
  simp only [M.bind_def, M.pure_def]
  apply TLen_bind TLen_get
  intro st₁
  apply TLen_bind (TLen_liftE _)
  intro previous
  cases (findText st₁ tid).parent with
  | para pid =>
    apply TLen_bind (tlen_paragraphRemoveContent pid _)
    intro _
    cases previous with
    | some p => exact TLen_bind TLen_get fun _ => TLen_pure _
    | none => exact TLen_pure _
  | link lid =>
    apply TLen_bind (tlen_linkRemoveContent lid tid)
    intro _
    cases previous with
    | some p => exact TLen_bind TLen_get fun _ => TLen_pure _
    | none => exact TLen_pure _

theorem tlen_moveCursorDirect (p : Point) : TLen (moveCursorDirect p) :=
  fun _ => Nat.le_refl _

theorem tlen_modelMoveCursor (p : Option Point) : TLen (Model.moveCursor p) := by
  cases p with
  | some pt => exact tlen_moveCursorDirect pt
  | none => exact TLen_pure ()

theorem tlen_mergeLoop (cursor : Point) (l : List Item) :
    ∀ prev acc, TLen (mergeLoop cursor prev l acc) := by
  induction l with
  | nil =>
    intro prev acc
    cases prev <;> exact TLen_pure _
  | cons cur rest ih =>
    intro prev acc
    cases prev with
    | text ptid =>
      cases cur with
      | text ctid =>
        unfold mergeLoop
        simp only [M.bind_def]
        apply TLen_bind TLen_get
        intro st₁
        apply TLen_bind (tlen_append _ _)
        intro _
        apply TLen_bind (tlen_textRemove ctid)
        intro _
        exact ih _ _
      | link clid => exact ih _ _
    | link plid => exact ih _ _

theorem tlen_mergeConsecutiveTexts (pid : Nat) (cursor : Point) :
    TLen (Paragraph.mergeConsecutiveTexts pid cursor) := by
  unfold Paragraph.mergeConsecutiveTexts
  simp only [M.bind_def]
  apply TLen_bind TLen_get
  intro st₁
  cases hc : (findPara st₁ pid).content with
  | nil => exact TLen_bind (TLen_pure _) fun c => tlen_moveCursorDirect c
  | cons first rest =>
    cases rest with
    | nil => exact TLen_bind (TLen_pure _) fun c => tlen_moveCursorDirect c
    | cons second rest' =>
      exact TLen_bind (tlen_mergeLoop cursor _ first cursor) fun c => tlen_moveCursorDirect c

theorem TLen_of_st_id {m : M α} (h : ∀ st, Res.st (m st) = st) : TLen m := by
  intro st
  rw [h st]

theorem tlen_getSelection (hs : HostSel) : TLen (Model.getSelection hs) := by
  unfold Model.getSelection
  simp only [M.bind_def]
  apply TLen_bind TLen_get
  intro st₀
  have hrest : TLen (M.bind (Model.findTextForPath hs.startPath) fun startTid =>
      M.bind (Model.findTextForPath hs.endPath) fun endTid =>
      if startTid ≠ endTid then
        M.bind M.get fun st₁ =>
        M.bind (liftE (textGetPrecedingTextP st₁ endTid)) fun first =>
        M.bind (liftE (walkBetween st₁ startTid (st₁.texts.length + 1) first)) fun tb =>
        M.pure (⟨⟨startTid, hs.startOffset⟩, ⟨endTid, hs.endOffset⟩, tb⟩ : Selection)
      else M.pure ⟨⟨startTid, hs.startOffset⟩, ⟨endTid, hs.endOffset⟩, []⟩) := by
    apply TLen_bind (TLen_of_st_id (modelFindTextForPath_st hs.startPath))
    intro startTid
    apply TLen_bind (TLen_of_st_id (modelFindTextForPath_st hs.endPath))
    intro endTid
    split
    · apply TLen_bind TLen_get
      intro st₁
      apply TLen_bind (TLen_liftE _)
      intro first
      apply TLen_bind (TLen_liftE _)
      intro tb
      exact TLen_pure _
    · exact TLen_pure _
  by_cases hd : st₀.doc = []
  · rw [if_pos hd]
    apply TLen_bind tlen_paragraphNew
    intro pid
    apply TLen_bind (tlen_textNew _ _)
    intro tid
    apply TLen_bind (tlen_parasOnly _ _)
    intro _
    apply TLen_bind (tlen_addParagraph pid)
    intro _
    apply TLen_bind (tlen_modelMoveCursor _)
    intro _
    exact hrest
  · rw [if_neg hd]
    apply TLen_bind (TLen_pure ())
    intro _
    exact hrest

theorem tlen_updateSelection (hs : HostSel) : TLen (Model.updateSelection hs) := by
  unfold Model.updateSelection
  simp only [M.bind_def]
  apply TLen_bind (tlen_getSelection hs)
  intro sel
  apply TLen_bind TLen_get
  intro st₁
  exact fun _ => Nat.le_refl _

theorem link_texts_grow (target : Str) (hs : HostSel) (st : St) (ls : LinkableSel)
    (hls : st.linkableSelection = some ls) :
    st.texts.length < (Res.st (Model.link target hs st)).texts.length := by
  unfold Model.link
  simp only [M.bind_def, M.pure_def]
  simp only [M.bind_ok _ _ _ _ _ (get_eq st)]
  simp only [hls]
  simp only [M.bind_ok _ _ _ _ _ (get_eq st)]
  simp only [M.bind_ok _ _ _ _ _ (linkNew_eq (containingParagraphP st ls.tid)
    (jsSubstring (findText st ls.tid).content ls.start ls.end') target st)]
  set stL := linkNewSt st (containingParagraphP st ls.tid)
    (jsSubstring (findText st ls.tid).content ls.start ls.end') target with hstL
  have hlen : st.texts.length < stL.texts.length := by
    rw [hstL]
    simp [linkNewSt]
  refine Nat.lt_of_lt_of_le hlen ((TLen_bind TLen_get fun st2 => ?_) stL)
  by_cases h1 : ls.start > 0
  · rw [if_pos h1]
    apply TLen_bind (tlen_textNew _ _)
    intro t
    apply TLen_bind (tlen_addContentBefore _ _ _)
    intro _
    apply TLen_bind (tlen_addContentBefore _ _ _)
    intro _
    apply TLen_bind TLen_get
    intro st3
    by_cases h2 : ls.end' < ((findText st3 ls.tid).content.length : Int)
    · rw [if_pos h2]
      apply TLen_bind (tlen_textNew _ _)
      intro t2
      apply TLen_bind (tlen_addContentBefore _ _ _)
      intro _
      apply TLen_bind (tlen_textRemove _)
      intro _
      apply TLen_bind TLen_get
      intro st4
      apply TLen_bind (tlen_modelMoveCursor _)
      intro _
      exact tlen_updateSelection hs
    · rw [if_neg h2]
      apply TLen_bind (TLen_pure ())
      intro _
      apply TLen_bind (tlen_textRemove _)
      intro _
      apply TLen_bind TLen_get
      intro st4
      apply TLen_bind (tlen_modelMoveCursor _)
      intro _
      exact tlen_updateSelection hs
  · rw [if_neg h1]
    apply TLen_bind (TLen_pure ())
    intro _
    apply TLen_bind (tlen_addContentBefore _ _ _)
    intro _
    apply TLen_bind TLen_get
    intro st3
    by_cases h2 : ls.end' < ((findText st3 ls.tid).content.length : Int)
    · rw [if_pos h2]
      apply TLen_bind (tlen_textNew _ _)
      intro t2
      apply TLen_bind (tlen_addContentBefore _ _ _)
      intro _
      apply TLen_bind (tlen_textRemove _)
      intro _
      apply TLen_bind TLen_get
      intro st4
      apply TLen_bind (tlen_modelMoveCursor _)
      intro _
      exact tlen_updateSelection hs
    · rw [if_neg h2]
      apply TLen_bind (TLen_pure ())
      intro _
      apply TLen_bind (tlen_textRemove _)
      intro _
      apply TLen_bind TLen_get
      intro st4
      apply TLen_bind (tlen_modelMoveCursor _)
      intro _
      exact tlen_updateSelection hs

theorem unlink_texts_grow (hs : HostSel) (st : St) (ld : LinkedSel)
    (hld : st.linkedSelection = some ld) :
    st.texts.length < (Res.st (Model.unlink hs st)).texts.length := by
  unfold Model.unlink
  simp only [M.bind_def, M.pure_def]
  simp only [M.bind_ok _ _ _ _ _ (get_eq st)]
  simp only [hld]
  simp only [M.bind_ok _ _ _ _ _ (get_eq st)]
  simp only [M.bind_ok _ _ _ _ _ (textNew_eq
    (findText st (findLink st ld.link).textId).content
    (.para (findLink st ld.link).parent) st)]
  set stT := textNewSt st (findText st (findLink st ld.link).textId).content
    (.para (findLink st ld.link).parent) with hstT
  have hlen : st.texts.length < stT.texts.length := by
    rw [hstT]
    simp [textNewSt]
  exact Nat.lt_of_lt_of_le hlen ((TLen_bind (tlen_addContentBefore _ _ _) fun _ =>
    TLen_bind (tlen_linkRemove ld.link) fun _ =>
    TLen_bind (tlen_mergeConsecutiveTexts (findLink st ld.link).parent ⟨st.fresh, ld.cursor⟩)
      fun _ => tlen_updateSelection hs) stT)

/-- C9: `link(target)` signals the illegal-state fault leaving the Document
unchanged exactly when no `LinkableSelection` is current, and `unlink()`
signals the illegal-state fault leaving the Document unchanged exactly when
no `LinkedSelection` is current. -/
theorem C9_link_unlink_illegal_state (st : St) (target : Str) (hs : HostSel) :
    ((Model.link target hs st = .err .illegalState st) ↔ st.linkableSelection = none) ∧
    ((Model.unlink hs st = .err .illegalState st) ↔ st.linkedSelection = none) := by
  constructor
  · constructor
    · intro heq
      cases hls : st.linkableSelection with
      | none => rfl
      | some ls =>
        have hgrow := link_texts_grow target hs st ls hls
        rw [heq] at hgrow
        simp at hgrow
    · intro hnone
      unfold Model.link
      simp only [M.bind_def]
      simp only [M.bind_ok _ _ _ _ _ (get_eq st)]
      simp [hnone, M.throw]
  · constructor
    · intro heq
      cases hld : st.linkedSelection with
      | none => rfl
      | some ld =>
        have hgrow := unlink_texts_grow hs st ld hld
        rw [heq] at hgrow
        simp at hgrow
    · intro hnone
      unfold Model.unlink
      simp only [M.bind_def]
      simp only [M.bind_ok _ _ _ _ _ (get_eq st)]
      simp [hnone, M.throw]

theorem jsSubstring_zero_of_ge (s : Str) (off : Int) (h : (s.length : Int) ≤ off) :
    jsSubstring s 0 off = s := by
  unfold jsSubstring clampIdx
  by_cases h0 : off ≤ 0
  · have hlen : s.length = 0 := by omega
    simp [hlen, List.length_eq_zero.mp hlen]
  · have hmin : min off.toNat s.length = s.length := by omega
    simp [h0, hmin]

theorem jsSubstring_from_len (s : Str) (off : Int) (h : (s.length : Int) ≤ off) :
    jsSubstring s off (s.length : Int) = [] := by
  unfold jsSubstring clampIdx
  by_cases h0 : off ≤ 0
  · have hlen : s.length = 0 := by omega
    simp [hlen, List.length_eq_zero.mp hlen]
  · have hmin : min off.toNat s.length = s.length := by omega
    by_cases hl : (s.length : Int) ≤ 0
    · have hlen : s.length = 0 := by omega
      simp [hlen, List.length_eq_zero.mp hlen]
    · simp [h0, hl, hmin]

/-- C10: for an offset strictly beyond the run's length, `insertChar` does not
fault: it appends the character to the end of the run's text and returns a
Point at `offset + 1`, which exceeds the resulting run's length (so the
returned Point violates the `[0, length]` offset bound stated for Points). -/
theorem C10_insertChar_past_end (st : St) (tid : Nat) (c : Char) (offset : Int)
    (h : ((findText st tid).content.length : Int) < offset) :
    Text.insertChar tid [c] offset st =
      .ok ⟨tid, offset + 1⟩
        { st with
          texts := aupdate tid ⟨(findText st tid).content ++ [c], (findText st tid).parent⟩ st.texts } ∧
    (((findText st tid).content ++ [c]).length : Int) < offset + 1 := by
  have hle : ((findText st tid).content.length : Int) ≤ offset := le_of_lt h
  constructor
  · unfold Text.insertChar
    simp only [M.bind_def]
    simp only [M.bind_ok _ _ _ _ _ (get_eq st)]
    have hset : Text.setContent tid
        (jsSubstring (findText st tid).content 0 offset ++ [c] ++
          jsSubstring (findText st tid).content offset
            ((findText st tid).content.length : Int)) st
        = .ok () { st with
          texts := aupdate tid ⟨(findText st tid).content ++ [c], (findText st tid).parent⟩ st.texts } := by
      unfold Text.setContent
      rw [jsSubstring_zero_of_ge _ _ hle, jsSubstring_from_len _ _ hle]
      simp [orSpace]
    simp only [M.bind_ok _ _ _ _ _ hset]
    rfl
  · simp
    omega

theorem stScenarioD_run_short : ((findText stScenarioD 0).content.length : Int) < (5 : Int) := by
  decide

theorem C10_insertChar_past_end_witness :
    Text.insertChar 0 ['x'] (5 : Int) stScenarioD =
      Res.ok ⟨0, (5 : Int) + 1⟩
        { stScenarioD with
          texts := aupdate 0 ⟨(findText stScenarioD 0).content ++ ['x'], (findText stScenarioD 0).parent⟩ stScenarioD.texts } ∧
    (((findText stScenarioD 0).content ++ ['x']).length : Int) < (5 : Int) + 1 :=
  C10_insertChar_past_end stScenarioD 0 'x' (5 : Int) stScenarioD_run_short

theorem NoRange_bind {x : M α} {f : α → M β} (hx : NoRange x) (hf : ∀ a, NoRange (f a)) :
    NoRange (M.bind x f) := by
  intro s s' h
  cases hr : x s with
  | ok a s₁ =>
      rw [M.bind_ok _ _ _ _ _ hr] at h
      exact hf a s₁ s' h
  | err e s₁ =>
      rw [M.bind_err _ _ _ _ _ hr] at h
      injection h with h1 h2
      rw [h1] at hr
      exact hx s s₁ hr

theorem NoRange_pure (a : α) : NoRange (M.pure a) :=
  fun _ _ h => Res.noConfusion h

theorem NoRange_get : NoRange M.get :=
  fun _ _ h => Res.noConfusion h

theorem NoRange_throw (e : Err) (he : e ≠ Err.rangeOutOfBounds) : NoRange (M.throw e : M α) := by
  intro s s' h
  injection h with h1
  exact he h1

theorem NoRange_liftE (x : Except Err α) (hx : ∀ e, x = .error e → e ≠ Err.rangeOutOfBounds) :
    NoRange (liftE x) := by
  intro s s' h
  cases x with
  | ok a => exact Res.noConfusion h
  | error e =>
      injection h with h1
      exact hx e rfl h1

theorem lastContentP_err (st : St) (pid : Nat) (e : Err)
    (h : lastContentP st pid = .error e) : e = Err.noContent := by
  unfold lastContentP at h
  split at h
  · exact Except.noConfusion h
  · injection h with h1
    exact h1.symm

theorem lastTextP_err (st : St) (pid : Nat) (e : Err)
    (h : lastTextP st pid = .error e) : e = Err.noContent := by
  unfold lastTextP at h
  cases hl : lastContentP st pid with
  | ok it =>
      rw [hl] at h
      exact Except.noConfusion h
  | error e' =>
      rw [hl] at h
      injection h with h1
      exact h1 ▸ lastContentP_err st pid e' hl

theorem modelGetPrecedingTextP_err (st : St) (pid : Nat) (e : Err)
    (h : modelGetPrecedingTextP st pid = .error e) : e = Err.noContent := by
  unfold modelGetPrecedingTextP at h
  cases hp : previousOfArr st.doc pid with
  | none =>
      rw [hp] at h
      exact Except.noConfusion h
  | some prev =>
      rw [hp] at h
      dsimp only at h
      cases hl : lastTextP st prev with
      | ok t =>
          rw [hl] at h
          exact Except.noConfusion h
      | error e' =>
          rw [hl] at h
          injection h with h1
          exact h1 ▸ lastTextP_err st prev e' hl

theorem paraGetPrecedingTextP_err (st : St) (pid tid : Nat) (e : Err)
    (h : paraGetPrecedingTextP st pid tid = .error e) : e = Err.noContent := by
  unfold paraGetPrecedingTextP at h
  dsimp only at h
  cases hi : idxOf tid ((findPara st pid).content.map (itemTextP st)) with
  | none =>
      rw [hi] at h
      exact modelGetPrecedingTextP_err st pid e h
  | some i =>
      rw [hi] at h
      cases i with
      | zero => exact modelGetPrecedingTextP_err st pid e h
      | succ j =>
          dsimp only at h
          cases hg : (findPara st pid).content.get? j with
          | some it =>
              rw [hg] at h
              exact Except.noConfusion h
          | none =>
              rw [hg] at h
              exact modelGetPrecedingTextP_err st pid e h

theorem textGetPrecedingTextP_err (st : St) (tid : Nat) (e : Err)
    (h : textGetPrecedingTextP st tid = .error e) : e = Err.noContent := by
  unfold textGetPrecedingTextP at h
  split at h
  · exact paraGetPrecedingTextP_err _ _ _ _ h
  · exact paraGetPrecedingTextP_err _ _ _ _ h

theorem noRange_paragraphRemoveContent (pid : Nat) (it : Item) :
    NoRange (Paragraph.removeContent pid it) := by
  intro s s' h
  unfold Paragraph.removeContent at h
  split at h
  · exact Res.noConfusion h
  · exact Res.noConfusion h

theorem noRange_linkRemoveContent (lid tid : Nat) : NoRange (Link.removeContent lid tid) := by
  intro s s' h
  unfold Link.removeContent at h
  split at h
  · injection h with h1
    exact Err.noConfusion h1
  · unfold Link.remove at h
    exact noRange_paragraphRemoveContent _ _ s s' h

theorem noRange_textRemove (tid : Nat) : NoRange (Text.remove tid) := by
  unfold Text.remove
  simp only [M.bind_def, M.pure_def]
  apply NoRange_bind NoRange_get
  intro st₁
  apply NoRange_bind (NoRange_liftE _ ?hliftE)
  case hliftE =>
    intro e he
    simp [textGetPrecedingTextP_err st₁ tid e he]
  intro previous
  cases (findText st₁ tid).parent with
  | para pid =>
    apply NoRange_bind (noRange_paragraphRemoveContent pid _)
    intro _
    cases previous with
    | some p => exact NoRange_bind NoRange_get fun _ => NoRange_pure _
    | none => exact NoRange_pure _
  | link lid =>
    apply NoRange_bind (noRange_linkRemoveContent lid tid)
    intro _
    cases previous with
    | some p => exact NoRange_bind NoRange_get fun _ => NoRange_pure _
    | none => exact NoRange_pure _

/-- C6 counterexample: on the run "ab" (length 2), `removeRange(3, 0)` has
start = 3 outside [0, 2] yet signals no fault: the substring arguments are
clamped, the text becomes "abab" and a Point at offset 3 is returned. -/
theorem C6_removeRange_counterexample :
    ((findText stC6 0).content.length : Int) < 3 ∧
    Text.removeRange 0 3 0 stC6 =
      .ok (some ⟨0, 3⟩)
        { stC6 with texts := aupdate 0 ⟨['a', 'b', 'a', 'b'], Parent.para 10⟩ stC6.texts } := by
  constructor
  · decide
  · rfl

/-- C6 (corrected): `removeRange(start, end)` signals the out-of-bounds fault
exactly when start < 0 or end > run length; a start above the run length or an
end below 0 passes the bounds check unnoticed. -/
theorem C6_removeRange_fault_iff (st : St) (tid : Nat) (a b : Int) :
    (∃ st', Text.removeRange tid a b st = .err Err.rangeOutOfBounds st') ↔
      (a < 0 ∨ b > ((findText st tid).content.length : Int)) := by
  constructor
  · rintro ⟨st', h⟩
    by_contra hc
    unfold Text.removeRange at h
    simp only [M.bind_def, M.pure_def] at h
    rw [M.bind_ok _ _ _ _ _ (get_eq st)] at h
    rw [if_neg hc] at h
    split at h
    · exact noRange_textRemove tid st st' h
    · simp [M.bind, Text.setContent, M.pure] at h
  · intro hcond
    refine ⟨st, ?_⟩
    unfold Text.removeRange
    simp only [M.bind_def, M.pure_def]
    rw [M.bind_ok _ _ _ _ _ (get_eq st)]
    rw [if_pos hcond]
    rfl

/-- C7: deleting the single character of a length-1 run that is the whole
document (removeNextChar at offset 0, or removePreviousChar at offset 1)
empties the document; the next selection query then observes exactly one
paragraph containing one Text Run holding a single space, with the cursor at
offset 0 of that run. -/
theorem C7_single_char_deletion_leaves_space (c : Char) :
    (Res.st (Model.removeNextChar hsC7next (stC7 c))).doc = [] ∧
    (Res.st (Model.removePreviousChar hsC7prev (stC7 c))).doc = [] ∧
    (stC7afterNext c).doc = [11] ∧
    (findPara (stC7afterNext c) 11).content = [Item.text 12] ∧
    (findText (stC7afterNext c) 12).content = [' '] ∧
    (stC7afterNext c).cursor = some ⟨12, 0⟩ ∧
    (stC7afterPrev c).doc = [11] ∧
    (findPara (stC7afterPrev c) 11).content = [Item.text 12] ∧
    (findText (stC7afterPrev c) 12).content = [' '] ∧
    (stC7afterPrev c).cursor = some ⟨12, 0⟩ :=
  ⟨rfl, rfl, rfl, rfl, rfl, rfl, rfl, rfl, rfl, rfl⟩

/-- C5: with a collapsed cursor at offset 0 of a run whose preceding run (per
document-order adjacency) lies in a different paragraph, `removePreviousChar`
is exactly a merge of the two paragraphs (no character is deleted); and in
Scenario D — paragraph "abc" followed by paragraph "def", cursor at offset 0
of "def" — `removePreviousChar` yields the single paragraph "abcdef" with the
cursor at offset 3. -/
theorem C5_removePreviousChar_merges (st : St) (tid p : Nat)
    (hprev : textGetPrecedingTextP st tid = .ok (some p))
    (hne : containingParagraphP st p ≠ containingParagraphP st tid) :
    Text.removePreviousChar tid 0 st =
      Paragraph.combineWith (containingParagraphP st p) (containingParagraphP st tid) st ∧
    (runOps [Op.removePreviousChar hsScenarioD] stScenarioD).doc = [10] ∧
    (findPara (runOps [Op.removePreviousChar hsScenarioD] stScenarioD) 10).content = [Item.text 0] ∧
    (findText (runOps [Op.removePreviousChar hsScenarioD] stScenarioD) 0).content =
      ['a', 'b', 'c', 'd', 'e', 'f'] ∧
    (runOps [Op.removePreviousChar hsScenarioD] stScenarioD).cursor = some ⟨0, 3⟩ := by
  refine ⟨?_, rfl, rfl, rfl, rfl⟩
  unfold Text.removePreviousChar
  simp only [M.bind_def, M.pure_def]
  rw [M.bind_ok _ _ _ _ _ (get_eq st)]
  rw [if_pos (le_refl (0 : Int))]
  have hl : liftE (textGetPrecedingTextP st tid) st = .ok (some p) st := by
    simp [liftE, hprev]
  rw [M.bind_ok _ _ _ _ _ hl]
  dsimp only
  rw [if_pos hne]

theorem C5_removePreviousChar_merges_witness :
    textGetPrecedingTextP stScenarioD 1 = .ok (some 0) ∧
    containingParagraphP stScenarioD 0 ≠ containingParagraphP stScenarioD 1 ∧
    Text.removePreviousChar 1 0 stScenarioD =
      Paragraph.combineWith (containingParagraphP stScenarioD 0)
        (containingParagraphP stScenarioD 1) stScenarioD :=
  ⟨rfl, by decide, (C5_removePreviousChar_merges stScenarioD 1 0 rfl (by decide)).1⟩

theorem OkLinks_bind {x : M α} {f : α → M β} (hx : OkLinks x) (hf : ∀ a, OkLinks (f a)) :
    OkLinks (M.bind x f) := by
  intro s
  obtain ⟨a, s₁, hx1, hfr1, hl1⟩ := hx s
  obtain ⟨b, s₂, hf1, hfr2, hl2⟩ := hf a s₁
  refine ⟨b, s₂, ?_, le_trans hfr1 hfr2, ?_⟩
  · rw [M.bind_ok _ _ _ _ _ hx1]
    exact hf1
  · intro lid lo hlt hlo
    exact hl2 lid lo (lt_of_lt_of_le hlt hfr1) (hl1 lid lo hlt hlo)

theorem OkLinks_pure (a : α) : OkLinks (M.pure a) :=
  fun s => ⟨a, s, rfl, le_refl _, fun _ _ _ h => h⟩

theorem OkLinks_get : OkLinks M.get :=
  fun s => ⟨s, s, rfl, le_refl _, fun _ _ _ h => h⟩

theorem okLinks_textSetContent (tid : Nat) (v : Str) : OkLinks (Text.setContent tid v) :=
  fun s => ⟨(), _, rfl, le_refl _, fun _ _ _ h => h⟩

theorem okLinks_textAppend (tid : Nat) (v : Str) : OkLinks (Text.append tid v) :=
  fun s => ⟨(), _, rfl, le_refl _, fun _ _ _ h => h⟩

theorem okLinks_textNew (c : Str) (p : Parent) : OkLinks (Text.new c p) :=
  fun s => ⟨s.fresh, _, rfl, Nat.le_succ _, fun _ _ _ h => h⟩

theorem okLinks_linkNew (pid : Nat) (c t : Str) : OkLinks (Link.new pid c t) := by
  intro s
  refine ⟨s.fresh, _, rfl, Nat.le_add_right _ 2, ?_⟩
  intro lid lo hlt hlo
  rw [alookup_cons_ne (by omega : lid ≠ s.fresh)]
  exact hlo

theorem okLinks_addContent (pid : Nat) (it : Item) : OkLinks (Paragraph.addContent pid it) :=
  fun s => ⟨(), _, rfl, le_refl _, fun _ _ _ h => h⟩

theorem okLinks_removeContent (pid : Nat) : OkLinks (Model.removeContent pid) :=
  fun s => ⟨(), _, rfl, le_refl _, fun _ _ _ h => h⟩

theorem okLinks_copyToParent (it : Item) (pid : Nat) : OkLinks (Item.copyToParent it pid) := by
  unfold Item.copyToParent
  simp only [M.bind_def, M.pure_def]
  apply OkLinks_bind OkLinks_get
  intro st₁
  cases it with
  | text tid => exact OkLinks_bind (okLinks_textNew _ _) fun t => OkLinks_pure _
  | link lid => exact OkLinks_bind (okLinks_linkNew _ _ _) fun l => OkLinks_pure _

theorem okLinks_combineLoop (pid : Nat) (lastOfThis : Item) (l : List Item) :
    ∀ b, OkLinks (combineLoop pid lastOfThis b l) := by
  induction l with
  | nil =>
      intro b
      exact OkLinks_pure ()
  | cons c rest ih =>
      intro b
      unfold combineLoop
      simp only [M.bind_def, M.pure_def]
      refine OkLinks_bind ?_ fun _ => ih false
      cases b with
      | false =>
          exact OkLinks_bind (okLinks_copyToParent c pid) fun copy => okLinks_addContent pid copy
      | true =>
          cases lastOfThis with
          | link lid =>
              exact OkLinks_bind (okLinks_copyToParent c pid) fun copy => okLinks_addContent pid copy
          | text ltid =>
              cases c with
              | link clid =>
                  exact OkLinks_bind (okLinks_copyToParent _ pid) fun copy => okLinks_addContent pid copy
              | text ctid =>
                  apply OkLinks_bind OkLinks_get
                  intro st₁
                  split
                  · exact okLinks_textAppend _ _
                  · exact okLinks_textSetContent _ _

theorem removeContent_eq (pid : Nat) (s : St) :
    Model.removeContent pid s = .ok () { s with doc := removeFirstArr pid s.doc } := rfl

/-- C4: `combineWith` on two distinct paragraphs succeeds and returns the
point at the old boundary: in the run of the receiver's pre-merge last content
node, at offset 0 when that run's text was whitespace-only, else at its
original length; and a self-merge mutates nothing and returns no point. -/
theorem C4_combineWith_boundary_point (pid other : Nat) (st : St) (lastIt : Item)
    (hne : other ≠ pid)
    (hlast : (findPara st pid).content.getLast? = some lastIt)
    (hres : ItemResolved st lastIt) (hkb : KeysBounded st) :
    (∃ st', Paragraph.combineWith pid other st =
      .ok (some ⟨itemTextP st lastIt,
        if jsTrim (findText st (itemTextP st lastIt)).content = [] then 0
        else ((findText st (itemTextP st lastIt)).content.length : Int)⟩) st') ∧
    Paragraph.combineWith pid pid st = .ok none st := by
  constructor
  · unfold Paragraph.combineWith
    simp only [M.bind_def, M.pure_def]
    rw [if_neg hne]
    rw [M.bind_ok _ _ _ _ _ (get_eq st)]
    rw [hlast]
    dsimp only
    obtain ⟨a, s₁, hcl, hfr, hpres⟩ := okLinks_combineLoop pid lastIt (findPara st other).content true st
    rw [M.bind_ok _ _ _ _ _ hcl]
    rw [M.bind_ok _ _ _ _ _ (removeContent_eq other s₁)]
    rw [M.bind_ok _ _ _ _ _ (get_eq _)]
    have htid : itemTextP { s₁ with doc := removeFirstArr other s₁.doc } lastIt = itemTextP st lastIt := by
      cases lastIt with
      | text tid => rfl
      | link lid =>
          obtain ⟨hl, _⟩ := hres
          obtain ⟨lo, hlo⟩ := Option.isSome_iff_exists.mp hl
          have hlt : lid < st.fresh := hkb.2.1 (lid, lo) (alookup_mem hlo)
          have hlo' := hpres lid lo hlt hlo
          simp [itemTextP, findLink, hlo, hlo']
    rw [htid]
    exact ⟨_, rfl⟩
  · unfold Paragraph.combineWith
    rw [if_pos rfl]
    rfl

theorem C4_combineWith_boundary_point_witness :
    (11 ≠ 10 ∧ (findPara stScenarioD 10).content.getLast? = some (Item.text 0) ∧
     ItemResolved stScenarioD (Item.text 0) ∧ KeysBounded stScenarioD) ∧
    ((∃ st', Paragraph.combineWith 10 11 stScenarioD =
      .ok (some ⟨itemTextP stScenarioD (Item.text 0),
        if jsTrim (findText stScenarioD (itemTextP stScenarioD (Item.text 0))).content = [] then 0
        else ((findText stScenarioD (itemTextP stScenarioD (Item.text 0))).content.length : Int)⟩) st') ∧
    Paragraph.combineWith 10 10 stScenarioD = .ok none stScenarioD) :=
  ⟨⟨by decide, rfl, by decide, by decide⟩,
   C4_combineWith_boundary_point 10 11 stScenarioD (Item.text 0) (by decide) rfl (by decide) (by decide)⟩

theorem OkM_bind {x : M α} {f : α → M β} (hx : OkM x) (hf : ∀ a, OkM (f a)) :
    OkM (M.bind x f) := by
  intro s
  obtain ⟨a, s₁, hx1⟩ := hx s
  obtain ⟨b, s₂, hf1⟩ := hf a s₁
  exact ⟨b, s₂, by rw [M.bind_ok _ _ _ _ _ hx1]; exact hf1⟩

theorem OkM_pure (a : α) : OkM (M.pure a) := fun s => ⟨a, s, rfl⟩

theorem ErrM_throw (e : Err) : ErrM (M.throw e : M α) := fun s => ⟨e, s, rfl⟩

theorem ErrM.of_err {x : M α} (f : α → M β) (hx : ErrM x) : ErrM (M.bind x f) := by
  intro s
  obtain ⟨e, s₁, hx1⟩ := hx s
  exact ⟨e, s₁, by rw [M.bind_err _ _ _ _ _ hx1]⟩

theorem ErrM.of_ok {x : M α} {f : α → M β} (hx : OkM x) (hf : ∀ a, ErrM (f a)) :
    ErrM (M.bind x f) := by
  intro s
  obtain ⟨a, s₁, hx1⟩ := hx s
  obtain ⟨e, s₂, hf1⟩ := hf a s₁
  exact ⟨e, s₂, by rw [M.bind_ok _ _ _ _ _ hx1]; exact hf1⟩

theorem okM_paragraphNew : OkM Paragraph.new := fun s => ⟨s.fresh, _, rfl⟩

theorem okM_addContent (pid : Nat) (it : Item) : OkM (Paragraph.addContent pid it) :=
  fun s => ⟨(), _, rfl⟩

theorem okM_addParagraph (pid : Nat) : OkM (Model.addParagraph pid) :=
  fun s => ⟨(), _, rfl⟩

theorem okM_textNew (c : Str) (p : Parent) : OkM (Text.new c p) :=
  fun s => ⟨s.fresh, _, rfl⟩

theorem okM_linkNew (pid : Nat) (c t : Str) : OkM (Link.new pid c t) :=
  fun s => ⟨s.fresh, _, rfl⟩

theorem textOfMarkdown_ok (parent : Parent) (c : MdNode) (st : St) (h : c.type = "text") :
    Text.ofMarkdown parent c st = .ok st.fresh
      { st with texts := (st.fresh, ⟨orSpace (c.literal.getD []), parent⟩) :: st.texts,
                fresh := st.fresh + 1 } := by
  unfold Text.ofMarkdown
  rw [if_neg (fun hn => hn h)]
  rfl

theorem textOfMarkdown_err (parent : Parent) (c : MdNode) (st : St) (h : c.type ≠ "text") :
    Text.ofMarkdown parent c st = .err .notAText st := by
  unfold Text.ofMarkdown
  rw [if_pos h]
  rfl

theorem linkOfMarkdown_ok (pid : Nat) (c x : MdNode) (st : St)
    (hl : c.type = "link") (hx : c.children = [x]) :
    Link.ofMarkdown pid c st = .ok st.fresh
      { st with links := (st.fresh, ⟨st.fresh + 1, c.destination, pid⟩) :: st.links,
                texts := (st.fresh + 1, ⟨orSpace (x.literal.getD []), .link st.fresh⟩) :: st.texts,
                fresh := st.fresh + 2 } := by
  unfold Link.ofMarkdown
  rw [if_neg (fun hn => hn hl), hx]
  rfl

theorem linkOfMarkdown_err (pid : Nat) (c : MdNode) (st : St)
    (hl : c.type = "link") (hlen : c.children.length ≠ 1) :
    Link.ofMarkdown pid c st = .err .notSingleChild st := by
  unfold Link.ofMarkdown
  rw [if_neg (fun hn => hn hl)]
  cases hcc : c.children with
  | nil => rfl
  | cons a t =>
      cases t with
      | nil => exact absurd (by simp [hcc]) hlen
      | cons b t2 => rfl

theorem okM_linkOfMarkdown (pid : Nat) (c : MdNode)
    (hl : c.type = "link") (hlen : c.children.length = 1) :
    OkM (Link.ofMarkdown pid c) := by
  obtain ⟨x, hx⟩ : ∃ x, c.children = [x] := by
    cases hcc : c.children with
    | nil => simp [hcc] at hlen
    | cons a t =>
        cases t with
        | nil => exact ⟨a, rfl⟩
        | cons b t2 => simp [hcc] at hlen
  exact fun s => ⟨s.fresh, _, linkOfMarkdown_ok pid c x s hl hx⟩

theorem paraOfMdLoop_okM (pid : Nat) (l : List MdNode) (h : l.all okInline = true) :
    OkM (paraOfMdLoop pid l) := by
  induction l with
  | nil => exact OkM_pure ()
  | cons c rest ih =>
      simp only [List.all_cons, Bool.and_eq_true] at h
      obtain ⟨hc, hrest⟩ := h
      unfold paraOfMdLoop
      simp only [M.bind_def, M.pure_def]
      unfold okInline at hc
      by_cases hl : c.type = "link"
      · rw [if_pos hl] at hc ⊢
        have hlen : c.children.length = 1 := by simpa using hc
        exact OkM_bind (okM_linkOfMarkdown pid c hl hlen) fun l =>
          OkM_bind (OkM_pure _) fun y =>
            OkM_bind (okM_addContent pid y) fun _ => ih hrest
      · rw [if_neg hl] at hc ⊢
        have ht : c.type = "text" := by simpa using hc
        exact OkM_bind (fun s => ⟨s.fresh, _, textOfMarkdown_ok (.para pid) c s ht⟩) fun t =>
          OkM_bind (OkM_pure _) fun y =>
            OkM_bind (okM_addContent pid y) fun _ => ih hrest

theorem paraOfMdLoop_errM (pid : Nat) (l : List MdNode) (h : l.all okInline = false) :
    ErrM (paraOfMdLoop pid l) := by
  induction l with
  | nil => simp [List.all_nil] at h
  | cons c rest ih =>
      unfold paraOfMdLoop
      simp only [M.bind_def, M.pure_def]
      cases hcb : okInline c with
      | true =>
          rw [List.all_cons, hcb, Bool.true_and] at h
          unfold okInline at hcb
          by_cases hl : c.type = "link"
          · rw [if_pos hl] at hcb ⊢
            have hlen : c.children.length = 1 := by simpa using hcb
            exact ErrM.of_ok (okM_linkOfMarkdown pid c hl hlen) fun l =>
              ErrM.of_ok (OkM_pure _) fun y =>
                ErrM.of_ok (okM_addContent pid y) fun _ => ih h
          · rw [if_neg hl] at hcb ⊢
            have ht : c.type = "text" := by simpa using hcb
            exact ErrM.of_ok (fun s => ⟨s.fresh, _, textOfMarkdown_ok (.para pid) c s ht⟩) fun t =>
              ErrM.of_ok (OkM_pure _) fun y =>
                ErrM.of_ok (okM_addContent pid y) fun _ => ih h
      | false =>
          unfold okInline at hcb
          by_cases hl : c.type = "link"
          · rw [if_pos hl] at hcb ⊢
            have hlen : c.children.length ≠ 1 := by simpa using hcb
            exact ErrM.of_err _ fun s => ⟨.notSingleChild, s, linkOfMarkdown_err pid c s hl hlen⟩
          · rw [if_neg hl] at hcb ⊢
            have ht : c.type ≠ "text" := by simpa using hcb
            exact ErrM.of_err _ fun s => ⟨.notAText, s, textOfMarkdown_err (.para pid) c s ht⟩

theorem paragraphOfMarkdown_okM (p : MdNode) (h : okPara p = true) :
    OkM (Paragraph.ofMarkdown p) := by
  unfold okPara at h
  simp only [Bool.and_eq_true, beq_iff_eq] at h
  obtain ⟨ht, hall⟩ := h
  unfold Paragraph.ofMarkdown
  rw [if_neg (fun hn => hn ht)]
  simp only [M.bind_def, M.pure_def]
  exact OkM_bind okM_paragraphNew fun pid =>
    OkM_bind (paraOfMdLoop_okM pid p.children hall) fun _ => OkM_pure pid

theorem paragraphOfMarkdown_errM (p : MdNode) (h : okPara p = false) :
    ErrM (Paragraph.ofMarkdown p) := by
  unfold Paragraph.ofMarkdown
  by_cases ht : p.type = "paragraph"
  · rw [if_neg (fun hn => hn ht)]
    simp only [M.bind_def, M.pure_def]
    have hall : p.children.all okInline = false := by
      unfold okPara at h
      rcases Bool.and_eq_false_iff.mp h with h1 | h1
      · exact absurd ht (by simpa using h1)
      · exact h1
    exact ErrM.of_ok okM_paragraphNew fun pid =>
      ErrM.of_err _ (paraOfMdLoop_errM pid p.children hall)
  · rw [if_pos ht]
    exact ErrM_throw .notParagraph

theorem modelOfMdLoop_okM (l : List MdNode) (h : l.all okPara = true) :
    OkM (modelOfMdLoop l) := by
  induction l with
  | nil => exact OkM_pure ()
  | cons p rest ih =>
      simp only [List.all_cons, Bool.and_eq_true] at h
      obtain ⟨hp, hrest⟩ := h
      unfold modelOfMdLoop
      simp only [M.bind_def, M.pure_def]
      exact OkM_bind (paragraphOfMarkdown_okM p hp) fun pid =>
        OkM_bind (okM_addParagraph pid) fun _ => ih hrest

theorem modelOfMdLoop_errM (l : List MdNode) (h : l.all okPara = false) :
    ErrM (modelOfMdLoop l) := by
  induction l with
  | nil => simp [List.all_nil] at h
  | cons p rest ih =>
      unfold modelOfMdLoop
      simp only [M.bind_def, M.pure_def]
      cases hpb : okPara p with
      | true =>
          rw [List.all_cons, hpb, Bool.true_and] at h
          exact ErrM.of_ok (paragraphOfMarkdown_okM p hpb) fun pid =>
            ErrM.of_ok (okM_addParagraph pid) fun _ => ih h
      | false =>
          exact ErrM.of_err _ (paragraphOfMarkdown_errM p hpb)

theorem modelOfMarkdown_okM (d : MdNode) (h : okDoc d = true) :
    OkM (Model.ofMarkdown d) := by
  unfold okDoc at h
  simp only [Bool.and_eq_true, beq_iff_eq] at h
  obtain ⟨ht, hall⟩ := h
  unfold Model.ofMarkdown
  rw [if_neg (fun hn => hn ht)]
  exact modelOfMdLoop_okM d.children hall

theorem modelOfMarkdown_errM (d : MdNode) (h : okDoc d = false) :
    ErrM (Model.ofMarkdown d) := by
  unfold Model.ofMarkdown
  by_cases ht : d.type = "document"
  · rw [if_neg (fun hn => hn ht)]
    have hall : d.children.all okPara = false := by
      unfold okDoc at h
      rcases Bool.and_eq_false_iff.mp h with h1 | h1
      · exact absurd ht (by simpa using h1)
      · exact h1
    exact modelOfMdLoop_errM d.children hall
  · rw [if_pos ht]
    exact ErrM_throw .notDocument

/-- C8 counterexample: the claim says a link inline whose single child is not
a text inline faults, but `Link.ofMarkdown` checks only the child count, so a
document holding a link with one `emph` child parses without fault. -/
theorem C8_ofMarkdown_counterexample :
    okInline (MdNode.mk "link" none ['t'] [.mk "emph" (some ['x']) [] []]) = true ∧
    ∃ st', Model.ofMarkdown mdC8 emptySt = .ok () st' :=
  ⟨rfl, ⟨_, rfl⟩⟩

/-- C8 (corrected): `ofMarkdown` faults exactly when the node is not a
`document`, a top-level child is not a `paragraph`, or an inline child is
neither a `text` inline nor a `link` inline with exactly one child — the
single child's own kind is never checked; a `text` inline with a nonempty
literal is copied verbatim as a Text Run. -/
theorem C8_ofMarkdown_fault_characterization (st : St) (node tnode : MdNode)
    (parent : Parent) (lit : Str)
    (htype : tnode.type = "text") (hlit : tnode.literal = some lit) (hne : lit ≠ []) :
    ((∃ e st', Model.ofMarkdown node st = .err e st') ↔ okDoc node = false) ∧
    Text.ofMarkdown parent tnode st =
      .ok st.fresh { st with texts := (st.fresh, ⟨lit, parent⟩) :: st.texts,
                             fresh := st.fresh + 1 } := by
  constructor
  · constructor
    · rintro ⟨e, st', herr⟩
      cases hd : okDoc node with
      | false => rfl
      | true =>
          obtain ⟨a, s', hok⟩ := modelOfMarkdown_okM node hd st
          rw [hok] at herr
          exact Res.noConfusion herr
    · intro hd
      exact modelOfMarkdown_errM node hd st
  · rw [textOfMarkdown_ok parent tnode st htype, hlit]
    have : orSpace lit = lit := by
      unfold orSpace
      rw [if_neg hne]
    simp only [Option.getD_some, this]

theorem C8_ofMarkdown_fault_characterization_witness :
    ((MdNode.mk "text" (some ['a']) [] []).type = "text" ∧
     (MdNode.mk "text" (some ['a']) [] []).literal = some ['a'] ∧ ['a'] ≠ ([] : Str)) ∧
    (((∃ e st', Model.ofMarkdown mdC8 emptySt = .err e st') ↔ okDoc mdC8 = false) ∧
    Text.ofMarkdown (Parent.para 0) (MdNode.mk "text" (some ['a']) [] []) emptySt =
      .ok emptySt.fresh
        { emptySt with texts := (emptySt.fresh, ⟨['a'], Parent.para 0⟩) :: emptySt.texts,
                       fresh := emptySt.fresh + 1 }) :=
  ⟨⟨rfl, rfl, by decide⟩,
   C8_ofMarkdown_fault_characterization emptySt mdC8 (MdNode.mk "text" (some ['a']) [] [])
     (Parent.para 0) ['a'] rfl rfl (by decide)⟩

theorem orSpace_eq_self {s : Str} (h : s ≠ []) : orSpace s = s := if_neg h

theorem jsSubstring_take (L : Str) (off : Int) (h0 : 0 ≤ off) (hle : off ≤ (L.length : Int)) :
    jsSubstring L 0 off = L.take off.toNat := by
  unfold jsSubstring clampIdx
  have htn : off.toNat ≤ L.length := by omega
  by_cases hz : off ≤ 0
  · have hoff : off = 0 := le_antisymm hz h0
    subst hoff
    simp
  · simp [hz, Nat.min_eq_left htn]

theorem jsSubstring_drop (L : Str) (off : Int) (h0 : 0 ≤ off) (hle : off ≤ (L.length : Int)) :
    jsSubstring L off (L.length : Int) = L.drop off.toNat := by
  unfold jsSubstring clampIdx
  have htn : off.toNat ≤ L.length := by omega
  by_cases hl0 : (L.length : Int) ≤ 0
  · have hnil : L = [] := List.length_eq_zero.mp (by omega)
    subst hnil
    simp
  · have hne : L ≠ [] := fun h => hl0 (by simp [h])
    by_cases hz : off ≤ 0
    · have hoff : off = 0 := le_antisymm hz h0
      subst hoff
      simp [hne]
    · simp [hz, hl0, Nat.min_eq_left htn, Nat.max_eq_right htn, List.take_length]

theorem splitTo_stC3 (L : Str) (off : Int) :
    Paragraph.splitTo 10 11 0 off (stC3 L) = .ok ⟨0, 0⟩ (stC3mid L off) := rfl

theorem stC3mid_eq (L : Str) (off : Int)
    (hA : jsSubstring L 0 off ≠ []) (hB : jsSubstring L off (L.length : Int) ≠ []) :
    stC3mid L off = stC3midR L off := by
  unfold stC3mid stC3midR
  rw [orSpace_eq_self hA, orSpace_eq_self hB]

theorem combineWith_stC3 (L : Str) (off : Int)
    (hA : jsSubstring L 0 off ≠ [])
    (htrim : jsTrim (jsSubstring L 0 off) ≠ []) :
    Paragraph.combineWith 11 10 (stC3midR L off) =
      .ok (some ⟨12, ((jsSubstring L 0 off).length : Int)⟩) (stC3done L off) := by
  have hd : stC3done L off =
      ⟨[(12, ⟨orSpace (jsSubstring L 0 off ++ jsSubstring L off (L.length : Int)), .para 11⟩),
        (0, ⟨jsSubstring L off (L.length : Int), .para 10⟩)],
       [], [(10, ⟨[Item.text 0]⟩), (11, ⟨[Item.text 12]⟩)], [11], none, none, none, 13⟩ := by
    unfold stC3done
    rw [orSpace_eq_self (fun hn => hA (List.append_eq_nil.mp hn).1)]
  rw [hd]
  have hc1 : jsTrim (findText (stC3midR L off) 12).content ≠ [] := htrim
  have hc2 : ¬ jsTrim (findText (stC3midR L off)
      (itemTextP (stC3midR L off) (Item.text 12))).content = [] := htrim
  unfold Paragraph.combineWith
  rw [if_neg (by decide : ¬(10 = 11))]
  simp only [M.bind_def, M.pure_def]
  rw [M.bind_ok _ _ _ _ _ (get_eq (stC3midR L off))]
  rw [show (findPara (stC3midR L off) 11).content.getLast? = some (Item.text 12) from rfl]
  dsimp only
  rw [show (findPara (stC3midR L off) 10).content = [Item.text 0] from rfl]
  have hcl : combineLoop 11 (Item.text 12) true [Item.text 0] (stC3midR L off) =
      .ok () ⟨[(12, ⟨orSpace (jsSubstring L 0 off ++ jsSubstring L off (L.length : Int)), .para 11⟩),
        (0, ⟨jsSubstring L off (L.length : Int), .para 10⟩)],
       [], [(10, ⟨[Item.text 0]⟩), (11, ⟨[Item.text 12]⟩)], [11, 10], none, none, none, 13⟩ := by
    unfold combineLoop
    simp only [M.bind_def, M.pure_def]
    have hhead : (M.bind M.get fun st =>
        if jsTrim (findText st 12).content ≠ [] then Text.append 12 (findText st 0).content
        else Text.setContent 12 (findText st 0).content) (stC3midR L off) =
        Text.append 12 (findText (stC3midR L off) 0).content (stC3midR L off) := by
      rw [M.bind_ok _ _ _ _ _ (get_eq (stC3midR L off))]
      rw [if_pos hc1]
    rw [M.bind_ok _ _ _ _ _ (hhead.trans (rfl))]
    rfl
  rw [M.bind_ok _ _ _ _ _ hcl]
  rw [if_neg hc2]
  rfl

/-- C3 counterexample: the split point (run 0, offset 3) is a valid Point of
the single-run paragraph "abc" (offset within [0, length]), yet splitting
there and immediately combining yields the text "abc " — the emptied suffix
run was replaced by the placeholder space, which the merge then appends. -/
theorem C3_split_combine_counterexample :
    ((0 : Int) ≤ 3 ∧ (3 : Int) ≤ ((['a', 'b', 'c'] : Str).length : Int)) ∧
    ∃ st',
      (M.bind (Paragraph.splitTo 10 11 0 3) fun _ => Paragraph.combineWith 11 10)
        (stC3 ['a', 'b', 'c']) = .ok (some ⟨12, 3⟩) st' ∧
      (findPara st' 11).content = [Item.text 12] ∧
      (findText st' 12).content = ['a', 'b', 'c', ' '] ∧
      (['a', 'b', 'c', ' '] : Str) ≠ ['a', 'b', 'c'] :=
  ⟨⟨by decide, by decide⟩, _, rfl, rfl, rfl, by decide⟩

/-- C3 (corrected): splitting a single-run paragraph at an interior point
whose prefix piece is not whitespace-only, and immediately combining the
prefix paragraph with the suffix paragraph, restores exactly the original
text in one run (the counterexample shows the boundary point offset = length
is not restored: the placeholder space is appended). -/
theorem C3_split_combine_restores (L : Str) (off : Int)
    (h0 : 0 < off) (hlt : off < (L.length : Int))
    (htrim : jsTrim (jsSubstring L 0 off) ≠ []) :
    (M.bind (Paragraph.splitTo 10 11 0 off) fun _ => Paragraph.combineWith 11 10) (stC3 L) =
      .ok (some ⟨12, ((jsSubstring L 0 off).length : Int)⟩) (stC3done L off) ∧
    (findPara (stC3done L off) 11).content = [Item.text 12] ∧
    (findText (stC3done L off) 12).content = L ∧
    (stC3done L off).doc = [11] := by
  have h0' : (0 : Int) ≤ off := le_of_lt h0
  have hle : off ≤ (L.length : Int) := le_of_lt hlt
  have hA : jsSubstring L 0 off ≠ [] := by
    rw [jsSubstring_take L off h0' hle]
    intro hnil
    rw [List.take_eq_nil_iff] at hnil
    rcases hnil with h | h
    · omega
    · rw [h] at hlt
      simp at hlt
      omega
  have hB : jsSubstring L off (L.length : Int) ≠ [] := by
    rw [jsSubstring_drop L off h0' hle]
    intro hnil
    rw [List.drop_eq_nil_iff] at hnil
    omega
  refine ⟨?_, rfl, ?_, rfl⟩
  · rw [M.bind_ok _ _ _ _ _ (splitTo_stC3 L off), stC3mid_eq L off hA hB]
    exact combineWith_stC3 L off hA htrim
  · show jsSubstring L 0 off ++ jsSubstring L off (L.length : Int) = L
    rw [jsSubstring_take L off h0' hle, jsSubstring_drop L off h0' hle]
    exact List.take_append_drop off.toNat L

theorem C3_split_combine_restores_witness :
    ((0 : Int) < 1 ∧ (1 : Int) < ((['a', 'b'] : Str).length : Int) ∧
      jsTrim (jsSubstring ['a', 'b'] 0 1) ≠ []) ∧
    ((M.bind (Paragraph.splitTo 10 11 0 1) fun _ => Paragraph.combineWith 11 10)
        (stC3 ['a', 'b']) =
      .ok (some ⟨12, ((jsSubstring ['a', 'b'] 0 1).length : Int)⟩) (stC3done ['a', 'b'] 1) ∧
    (findPara (stC3done ['a', 'b'] 1) 11).content = [Item.text 12] ∧
    (findText (stC3done ['a', 'b'] 1) 12).content = ['a', 'b'] ∧
    (stC3done ['a', 'b'] 1).doc = [11]) :=
  ⟨⟨by decide, by decide, by decide⟩,
   C3_split_combine_restores ['a', 'b'] 1 (by decide) (by decide) (by decide)⟩

theorem concatB_eq (bs : List Str) (h : bs ≠ []) :
    concatB bs = '\n' :: '\n' :: joinB bs := by
  induction bs with
  | nil => exact absurd rfl h
  | cons b rest ih =>
      cases rest with
      | nil => simp [concatB, joinB]
      | cons b2 rest2 =>
          show ('\n' :: '\n' :: b) ++ concatB (b2 :: rest2) =
            '\n' :: '\n' :: (b ++ '\n' :: '\n' :: joinB (b2 :: rest2))
          rw [ih (by simp)]
          simp

theorem joinB_cons_ex (b : Str) (rest : List Str) : ∃ z, joinB (b :: rest) = b ++ z := by
  cases rest with
  | nil => exact ⟨[], by simp [joinB]⟩
  | cons b2 rest2 => exact ⟨'\n' :: '\n' :: joinB (b2 :: rest2), rfl⟩

theorem joinB_getLast (bs : List Str) (hb : ∀ b ∈ bs, b ≠ []) (bn : Str)
    (hlast : bs.getLast? = some bn) : (joinB bs).getLast? = bn.getLast? := by
  induction bs with
  | nil => simp at hlast
  | cons b rest ih =>
      cases rest with
      | nil =>
          simp at hlast
          subst hlast
          rfl
      | cons b2 rest2 =>
          rw [List.getLast?_cons_cons] at hlast
          have hj : joinB (b :: b2 :: rest2) = b ++ '\n' :: '\n' :: joinB (b2 :: rest2) := rfl
          rw [hj]
          have hne : '\n' :: '\n' :: joinB (b2 :: rest2) ≠ [] := by simp
          rw [List.getLast?_append_of_ne_nil _ hne]
          have hne2 : joinB (b2 :: rest2) ≠ [] := by
            obtain ⟨z, hz⟩ := joinB_cons_ex b2 rest2
            rw [hz]
            have hbb := hb b2 (by simp)
            simp [hbb]
          have h2 : ('\n' :: '\n' :: joinB (b2 :: rest2)).getLast? = (joinB (b2 :: rest2)).getLast? := by
            rw [List.getLast?_cons_cons]
            cases hj2 : joinB (b2 :: rest2) with
            | nil => exact absurd hj2 hne2
            | cons x xs => rfl
          rw [h2]
          exact ih (fun x hx => hb x (by simp [hx])) hlast

theorem dropWhile_eq_self_of_head (p : Char → Bool) (l : Str)
    (h : ∀ c, l.head? = some c → p c = false) : l.dropWhile p = l := by
  cases l with
  | nil => rfl
  | cons c t =>
      rw [List.dropWhile_cons_of_neg]
      simp [h c rfl]

theorem jsTrim_eq_self (s : Str)
    (hh : ∀ c, s.head? = some c → isWsChar c = false)
    (hl : ∀ c, s.getLast? = some c → isWsChar c = false) : jsTrim s = s := by
  unfold jsTrim
  rw [dropWhile_eq_self_of_head _ _ hh]
  rw [dropWhile_eq_self_of_head _ _ (fun c hc => hl c (by rwa [List.head?_reverse] at hc))]
  exact List.reverse_reverse s

theorem jsTrim_cons_nl (s : Str) : jsTrim ('\n' :: s) = jsTrim s := by
  unfold jsTrim
  rw [List.dropWhile_cons_of_pos (by decide)]

theorem jsTrim_concatB (b1 : Str) (rest : List Str)
    (hb : ∀ b ∈ b1 :: rest, b ≠ [])
    (hh : ∀ c, b1.head? = some c → isWsChar c = false)
    (hl : ∀ bn c, (b1 :: rest).getLast? = some bn → bn.getLast? = some c → isWsChar c = false) :
    jsTrim (concatB (b1 :: rest)) = joinB (b1 :: rest) := by
  rw [concatB_eq _ (by simp), jsTrim_cons_nl, jsTrim_cons_nl]
  obtain ⟨bn, hbn⟩ : ∃ bn, (b1 :: rest).getLast? = some bn := by
    cases hg : (b1 :: rest).getLast? with
    | none => simp at hg
    | some x => exact ⟨x, rfl⟩
  apply jsTrim_eq_self
  · intro c hc
    obtain ⟨z, hz⟩ := joinB_cons_ex b1 rest
    rw [hz] at hc
    cases hb1 : b1 with
    | nil => exact absurd hb1 (hb b1 (by simp))
    | cons x xs =>
        rw [hb1] at hc
        simp at hc
        exact hh c (by rw [hb1]; simp [hc])
  · intro c hc
    rw [joinB_getLast _ hb bn hbn] at hc
    exact hl bn c hbn hc

theorem splitParasGo_no_nl (b : Str) (hb : ∀ c ∈ b, c ≠ '\n') :
    ∀ acc, splitParasGo b acc = [acc.reverse ++ b] := by
  induction b with
  | nil => intro acc; simp [splitParasGo]
  | cons c b' ih =>
      intro acc
      have hc : c ≠ '\n' := hb c (by simp)
      have hstep : splitParasGo (c :: b') acc = splitParasGo b' (c :: acc) := by
        conv_lhs => unfold splitParasGo
        split
        · rename_i heq
          exact absurd heq (by simp)
        · rename_i heq
          injection heq with h1 h2
          exact absurd h1 hc
        · rename_i heq
          injection heq with h1 h2
          rw [h1, h2]
      rw [hstep, ih (fun x hx => hb x (by simp [hx]))]
      simp

theorem splitParasGo_sep (b : Str) (hb : ∀ c ∈ b, c ≠ '\n') (t : Str) :
    ∀ acc, splitParasGo (b ++ '\n' :: '\n' :: t) acc = (acc.reverse ++ b) :: splitParasGo t [] := by
  induction b with
  | nil => intro acc; simp [splitParasGo]
  | cons c b' ih =>
      intro acc
      have hc : c ≠ '\n' := hb c (by simp)
      have hstep : splitParasGo ((c :: b') ++ '\n' :: '\n' :: t) acc =
          splitParasGo (b' ++ '\n' :: '\n' :: t) (c :: acc) := by
        conv_lhs => unfold splitParasGo
        split
        · rename_i heq
          exact absurd heq (by simp)
        · rename_i heq
          injection heq with h1 h2
          exact absurd h1 hc
        · rename_i heq
          injection heq with h1 h2
          rw [← h1, ← h2]
          rfl
      rw [hstep, ih (fun x hx => hb x (by simp [hx]))]
      simp

theorem splitParas_joinB (bs : List Str) (hne : bs ≠ [])
    (hnl : ∀ b ∈ bs, ∀ c ∈ b, c ≠ '\n') :
    splitParas (joinB bs) = bs := by
  induction bs with
  | nil => exact absurd rfl hne
  | cons b rest ih =>
      cases rest with
      | nil =>
          show splitParasGo b [] = [b]
          rw [splitParasGo_no_nl b (hnl b (by simp)) []]
          simp
      | cons b2 rest2 =>
          show splitParasGo (b ++ '\n' :: '\n' :: joinB (b2 :: rest2)) [] = b :: b2 :: rest2
          rw [splitParasGo_sep b (hnl b (by simp)) _ []]
          have := ih (by simp) (fun x hx c hc => hnl x (by simp [hx]) c hc)
          simp only [List.reverse_nil, List.nil_append]
          rw [show splitParasGo (joinB (b2 :: rest2)) [] = splitParas (joinB (b2 :: rest2)) from rfl]
          rw [this]

theorem takeWhile_append_exact (p : Char → Bool) (l : Str) (x : Char) (z : Str)
    (hl : ∀ c ∈ l, p c = true) (hx : p x = false) :
    (l ++ x :: z).takeWhile p = l := by
  induction l with
  | nil => simp [List.takeWhile_cons, hx]
  | cons a t ih =>
      rw [List.cons_append, List.takeWhile_cons_of_pos (hl a (by simp))]
      rw [ih (fun c hc => hl c (by simp [hc]))]

theorem dropWhile_append_exact (p : Char → Bool) (l : Str) (x : Char) (z : Str)
    (hl : ∀ c ∈ l, p c = true) (hx : p x = false) :
    (l ++ x :: z).dropWhile p = x :: z := by
  induction l with
  | nil => simp [List.dropWhile_cons, hx]
  | cons a t ih =>
      rw [List.cons_append, List.dropWhile_cons_of_pos (hl a (by simp))]
      exact ih (fun c hc => hl c (by simp [hc]))

theorem parseInlineGo_cons_ne (fuel : Nat) (c : Char) (rest buf : Str) (hc : c ≠ '[') :
    parseInlineGo (fuel + 1) (c :: rest) buf = parseInlineGo fuel rest (c :: buf) := by
  conv_lhs => unfold parseInlineGo
  rw [if_neg hc]

theorem parseInlineGo_txtChunk (s0 : Str) (h : ∀ c ∈ s0, c ≠ '[') :
    ∀ (k : Nat) (R buf : Str),
      parseInlineGo (s0.length + k) (s0 ++ R) buf = parseInlineGo k R (s0.reverse ++ buf) := by
  induction s0 with
  | nil =>
      intro k R buf
      simp
  | cons c s' ih =>
      intro k R buf
      have hc : c ≠ '[' := h c (by simp)
      have hlen : (c :: s').length + k = s'.length + k + 1 := by
        simp [List.length_cons]
        omega
      rw [hlen]
      rw [show ((c :: s') ++ R) = c :: (s' ++ R) from rfl]
      rw [parseInlineGo_cons_ne _ _ _ _ hc]
      rw [ih (fun x hx => h x (by simp [hx])) k R (c :: buf)]
      simp

theorem parseInlineGo_lnk (fuel : Nat) (t d R buf : Str)
    (ht : ∀ c ∈ t, c ≠ ']') (hd : ∀ c ∈ d, c ≠ ')') :
    parseInlineGo (fuel + 1) ('[' :: (t ++ ']' :: '(' :: (d ++ ')' :: R))) buf =
      flushBuf buf (mkLinkNode t d :: parseInlineGo fuel R []) := by
  have htake1 : (t ++ ']' :: '(' :: (d ++ ')' :: R)).takeWhile (· ≠ ']') = t :=
    takeWhile_append_exact _ t ']' _ (fun c hc => decide_eq_true (ht c hc)) (by decide)
  have hdrop1 : (t ++ ']' :: '(' :: (d ++ ')' :: R)).dropWhile (· ≠ ']') =
      ']' :: '(' :: (d ++ ')' :: R) :=
    dropWhile_append_exact _ t ']' _ (fun c hc => decide_eq_true (ht c hc)) (by decide)
  have htake2 : (d ++ ')' :: R).takeWhile (· ≠ ')') = d :=
    takeWhile_append_exact _ d ')' _ (fun c hc => decide_eq_true (hd c hc)) (by decide)
  have hdrop2 : (d ++ ')' :: R).dropWhile (· ≠ ')') = ')' :: R :=
    dropWhile_append_exact _ d ')' _ (fun c hc => decide_eq_true (hd c hc)) (by decide)
  conv_lhs => unfold parseInlineGo
  rw [if_pos rfl]
  simp only [htake1, hdrop1, htake2, hdrop2]

theorem flushBuf_mem {c : MdNode} {buf : Str} {ns : List MdNode}
    (h : c ∈ flushBuf buf ns) : (buf ≠ [] ∧ c = mkTextNode buf.reverse) ∨ c ∈ ns := by
  unfold flushBuf at h
  by_cases hb : buf = []
  · rw [if_pos hb] at h
    exact Or.inr h
  · rw [if_neg hb] at h
    rcases List.mem_cons.mp h with h1 | h1
    · exact Or.inl ⟨hb, h1⟩
    · exact Or.inr h1

theorem flushBuf_flatten (buf : Str) (ns : List MdNode) :
    ((flushBuf buf ns).map nodeStr).flatten = buf.reverse ++ (ns.map nodeStr).flatten := by
  unfold flushBuf
  by_cases hb : buf = []
  · rw [if_pos hb]
    simp [hb]
  · rw [if_neg hb]
    simp [nodeStr, mkTextNode]

theorem parseInlineGo_spec (segs : List Seg) (hg : ∀ sg ∈ segs, GoodSeg sg) :
    ∀ (buf : Str) (fuel : Nat), (segsRender segs).length ≤ fuel →
      parseInlineGo fuel (segsRender segs) buf = parseSpec buf segs := by
  induction segs with
  | nil =>
      intro buf fuel _
      show parseInlineGo fuel [] buf = flushBuf buf []
      cases fuel <;> rfl
  | cons sg rest ih =>
      intro buf fuel hf
      cases sg with
      | txt s0 =>
          have hcs := (hg (.txt s0) (by simp)).2
          have hlen : (segsRender (.txt s0 :: rest)).length =
              s0.length + (segsRender rest).length := by
            simp [segsRender, segRender]
          have hsplit : fuel = s0.length + (fuel - s0.length) := by omega
          rw [show segsRender (.txt s0 :: rest) = s0 ++ segsRender rest from by
            simp [segsRender, segRender]]
          rw [hsplit, parseInlineGo_txtChunk s0 (fun c hc => (hcs c hc).2) _ _ _]
          rw [ih (fun x hx => hg x (by simp [hx])) _ _ (by omega)]
          rfl
      | lnk t d =>
          obtain ⟨hts, htc, hdc⟩ := hg (.lnk t d) (by simp)
          have hshape : segsRender (.lnk t d :: rest) =
              '[' :: (t ++ ']' :: '(' :: (d ++ ')' :: segsRender rest)) := by
            simp [segsRender, segRender]
          have hlen : (segsRender (.lnk t d :: rest)).length =
              t.length + d.length + 4 + (segsRender rest).length := by
            rw [hshape]
            simp
            omega
          have hsplit : fuel = (fuel - 1) + 1 := by omega
          rw [hshape, hsplit]
          rw [parseInlineGo_lnk _ t d _ buf (fun c hc => (htc c hc).2) (fun c hc => (hdc c hc).2)]
          rw [ih (fun x hx => hg x (by simp [hx])) _ _ (by omega)]
          rfl

theorem parseSpec_ok (segs : List Seg) (hg : ∀ sg ∈ segs, GoodSeg sg) :
    ∀ buf, ∀ c ∈ parseSpec buf segs, nodeOK c := by
  induction segs with
  | nil =>
      intro buf c hc
      rcases flushBuf_mem hc with ⟨hb, rfl⟩ | h
      · exact Or.inl ⟨buf.reverse, by simp [hb], rfl⟩
      · simp at h
  | cons sg rest ih =>
      intro buf c hc
      cases sg with
      | txt s0 => exact ih (fun x hx => hg x (by simp [hx])) _ c hc
      | lnk t d =>
          rcases flushBuf_mem hc with ⟨hb, rfl⟩ | h
          · exact Or.inl ⟨buf.reverse, by simp [hb], rfl⟩
          · rcases List.mem_cons.mp h with h1 | h1
            · exact Or.inr ⟨t, d, (hg (.lnk t d) (by simp)).1, h1⟩
            · exact ih (fun x hx => hg x (by simp [hx])) [] c h1

theorem parseSpec_render (segs : List Seg) :
    ∀ buf, ((parseSpec buf segs).map nodeStr).flatten = buf.reverse ++ segsRender segs := by
  induction segs with
  | nil =>
      intro buf
      show ((flushBuf buf []).map nodeStr).flatten = _
      rw [flushBuf_flatten]
      simp [segsRender]
  | cons sg rest ih =>
      intro buf
      cases sg with
      | txt s0 =>
          show ((parseSpec (s0.reverse ++ buf) rest).map nodeStr).flatten = _
          rw [ih]
          simp [segsRender, segRender]
      | lnk t d =>
          show ((flushBuf buf (mkLinkNode t d :: parseSpec [] rest)).map nodeStr).flatten = _
          rw [flushBuf_flatten]
          simp only [List.map_cons, List.flatten_cons]
          rw [ih []]
          simp [segsRender, segRender, nodeStr, mkLinkNode, mkTextNode, MdNode.literal]

theorem Ext.rfl (s : St) : Ext s s :=
  ⟨le_refl _, fun _ _ _ h => h, fun _ _ _ h => h⟩

theorem Ext.trans {s1 s2 s3 : St} (h12 : Ext s1 s2) (h23 : Ext s2 s3) : Ext s1 s3 := by
  obtain ⟨hf1, ht1, hl1⟩ := h12
  obtain ⟨hf2, ht2, hl2⟩ := h23
  exact ⟨le_trans hf1 hf2,
    fun k v hk hv => ht2 k v (lt_of_lt_of_le hk hf1) (ht1 k v hk hv),
    fun k v hk hv => hl2 k v (lt_of_lt_of_le hk hf1) (hl1 k v hk hv)⟩

theorem ItemRB_render_pres {s s' : St} (hE : Ext s s') {it : Item} (h : ItemRB s it) :
    ItemRB s' it ∧ Item.toMarkdownP s' it = Item.toMarkdownP s it := by
  obtain ⟨hf, ht, hl⟩ := hE
  cases it with
  | text tid =>
      obtain ⟨hlt, hsome⟩ := h
      obtain ⟨v, hv⟩ := Option.isSome_iff_exists.mp hsome
      have hv' := ht tid v hlt hv
      constructor
      · exact ⟨lt_of_lt_of_le hlt hf, by simp [hv']⟩
      · simp [Item.toMarkdownP, Text.toMarkdownP, findText, hv, hv']
  | link lid =>
      obtain ⟨hlt, lo, hlo, htlt, hts⟩ := h
      obtain ⟨tv, htv⟩ := Option.isSome_iff_exists.mp hts
      have hlo' := hl lid lo hlt hlo
      have htv' := ht lo.textId tv htlt htv
      constructor
      · exact ⟨lt_of_lt_of_le hlt hf, lo, hlo', lt_of_lt_of_le htlt hf, by simp [htv']⟩
      · simp [Item.toMarkdownP, Link.toMarkdownP, findLink, findText, hlo, hlo', htv, htv']

theorem findPara_aupdate_self {s : St} {pid : Nat} {pv : ParaObj}
    (hpv : alookup pid s.paras = some pv) (v : ParaObj) (l : List (Nat × ParaObj))
    (hl : l = aupdate pid v s.paras) :
    alookup pid l = some v := by
  subst hl
  rw [alookup_aupdate_map, hpv]
  rfl

theorem bTxtSt_step (s : St) (pid : Nat) (l : Str) (hlne : l ≠ []) :
    Text.ofMarkdown (.para pid) (mkTextNode l) s = .ok s.fresh (bTxtSt s pid l) := by
  have h := textOfMarkdown_ok (.para pid) (mkTextNode l) s rfl
  rw [show (mkTextNode l).literal.getD [] = l from rfl, orSpace_eq_self hlne] at h
  exact h

theorem bTxtSt_add (s : St) (pid : Nat) (l : Str) (pv : ParaObj)
    (hpv : alookup pid s.paras = some pv) :
    Paragraph.addContent pid (Item.text s.fresh) (bTxtSt s pid l) =
      .ok () (bTxtSt2 s pid l pv) := by
  have hfp : findPara (bTxtSt s pid l) pid = pv := by
    simp [bTxtSt, findPara, hpv]
  show Res.ok () _ = _
  rw [hfp]
  rfl

theorem bLnkSt_step (s : St) (pid : Nat) (t d : Str) (htne : t ≠ []) :
    Link.ofMarkdown pid (mkLinkNode t d) s = .ok s.fresh (bLnkSt s pid t d) := by
  have h := linkOfMarkdown_ok pid (mkLinkNode t d) (mkTextNode t) s rfl rfl
  rw [show (mkTextNode t).literal.getD [] = t from rfl, orSpace_eq_self htne,
    show (mkLinkNode t d).destination = d from rfl] at h
  exact h

theorem bLnkSt_add (s : St) (pid : Nat) (t d : Str) (pv : ParaObj)
    (hpv : alookup pid s.paras = some pv) :
    Paragraph.addContent pid (Item.link s.fresh) (bLnkSt s pid t d) =
      .ok () (bLnkSt2 s pid t d pv) := by
  have hfp : findPara (bLnkSt s pid t d) pid = pv := by
    simp [bLnkSt, findPara, hpv]
  show Res.ok () _ = _
  rw [hfp]
  rfl

theorem paraOfMdLoop_build (pid : Nat) :
    ∀ (ns : List MdNode), (∀ c ∈ ns, nodeOK c) →
    ∀ s : St, KeysBounded s → pid < s.fresh → (alookup pid s.paras).isSome = true →
    ∃ s' its, paraOfMdLoop pid ns s = .ok () s' ∧
      KeysBounded s' ∧ Ext s s' ∧
      (alookup pid s'.paras).isSome = true ∧
      s'.doc = s.doc ∧
      (∀ q, q ≠ pid → alookup q s'.paras = alookup q s.paras) ∧
      (findPara s' pid).content = (findPara s pid).content ++ its ∧
      (∀ it ∈ its, ItemRB s' it) ∧
      its.map (Item.toMarkdownP s') = ns.map nodeStr := by
  intro ns
  induction ns with
  | nil =>
      intro _ s hkb hpid hsome
      exact ⟨s, [], rfl, hkb, Ext.rfl s, hsome, rfl, fun _ _ => rfl, by simp, by simp, rfl⟩
  | cons c rest ih =>
      intro hok s hkb hpid hsome
      obtain ⟨pv, hpv⟩ := Option.isSome_iff_exists.mp hsome
      rcases hok c (by simp) with ⟨l, hlne, rfl⟩ | ⟨t, d, htne, rfl⟩
      · have hkb2 : KeysBounded (bTxtSt2 s pid l pv) := by
          obtain ⟨hkt, hkl, hkp⟩ := hkb
          refine ⟨?_, ?_, ?_⟩
          · intro p hp
            rcases List.mem_cons.mp hp with rfl | hp'
            · simp [bTxtSt2, bTxtSt]
            · have := hkt p hp'
              simp [bTxtSt2, bTxtSt]
              omega
          · intro p hp
            have := hkl p hp
            simp [bTxtSt2, bTxtSt]
            omega
          · intro p hp
            rcases mem_aupdate hp with hp' | rfl
            · have := hkp p hp'
              simp [bTxtSt2, bTxtSt]
              omega
            · simp [bTxtSt2, bTxtSt]
              omega
        have hsome2 : (alookup pid (bTxtSt2 s pid l pv).paras).isSome = true := by
          show (alookup pid (aupdate pid _ s.paras)).isSome = true
          rw [alookup_aupdate_isSome]
          exact hsome
        obtain ⟨s', its', hres, hkb', hExt2, hsome', hdoc', hq', hcont', hrb', hmap'⟩ :=
          ih (fun x hx => hok x (by simp [hx])) (bTxtSt2 s pid l pv) hkb2
            (by simp [bTxtSt2, bTxtSt] <;> omega) hsome2
        have hExt1 : Ext s (bTxtSt2 s pid l pv) := by
          refine ⟨by simp [bTxtSt2, bTxtSt], ?_, ?_⟩
          · intro k v hk hv
            show alookup k ((s.fresh, (⟨l, .para pid⟩ : TextObj)) :: s.texts) = some v
            rw [alookup_cons_ne (by omega : k ≠ s.fresh)]
            exact hv
          · intro k v hk hv
            exact hv
        have hRB2 : ItemRB (bTxtSt2 s pid l pv) (Item.text s.fresh) := by
          refine ⟨by simp [bTxtSt2, bTxtSt], ?_⟩
          show (alookup s.fresh ((s.fresh, (⟨l, .para pid⟩ : TextObj)) :: s.texts)).isSome = true
          simp [alookup]
        have hrender2 : Item.toMarkdownP (bTxtSt2 s pid l pv) (Item.text s.fresh) = l := by
          simp [bTxtSt2, bTxtSt, Item.toMarkdownP, Text.toMarkdownP, findText, alookup]
        refine ⟨s', Item.text s.fresh :: its', ?_, hkb', Ext.trans hExt1 hExt2, hsome',
          ?_, ?_, ?_, ?_, ?_⟩
        · unfold paraOfMdLoop
          simp only [M.bind_def, M.pure_def]
          rw [if_neg (show ¬ ((mkTextNode l).type = "link") from by
            simp [mkTextNode, MdNode.type])]
          rw [M.bind_ok _ _ _ _ _ (bTxtSt_step s pid l hlne)]
          rw [M.bind_ok _ _ _ _ _ (show (M.pure (Item.text s.fresh) : M Item) (bTxtSt s pid l) =
            .ok (Item.text s.fresh) (bTxtSt s pid l) from rfl)]
          rw [M.bind_ok _ _ _ _ _ (bTxtSt_add s pid l pv hpv)]
          exact hres
        · rw [hdoc']
          rfl
        · intro q hq
          rw [hq' q hq]
          show alookup q (aupdate pid (⟨pv.content ++ [Item.text s.fresh]⟩ : ParaObj) s.paras) = _
          rw [alookup_aupdate_ne _ hq]
        · rw [hcont']
          rw [show findPara (bTxtSt2 s pid l pv) pid = ⟨pv.content ++ [Item.text s.fresh]⟩ from by
            simp [bTxtSt2, bTxtSt, findPara, alookup_aupdate_map, hpv]]
          rw [show findPara s pid = pv from by simp [findPara, hpv]]
          simp
        · intro it hit
          rcases List.mem_cons.mp hit with rfl | hit'
          · exact (ItemRB_render_pres hExt2 hRB2).1
          · exact hrb' it hit'
        · simp only [List.map_cons]
          rw [hmap']
          rw [show Item.toMarkdownP s' (Item.text s.fresh) = l from
            ((ItemRB_render_pres hExt2 hRB2).2).trans hrender2]
          rfl
      · have hkb2 : KeysBounded (bLnkSt2 s pid t d pv) := by
          obtain ⟨hkt, hkl, hkp⟩ := hkb
          refine ⟨?_, ?_, ?_⟩
          · intro p hp
            rcases List.mem_cons.mp hp with rfl | hp'
            · simp [bLnkSt2, bLnkSt]
            · have := hkt p hp'
              simp [bLnkSt2, bLnkSt]
              omega
          · intro p hp
            rcases List.mem_cons.mp hp with rfl | hp'
            · simp [bLnkSt2, bLnkSt]
            · have := hkl p hp'
              simp [bLnkSt2, bLnkSt]
              omega
          · intro p hp
            rcases mem_aupdate hp with hp' | rfl
            · have := hkp p hp'
              simp [bLnkSt2, bLnkSt]
              omega
            · simp [bLnkSt2, bLnkSt]
              omega
        have hsome2 : (alookup pid (bLnkSt2 s pid t d pv).paras).isSome = true := by
          show (alookup pid (aupdate pid _ s.paras)).isSome = true
          rw [alookup_aupdate_isSome]
          exact hsome
        obtain ⟨s', its', hres, hkb', hExt2, hsome', hdoc', hq', hcont', hrb', hmap'⟩ :=
          ih (fun x hx => hok x (by simp [hx])) (bLnkSt2 s pid t d pv) hkb2
            (by simp [bLnkSt2, bLnkSt] <;> omega) hsome2
        have hExt1 : Ext s (bLnkSt2 s pid t d pv) := by
          refine ⟨by simp [bLnkSt2, bLnkSt] <;> omega, ?_, ?_⟩
          · intro k v hk hv
            show alookup k ((s.fresh + 1, (⟨t, .link s.fresh⟩ : TextObj)) :: s.texts) = some v
            rw [alookup_cons_ne (by omega : k ≠ s.fresh + 1)]
            exact hv
          · intro k v hk hv
            show alookup k ((s.fresh, (⟨s.fresh + 1, d, pid⟩ : LinkObj)) :: s.links) = some v
            rw [alookup_cons_ne (by omega : k ≠ s.fresh)]
            exact hv
        have hRB2 : ItemRB (bLnkSt2 s pid t d pv) (Item.link s.fresh) := by
          refine ⟨by simp [bLnkSt2, bLnkSt] <;> omega, ⟨s.fresh + 1, d, pid⟩, ?_,
            by simp [bLnkSt2, bLnkSt] <;> omega, ?_⟩
          · show alookup s.fresh ((s.fresh, (⟨s.fresh + 1, d, pid⟩ : LinkObj)) :: s.links) = _
            simp [alookup]
          · show (alookup (⟨s.fresh + 1, d, pid⟩ : LinkObj).textId
              ((s.fresh + 1, (⟨t, .link s.fresh⟩ : TextObj)) :: s.texts)).isSome = true
            simp [alookup]
        have hrender2 : Item.toMarkdownP (bLnkSt2 s pid t d pv) (Item.link s.fresh) =
            '[' :: t ++ ']' :: '(' :: d ++ [')'] := by
          simp [bLnkSt2, bLnkSt, Item.toMarkdownP, Link.toMarkdownP, findLink, findText, alookup]
        refine ⟨s', Item.link s.fresh :: its', ?_, hkb', Ext.trans hExt1 hExt2, hsome',
          ?_, ?_, ?_, ?_, ?_⟩
        · unfold paraOfMdLoop
          simp only [M.bind_def, M.pure_def]
          rw [if_pos (show (mkLinkNode t d).type = "link" from rfl)]
          rw [M.bind_ok _ _ _ _ _ (bLnkSt_step s pid t d htne)]
          rw [M.bind_ok _ _ _ _ _ (show (M.pure (Item.link s.fresh) : M Item) (bLnkSt s pid t d) =
            .ok (Item.link s.fresh) (bLnkSt s pid t d) from rfl)]
          rw [M.bind_ok _ _ _ _ _ (bLnkSt_add s pid t d pv hpv)]
          exact hres
        · rw [hdoc']
          rfl
        · intro q hq
          rw [hq' q hq]
          show alookup q (aupdate pid (⟨pv.content ++ [Item.link s.fresh]⟩ : ParaObj) s.paras) = _
          rw [alookup_aupdate_ne _ hq]
        · rw [hcont']
          rw [show findPara (bLnkSt2 s pid t d pv) pid = ⟨pv.content ++ [Item.link s.fresh]⟩ from by
            simp [bLnkSt2, bLnkSt, findPara, alookup_aupdate_map, hpv]]
          rw [show findPara s pid = pv from by simp [findPara, hpv]]
          simp
        · intro it hit
          rcases List.mem_cons.mp hit with rfl | hit'
          · exact (ItemRB_render_pres hExt2 hRB2).1
          · exact hrb' it hit'
        · simp only [List.map_cons]
          rw [hmap']
          rw [show Item.toMarkdownP s' (Item.link s.fresh) =
            '[' :: t ++ ']' :: '(' :: d ++ [')'] from
            ((ItemRB_render_pres hExt2 hRB2).2).trans hrender2]
          rfl

theorem paragraphOfMarkdown_build (p : MdNode) (htype : p.type = "paragraph")
    (hok : ∀ c ∈ p.children, nodeOK c) (s : St) (hkb : KeysBounded s) :
    ∃ s' its, Paragraph.ofMarkdown p s = .ok s.fresh s' ∧
      KeysBounded s' ∧ Ext s s' ∧ s.fresh < s'.fresh ∧
      s'.doc = s.doc ∧
      (∀ q, q < s.fresh → alookup q s'.paras = alookup q s.paras) ∧
      (alookup s.fresh s'.paras).isSome = true ∧
      (findPara s' s.fresh).content = its ∧
      (∀ it ∈ its, ItemRB s' it) ∧
      its.map (Item.toMarkdownP s') = p.children.map nodeStr := by
  have hkbN : KeysBounded (seedPara s) := by
    obtain ⟨hkt, hkl, hkp⟩ := hkb
    refine ⟨?_, ?_, ?_⟩
    · intro q hq
      have := hkt q hq
      simp [seedPara]
      omega
    · intro q hq
      have := hkl q hq
      simp [seedPara]
      omega
    · intro q hq
      rcases List.mem_cons.mp hq with rfl | hq'
      · simp [seedPara]
      · have := hkp q hq'
        simp [seedPara]
        omega
  have hlt : s.fresh < (seedPara s).fresh := by simp [seedPara]
  have hsomeN : (alookup s.fresh (seedPara s).paras).isSome = true := by
    show (alookup s.fresh ((s.fresh, (⟨[]⟩ : ParaObj)) :: s.paras)).isSome = true
    simp [alookup]
  obtain ⟨s', its, hres, hkb', hExt2, hsome', hdoc', hq', hcont', hrb', hmap'⟩ :=
    paraOfMdLoop_build s.fresh p.children hok (seedPara s) hkbN hlt hsomeN
  have hExt1 : Ext s (seedPara s) :=
    ⟨by simp [seedPara], fun k v _ hv => hv, fun k v _ hv => hv⟩
  refine ⟨s', its, ?_, hkb', Ext.trans hExt1 hExt2, lt_of_lt_of_le hlt hExt2.1,
    hdoc'.trans rfl, ?_, hsome', ?_, hrb', hmap'⟩
  · unfold Paragraph.ofMarkdown
    rw [if_neg (fun hn => hn htype)]
    simp only [M.bind_def, M.pure_def]
    rw [M.bind_ok _ _ _ _ _ (paragraphNew_eq s)]
    rw [M.bind_ok _ _ _ _ _ hres]
    rfl
  · intro q hq
    rw [hq' q (by omega)]
    show alookup q ((s.fresh, (⟨[]⟩ : ParaObj)) :: s.paras) = _
    rw [alookup_cons_ne (by omega : q ≠ s.fresh)]
  · rw [hcont']
    rw [show findPara (seedPara s) s.fresh = ⟨[]⟩ from by
      simp [seedPara, findPara, alookup]]
    simp

theorem bodyP_pres {s s' : St} {pid : Nat} (hE : Ext s s')
    (hpar : alookup pid s'.paras = alookup pid s.paras) (hRB : ParaRB s pid) :
    ParaRB s' pid ∧ bodyP s' pid = bodyP s pid := by
  obtain ⟨hlt, hsome, hits⟩ := hRB
  have hcontent : (findPara s' pid).content = (findPara s pid).content := by
    simp [findPara, hpar]
  constructor
  · refine ⟨lt_of_lt_of_le hlt hE.1, by rw [hpar]; exact hsome, ?_⟩
    rw [hcontent]
    intro it hit
    exact (ItemRB_render_pres hE (hits it hit)).1
  · unfold bodyP
    rw [hcontent]
    congr 1
    exact List.map_congr_left (fun it hit => (ItemRB_render_pres hE (hits it hit)).2)

theorem modelOfMdLoop_build :
    ∀ (ps : List MdNode), (∀ p ∈ ps, p.type = "paragraph" ∧ ∀ c ∈ p.children, nodeOK c) →
    ∀ s, KeysBounded s →
    ∃ s' pids, modelOfMdLoop ps s = .ok () s' ∧
      KeysBounded s' ∧ Ext s s' ∧
      s'.doc = s.doc ++ pids ∧
      (∀ pid, ParaRB s pid → ParaRB s' pid ∧ bodyP s' pid = bodyP s pid) ∧
      (∀ pid ∈ pids, ParaRB s' pid) ∧
      pids.map (bodyP s') = ps.map (fun p => (p.children.map nodeStr).flatten) := by
  intro ps
  induction ps with
  | nil =>
      intro _ s hkb
      exact ⟨s, [], rfl, hkb, Ext.rfl s, by simp, fun _ h => ⟨h, rfl⟩, by simp, rfl⟩
  | cons p rest ih =>
      intro hok s hkb
      obtain ⟨htype, hcok⟩ := hok p (by simp)
      obtain ⟨s1, its, hres1, hkb1, hExt1, hlt1, hdoc1, hq1, hsome1, hcont1, hrb1, hmap1⟩ :=
        paragraphOfMarkdown_build p htype hcok s hkb
      have hadd : Model.addParagraph s.fresh s1 = .ok () { s1 with doc := s1.doc ++ [s.fresh] } := rfl
      have hkb2 : KeysBounded { s1 with doc := s1.doc ++ [s.fresh] } := hkb1
      obtain ⟨s', pids', hres', hkb', hExt', hdoc', hpres', hpids', hmap'⟩ :=
        ih (fun x hx => hok x (by simp [hx])) { s1 with doc := s1.doc ++ [s.fresh] } hkb2
      have hExt12 : Ext s1 { s1 with doc := s1.doc ++ [s.fresh] } :=
        ⟨le_refl _, fun _ _ _ hv => hv, fun _ _ _ hv => hv⟩
      have hRBnew : ParaRB { s1 with doc := s1.doc ++ [s.fresh] } s.fresh := by
        refine ⟨hlt1, hsome1, ?_⟩
        show ∀ it ∈ (findPara s1 s.fresh).content, ItemRB s1 it
        rw [hcont1]
        exact hrb1
      refine ⟨s', s.fresh :: pids', ?_, hkb', Ext.trans hExt1 (Ext.trans hExt12 hExt'), ?_, ?_, ?_, ?_⟩
      · unfold modelOfMdLoop
        simp only [M.bind_def, M.pure_def]
        rw [M.bind_ok _ _ _ _ _ hres1]
        rw [M.bind_ok _ _ _ _ _ hadd]
        exact hres'
      · rw [hdoc']
        show (s1.doc ++ [s.fresh]) ++ pids' = s.doc ++ s.fresh :: pids'
        rw [hdoc1]
        simp
      · intro pid hRB
        have h1 := bodyP_pres hExt1 (hq1 pid hRB.1) hRB
        have h2 := hpres' pid h1.1
        exact ⟨h2.1, h2.2.trans h1.2⟩
      · intro pid hpid
        rcases List.mem_cons.mp hpid with rfl | hpid'
        · exact (hpres' s.fresh hRBnew).1
        · exact hpids' pid hpid'
      · simp only [List.map_cons]
        rw [hmap']
        have hb : bodyP s' s.fresh = (p.children.map nodeStr).flatten := by
          rw [(hpres' s.fresh hRBnew).2]
          show (List.map (Item.toMarkdownP s1) (findPara s1 s.fresh).content).flatten = _
          rw [hcont1, hmap1]
        rw [hb]

theorem itemRender_seg (st : St) (it : Item) :
    Item.toMarkdownP st it = segRender (itemSeg st it) := by
  cases it <;> rfl

theorem itemRender_ne (st : St) (it : Item) (h : GoodItem st it) :
    Item.toMarkdownP st it ≠ [] := by
  cases it with
  | text tid =>
      exact h.1
  | link lid =>
      simp [Item.toMarkdownP, Link.toMarkdownP]

theorem bodyP_ne (st : St) (pid : Nat) (hc : (findPara st pid).content ≠ [])
    (hg : ∀ it ∈ (findPara st pid).content, GoodItem st it) : bodyP st pid ≠ [] := by
  unfold bodyP
  cases hcon : (findPara st pid).content with
  | nil => exact absurd hcon hc
  | cons it rest =>
      simp only [List.map_cons, List.flatten_cons]
      have := itemRender_ne st it (hg it (by rw [hcon]; simp))
      exact fun hnil => this (List.append_eq_nil.mp hnil).1

theorem GoodSeg_no_nl (sg : Seg) (h : GoodSeg sg) : ∀ c ∈ segRender sg, c ≠ '\n' := by
  cases sg with
  | txt s =>
      intro c hc
      exact (h.2 c hc).1
  | lnk t d =>
      intro c hc
      obtain ⟨_, ht, hd⟩ := h
      simp [segRender] at hc
      rcases hc with rfl | hc | rfl | rfl | hc | rfl
      · decide
      · exact (ht c hc).1
      · decide
      · decide
      · exact (hd c hc).1
      · decide

theorem bodyP_no_nl (st : St) (pid : Nat)
    (hg : ∀ it ∈ (findPara st pid).content, GoodItem st it) :
    ∀ c ∈ bodyP st pid, c ≠ '\n' := by
  intro c hc
  unfold bodyP at hc
  obtain ⟨r, hr, hcr⟩ := List.mem_flatten.mp hc
  obtain ⟨it, hit, rfl⟩ := List.mem_map.mp hr
  rw [itemRender_seg] at hcr
  exact GoodSeg_no_nl _ (hg it hit) c hcr

theorem bodyP_segs (st : St) (pid : Nat) :
    bodyP st pid = segsRender ((findPara st pid).content.map (itemSeg st)) := by
  unfold bodyP segsRender
  rw [List.map_map]
  congr 1
  exact List.map_congr_left (fun it _ => itemRender_seg st it)

theorem renders_concatB (s0 : St) :
    (s0.doc.map (Paragraph.toMarkdownP s0)).flatten = concatB (s0.doc.map (bodyP s0)) := by
  unfold concatB
  rw [List.map_map]
  rfl

theorem parseInline_body (st : St) (pid : Nat)
    (hg : ∀ sg ∈ (findPara st pid).content.map (itemSeg st), GoodSeg sg) :
    parseInline (bodyP st pid) = parseSpec [] ((findPara st pid).content.map (itemSeg st)) := by
  unfold parseInline
  rw [bodyP_segs]
  exact parseInlineGo_spec _ hg [] _ (le_refl _)

/-- C2: for a document built purely from the accepted grammar, parsing its
serialization rebuilds a document with the identical serialization:
`toMarkdown (ofMarkdown (toMarkdown d)) = toMarkdown d`. -/
theorem C2_markdown_roundtrip (st : St) (h : GoodDoc st) :
    ∃ st', Model.ofMarkdown (parseMarkdown (Model.toMarkdownP st)) emptySt = .ok () st' ∧
      Model.toMarkdownP st' = Model.toMarkdownP st := by
  obtain ⟨hdne, hhead, hlast, hparas⟩ := h
  obtain ⟨p1, ds, heq⟩ : ∃ p1 ds, st.doc = p1 :: ds := by
    cases hd : st.doc with
    | nil => exact absurd hd hdne
    | cons a l => exact ⟨a, l, rfl⟩
  have hball : ∀ b ∈ st.doc.map (bodyP st), b ≠ [] := by
    intro b hb
    obtain ⟨pid, hpid, rfl⟩ := List.mem_map.mp hb
    exact bodyP_ne st pid (hparas pid hpid).1 (hparas pid hpid).2
  have hnl : ∀ b ∈ st.doc.map (bodyP st), ∀ c ∈ b, c ≠ '\n' := by
    intro b hb
    obtain ⟨pid, hpid, rfl⟩ := List.mem_map.mp hb
    exact bodyP_no_nl st pid (hparas pid hpid).2
  have hh : ∀ c, (bodyP st p1).head? = some c → isWsChar c = false := by
    intro c hc
    unfold headOK at hhead
    rw [heq] at hhead
    simp only [List.head?_cons] at hhead
    rw [hc] at hhead
    simpa using hhead
  have hlb : ∀ bn c, (st.doc.map (bodyP st)).getLast? = some bn → bn.getLast? = some c →
      isWsChar c = false := by
    intro bn c hbn hcb
    unfold lastOK at hlast
    rw [List.getLast?_map] at hbn
    cases hpn : st.doc.getLast? with
    | none =>
        rw [hpn] at hbn
        simp at hbn
    | some pn =>
        rw [hpn] at hbn
        simp at hbn
        rw [hpn] at hlast
        dsimp only at hlast
        rw [← hbn] at hcb
        rw [hcb] at hlast
        simpa using hlast
  have hmapcons : st.doc.map (bodyP st) = bodyP st p1 :: ds.map (bodyP st) := by
    rw [heq]
    rfl
  have htoMk : Model.toMarkdownP st = joinB (st.doc.map (bodyP st)) := by
    show jsTrim (st.doc.map (Paragraph.toMarkdownP st)).flatten = _
    rw [renders_concatB st]
    rw [hmapcons]
    exact jsTrim_concatB _ _ (hmapcons ▸ hball) hh (hmapcons ▸ hlb)
  have hsplit : splitParas (Model.toMarkdownP st) = st.doc.map (bodyP st) := by
    rw [htoMk]
    exact splitParas_joinB _ (by rw [hmapcons]; simp) hnl
  have hparse : parseMarkdown (Model.toMarkdownP st) =
      .mk "document" none [] ((st.doc.map (bodyP st)).map
        (fun b => .mk "paragraph" none [] (parseInline b))) := by
    unfold parseMarkdown
    rw [hsplit]
  have hbodyfacts : ∀ b ∈ st.doc.map (bodyP st),
      (∀ c ∈ parseInline b, nodeOK c) ∧ ((parseInline b).map nodeStr).flatten = b := by
    intro b hb
    obtain ⟨pid, hpid, rfl⟩ := List.mem_map.mp hb
    have hg : ∀ sg ∈ (findPara st pid).content.map (itemSeg st), GoodSeg sg := by
      intro sg hsg
      obtain ⟨it, hit, rfl⟩ := List.mem_map.mp hsg
      exact (hparas pid hpid).2 it hit
    constructor
    · intro c hc
      rw [parseInline_body st pid hg] at hc
      exact parseSpec_ok _ hg [] c hc
    · rw [parseInline_body st pid hg, parseSpec_render]
      simp [bodyP_segs]
  have hkbE : KeysBounded emptySt := by
    refine ⟨?_, ?_, ?_⟩ <;> (intro p hp; simp [emptySt] at hp)
  obtain ⟨s', pids, hres, hkb', hExt', hdoc', hpres', hpids', hmap'⟩ :=
    modelOfMdLoop_build ((st.doc.map (bodyP st)).map
        (fun b => .mk "paragraph" none [] (parseInline b)))
      (by
        intro p hp
        obtain ⟨b, hb, rfl⟩ := List.mem_map.mp hp
        exact ⟨rfl, fun c hc => (hbodyfacts b hb).1 c hc⟩)
      emptySt hkbE
  refine ⟨s', ?_, ?_⟩
  · rw [hparse]
    unfold Model.ofMarkdown
    rw [if_neg (fun hn => hn rfl)]
    exact hres
  · have hdoc2 : s'.doc = pids := by
      rw [hdoc']
      simp [emptySt]
    have hbodies' : pids.map (bodyP s') = st.doc.map (bodyP st) := by
      rw [hmap', List.map_map]
      conv_rhs => rw [← List.map_id (List.map (bodyP st) st.doc)]
      refine List.map_congr_left ?_
      intro b hb
      exact (hbodyfacts b hb).2
    show jsTrim (s'.doc.map (Paragraph.toMarkdownP s')).flatten = _
    rw [renders_concatB s', hdoc2, hbodies', hmapcons]
    rw [jsTrim_concatB _ _ (hmapcons ▸ hball) hh (hmapcons ▸ hlb)]
    rw [htoMk, hmapcons]

theorem C2_markdown_roundtrip_witness :
    GoodDoc stScenarioD ∧
    ∃ st', Model.ofMarkdown (parseMarkdown (Model.toMarkdownP stScenarioD)) emptySt =
        .ok () st' ∧
      Model.toMarkdownP st' = Model.toMarkdownP stScenarioD :=
  ⟨by decide, C2_markdown_roundtrip stScenarioD (by decide)⟩

/-- C1: After any sequence of the edit operations of section 4 (insertChar,
insertNewParagraph, removeNextChar, removePreviousChar, selection remove,
link, unlink) applied to a well-formed Document, every Paragraph of the
document has at least one content node, every Text Run of the document has
at least one character, and every Link of the document resolves to a link
object owning exactly one Text Run (itself resolving to a text object). -/
theorem C1_edit_ops_preserve_nonempty (ops : List Op) (st : St) (h : Inv st) :
    (∀ pid ∈ (runOps ops st).doc, (findPara (runOps ops st) pid).content ≠ []) ∧
    (∀ pid ∈ (runOps ops st).doc, ∀ it ∈ (findPara (runOps ops st) pid).content,
      (findText (runOps ops st) (itemTextP (runOps ops st) it)).content ≠ []) ∧
    (∀ pid ∈ (runOps ops st).doc, ∀ lid, Item.link lid ∈ (findPara (runOps ops st) pid).content →
      ∃ lo, alookup lid (runOps ops st).links = some lo ∧
        (alookup lo.textId (runOps ops st).texts).isSome = true) := by
  obtain ⟨h1, h2, h3, hb⟩ := inv_runOps ops st h
  refine ⟨fun pid hpid => h2 pid hpid (by simp), ?_, ?_⟩
  · intro pid hpid it hit
    have hres := findPara_items_resolved h3 pid it hit
    cases it with
    | text tid =>
      obtain ⟨t, ht⟩ := Option.isSome_iff_exists.mp hres
      have := h1 _ (alookup_mem ht)
      simpa [itemTextP, findText, ht] using this
    | link lid =>
      obtain ⟨t, ht⟩ := Option.isSome_iff_exists.mp hres.2
      have := h1 _ (alookup_mem ht)
      simpa [itemTextP, findText, ht] using this
  · intro pid hpid lid hit
    have hres := findPara_items_resolved h3 pid _ hit
    obtain ⟨lo, hlo⟩ := Option.isSome_iff_exists.mp hres.1
    refine ⟨lo, hlo, ?_⟩
    have := hres.2
    simpa [findLink, hlo] using this

/-- A concrete two-paragraph document ("abc" and "def"). -/
theorem C1_edit_ops_preserve_nonempty_witness :
    Inv stScenarioD ∧
    ((∀ pid ∈ (runOps [Op.removePreviousChar hsScenarioD] stScenarioD).doc,
      (findPara (runOps [Op.removePreviousChar hsScenarioD] stScenarioD) pid).content ≠ []) ∧
    (∀ pid ∈ (runOps [Op.removePreviousChar hsScenarioD] stScenarioD).doc,
      ∀ it ∈ (findPara (runOps [Op.removePreviousChar hsScenarioD] stScenarioD) pid).content,
      (findText (runOps [Op.removePreviousChar hsScenarioD] stScenarioD)
        (itemTextP (runOps [Op.removePreviousChar hsScenarioD] stScenarioD) it)).content ≠ []) ∧
    (∀ pid ∈ (runOps [Op.removePreviousChar hsScenarioD] stScenarioD).doc, ∀ lid,
      Item.link lid ∈ (findPara (runOps [Op.removePreviousChar hsScenarioD] stScenarioD) pid).content →
      ∃ lo, alookup lid (runOps [Op.removePreviousChar hsScenarioD] stScenarioD).links = some lo ∧
        (alookup lo.textId (runOps [Op.removePreviousChar hsScenarioD] stScenarioD).texts).isSome = true)) :=
  ⟨by decide, C1_edit_ops_preserve_nonempty [Op.removePreviousChar hsScenarioD] stScenarioD (by decide)⟩

end MarkdownInput
